import Mathlib

/-!
# xv6 shell (`sh.c`): command parser, builtin dispatch and line editor

A shallow embedding of `sh.c`.  Character buffers are lists of byte values
(`Nat`), a `char *` into a buffer is an offset into that list, and a function
that advances `*ps` returns the new offset.  `panic` never returns, so every
parsing function returns in `Except Panic`.  Recursion and `while` loops that
are not structurally bounded carry a step budget; running out of budget is the
separate outcome `Panic.outOfFuel`, which is shown below never to happen for
the budget `parsecmd` hands out.
-/

namespace Sh

/-! ## Bytes and buffers -/

/-- Reading `b[i]`; the lists used as buffers always hold the index read. -/
def rd (b : List Nat) (i : Nat) : Nat := b.getD i 0

/-- The array `whitespace[] = " \t\r\n\v"`. -/
def whitespace : List Nat := [32, 9, 13, 10, 11]

/-- The array `symbols[] = "<|>&;()"`. -/
def symbols : List Nat := [60, 124, 62, 38, 59, 40, 41]

/-- The test `strchr(set, c) != 0` of xv6's `ulib.c`, which walks the characters of `set`
in front of its terminator.  Every call in `sh.c` is made with `c != 0`. -/
def strchr (set : List Nat) (c : Nat) : Bool := set.contains c

/-- The function `strlen`, scanning from offset `i` with `n` bytes of the buffer left. -/
def strlenFrom (b : List Nat) : Nat → Nat → Nat
  | 0, _ => 0
  | n + 1, i => if rd b i = 0 then 0 else strlenFrom b n (i + 1) + 1

/-- The call `strlen(b)`. -/
def strlen (b : List Nat) : Nat := strlenFrom b b.length 0

/-- The zero-terminated string that starts at offset `i` of `b`. -/
def cstr (b : List Nat) (i : Nat) : List Nat := (b.drop i).takeWhile (fun c => c != 0)

/-! ## Command trees -/

/-- The open modes the parser passes to `redircmd`; `fcntl.h` is not part of the listing,
so the two flag expressions stay symbolic. -/
inductive OMode
  | O_RDONLY
  | O_WRONLY_or_O_CREATE
  deriving DecidableEq, Repr

/-- The tagged structs `execcmd`, `redircmd`, `pipecmd`, `listcmd`, `backcmd`.  An Exec node
holds the filled entries of `argv[]`/`eargv[]` as pairs `(argv[i], eargv[i])`. -/
inductive Cmd
  | exec (argv : List (Nat × Nat))
  | redir (cmd : Cmd) (file efile : Nat) (mode : OMode) (fd : Nat)
  | pipe (left right : Cmd)
  | list (left right : Cmd)
  | back (cmd : Cmd)
  deriving DecidableEq, Repr

/-- The ways parsing can stop without a tree: the `panic` calls of the parser, and the
exhausted step budget of the model. -/
inductive Panic
  | missingFile   -- panic("missing file for redirection")
  | synErr        -- panic("syntax") in parseexec
  | leftovers     -- "leftovers: ..." then panic("syntax") in parsecmd
  | tooManyArgs   -- panic("too many args")
  | noBlock       -- panic("parseblock")
  | missingParen  -- panic("syntax - missing )")
  | outOfFuel
  deriving DecidableEq, Repr

def MAXARGS : Nat := 10

/-! ## Tokenizer -/

/-- The loop `while(s < es && strchr(whitespace, *s)) s++;`. -/
def skipwsLoop (b : List Nat) (es : Nat) : Nat → Nat → Nat
  | 0, s => s
  | n + 1, s =>
    if s < es && strchr whitespace (rd b s) then skipwsLoop b es n (s + 1) else s

/-- The whitespace loop run from `s`; it makes at most `es - s` steps. -/
def skipws (b : List Nat) (es s : Nat) : Nat := skipwsLoop b es (es - s) s

/-- The loop `while(s < es && !strchr(whitespace, *s) && !strchr(symbols, *s)) s++;`. -/
def wordLoop (b : List Nat) (es : Nat) : Nat → Nat → Nat
  | 0, s => s
  | n + 1, s =>
    if s < es && !strchr whitespace (rd b s) && !strchr symbols (rd b s)
    then wordLoop b es n (s + 1) else s

/-- The word loop run from `s`; it makes at most `es - s` steps. -/
def wordEnd (b : List Nat) (es s : Nat) : Nat := wordLoop b es (es - s) s

/-- What one `gettoken` call hands back: the return value, `*q`, `*eq` and the new `*ps`. -/
structure Tok where
  ret : Nat
  q : Nat
  eq : Nat
  ps : Nat
  deriving DecidableEq, Repr

/-- The function `gettoken(ps, es, &q, &eq)`. -/
def gettoken (b : List Nat) (es ps : Nat) : Tok :=
  let s := skipws b es ps
  let c := rd b s
  let r : Nat × Nat :=
    if c = 0 then (c, s)
    else if c = 124 ∨ c = 40 ∨ c = 41 ∨ c = 59 ∨ c = 38 ∨ c = 60 then (c, s + 1)
    else if c = 62 then (if rd b (s + 1) = 62 then (43, s + 2) else (c, s + 1))
    else (97, wordEnd b es s)
  { ret := r.1, q := s, eq := r.2, ps := skipws b es r.2 }

/-- The function `peek(ps, es, toks)`: the new `*ps` and the truth of the returned value. -/
def peek (b : List Nat) (es ps : Nat) (toks : List Nat) : Nat × Bool :=
  let s := skipws b es ps
  (s, rd b s != 0 && strchr toks (rd b s))

/-! ## Parser -/

/-- The stores `cmd->argv[argc] = q; cmd->eargv[argc] = eq;` of `parseexec`.  There `cmd`
aliases the Exec node that sits under the Redir nodes `parseredirs` has wrapped around
`ret`, so the store lands in the innermost node of `ret`. -/
def Cmd.storeArg : Cmd → Nat × Nat → Cmd
  | .exec argv, a => .exec (argv ++ [a])
  | .redir c f ef m fd, a => .redir (c.storeArg a) f ef m fd
  | c, _ => c

/-- The function `parseredirs(cmd, ps, es)`. -/
def parseredirs (b : List Nat) (es : Nat) : Nat → Cmd → Nat → Except Panic (Cmd × Nat)
  | 0, _, _ => .error .outOfFuel
  | n + 1, cmd, ps =>
    let p := peek b es ps [60, 62]
    if p.2 then
      let t := gettoken b es p.1
      let f := gettoken b es t.ps
      if f.ret ≠ 97 then .error .missingFile
      else
        let cmd1 :=
          if t.ret = 60 then Cmd.redir cmd f.q f.eq .O_RDONLY 0
          else if t.ret = 62 then Cmd.redir cmd f.q f.eq .O_WRONLY_or_O_CREATE 1
          else if t.ret = 43 then Cmd.redir cmd f.q f.eq .O_WRONLY_or_O_CREATE 1
          else cmd
        parseredirs b es n cmd1 f.ps
    else .ok (cmd, p.1)

/-- The `while(!peek(ps, es, "|)&;"))` loop of `parseexec`; `argc` counts the stored words. -/
def parseexecLoop (b : List Nat) (es : Nat) : Nat → Cmd → Nat → Nat → Except Panic (Cmd × Nat)
  | 0, _, _, _ => .error .outOfFuel
  | n + 1, ret, argc, ps =>
    let p := peek b es ps [124, 41, 38, 59]
    if p.2 then .ok (ret, p.1)
    else
      let t := gettoken b es p.1
      if t.ret = 0 then .ok (ret, t.ps)
      else if t.ret ≠ 97 then .error .synErr
      else
        let ret1 := ret.storeArg (t.q, t.eq)
        if argc + 1 ≥ MAXARGS then .error .tooManyArgs
        else
          match parseredirs b es n ret1 t.ps with
          | .error e => .error e
          | .ok r => parseexecLoop b es n r.1 (argc + 1) r.2

/-- The `while(peek(ps, es, "&"))` loop of `parseline`. -/
def parselineBack (b : List Nat) (es : Nat) : Nat → Cmd → Nat → Except Panic (Cmd × Nat)
  | 0, _, _ => .error .outOfFuel
  | n + 1, cmd, ps =>
    let p := peek b es ps [38]
    if p.2 then parselineBack b es n (.back cmd) (gettoken b es p.1).ps
    else .ok (cmd, p.1)

mutual

/-- The function `parseline(ps, es)`. -/
def parseline (b : List Nat) (es : Nat) : Nat → Nat → Except Panic (Cmd × Nat)
  | 0, _ => .error .outOfFuel
  | n + 1, ps =>
    match parsepipe b es n ps with
    | .error e => .error e
    | .ok r =>
      match parselineBack b es n r.1 r.2 with
      | .error e => .error e
      | .ok r1 =>
        let p := peek b es r1.2 [59]
        if p.2 then
          match parseline b es n (gettoken b es p.1).ps with
          | .error e => .error e
          | .ok r2 => .ok (.list r1.1 r2.1, r2.2)
        else .ok (r1.1, p.1)
termination_by structural n => n

/-- The function `parsepipe(ps, es)`. -/
def parsepipe (b : List Nat) (es : Nat) : Nat → Nat → Except Panic (Cmd × Nat)
  | 0, _ => .error .outOfFuel
  | n + 1, ps =>
    match parseexec b es n ps with
    | .error e => .error e
    | .ok r =>
      let p := peek b es r.2 [124]
      if p.2 then
        match parsepipe b es n (gettoken b es p.1).ps with
        | .error e => .error e
        | .ok r2 => .ok (.pipe r.1 r2.1, r2.2)
      else .ok (r.1, p.1)
termination_by structural n => n

/-- The function `parseexec(ps, es)`. -/
def parseexec (b : List Nat) (es : Nat) : Nat → Nat → Except Panic (Cmd × Nat)
  | 0, _ => .error .outOfFuel
  | n + 1, ps =>
    let p := peek b es ps [40]
    if p.2 then parseblock b es n p.1
    else
      match parseredirs b es n (.exec []) p.1 with
      | .error e => .error e
      | .ok r => parseexecLoop b es n r.1 0 r.2
termination_by structural n => n

/-- The function `parseblock(ps, es)`. -/
def parseblock (b : List Nat) (es : Nat) : Nat → Nat → Except Panic (Cmd × Nat)
  | 0, _ => .error .outOfFuel
  | n + 1, ps =>
    let p := peek b es ps [40]
    if !p.2 then .error .noBlock
    else
      match parseline b es n (gettoken b es p.1).ps with
      | .error e => .error e
      | .ok r =>
        let p2 := peek b es r.2 [41]
        if !p2.2 then .error .missingParen
        else parseredirs b es n r.1 (gettoken b es p2.1).ps
termination_by structural n => n

end

/-- The function `nulterminate(cmd)`: the buffer after the stores `*eargv[i] = 0` and
`*efile = 0`. -/
def nulterminate : Cmd → List Nat → List Nat
  | .exec argv, b => argv.foldl (fun m a => m.set a.2 0) b
  | .redir c _ ef _ _, b => (nulterminate c b).set ef 0
  | .pipe l r, b => nulterminate r (nulterminate l b)
  | .list l r, b => nulterminate r (nulterminate l b)
  | .back c, b => nulterminate c b

/-- The function `parsecmd(s)` on the buffer `b` that `s` points to: the returned tree
together with the buffer as `nulterminate` leaves it. -/
def parsecmd (b : List Nat) : Except Panic (Cmd × List Nat) :=
  let es := strlen b
  match parseline b es (4 * es + 4) 0 with
  | .error e => .error e
  | .ok r =>
    let p := peek b es r.2 []
    if p.1 ≠ es then .error .leftovers
    else .ok (r.1, nulterminate r.1 b)


/-! ## History -/

def HISTORY_SIZE : Nat := 20

def CMD_SIZE : Nat := 100

/-- The copy `strcpy(dst, src)` of the string `src` and its terminator over the front of the
array `dst`. -/
def strcpy (dst src : List Nat) : List Nat := src ++ 0 :: dst.drop (src.length + 1)

/-- The loop `for (int i = 1; i < HISTORY_SIZE; i++) strcpy(history[i - 1], history[i]);`
on the rows of `history`, each row standing for the string it holds. -/
def shiftHistory (history : List (List Nat)) : List (List Nat) :=
  (List.range' 1 (HISTORY_SIZE - 1)).foldl (fun h i => h.set (i - 1) (h.getD i [])) history

/-- The function `history_add(line)` on the rows `history[0 .. history_len)`; `history_len`
is the length of the list and `line` the string handed over.  A row is a `char[CMD_SIZE]`
and stands here for the string it holds: the list is the array as long as every entry and
the line have at most `CMD_SIZE - 1` bytes, so that each string and its terminator stay
inside their row. -/
def history_add (history : List (List Nat)) (line : List Nat) : List (List Nat) :=
  if (line.length : Int) ≤ 0 then history
  else if history.length > 0 ∧ history.getD (history.length - 1) [] = line then history
  else if history.length < HISTORY_SIZE then history ++ [line]
  else (shiftHistory history).set (HISTORY_SIZE - 1) line

/-! ## Line editor -/

def KEY_UP : Nat := 0xE2
def KEY_DN : Nat := 0xE3
def KEY_LF : Nat := 0xE4
def KEY_RT : Nat := 0xE5

/-- A loop `for (i = from; i < stop; i++) putc_fd(2, c);`: the bytes written. -/
def putUp (c : Nat) (stop : Int) : Nat → Int → List Nat
  | 0, _ => []
  | n + 1, i => if i < stop then c :: putUp c stop n (i + 1) else []

/-- A loop `for (i = from; i > stop; i--) putc_fd(2, c);`: the bytes written. -/
def putDown (c : Nat) (stop : Int) : Nat → Int → List Nat
  | 0, _ => []
  | n + 1, i => if i > stop then c :: putDown c stop n (i - 1) else []

/-- The function `redraw(buf, len, cursor, prev_len)`: the bytes written to descriptor 2,
`cwd` being the string in the global of that name. -/
def redraw (cwd buf : List Nat) (len cursor prev_len : Int) : List Nat :=
  [13] ++ cwd ++ [36, 32] ++ (if len > 0 then buf.take len.toNat else []) ++
    putUp 32 prev_len (prev_len - len).toNat len ++
    putUp 8 prev_len (prev_len - len).toNat len ++
    putDown 8 cursor (len - cursor).toNat len

/-- The locals of `readline_xv6` together with the array `buf` and the bytes written to
descriptor 2 so far. -/
structure Ed where
  buf : List Nat
  len : Int
  cursor : Int
  prev_len : Int
  hist_idx : Int
  out : List Nat
  deriving DecidableEq, Repr

/-- The loop `for (int i = len; i > cursor; i--) buf[i] = buf[i - 1];`. -/
def shiftRight (cursor : Int) : Nat → Int → List Nat → List Nat
  | 0, _, buf => buf
  | n + 1, i, buf =>
    if i > cursor then shiftRight cursor n (i - 1) (buf.set i.toNat (rd buf (i - 1).toNat))
    else buf

/-- The loop `for (int i = cursor - 1; i < len - 1; i++) buf[i] = buf[i + 1];`. -/
def shiftLeft (len : Int) : Nat → Int → List Nat → List Nat
  | 0, _, buf => buf
  | n + 1, i, buf =>
    if i < len - 1 then shiftLeft len n (i + 1) (buf.set i.toNat (rd buf (i + 1).toNat))
    else buf

/-- The branch "Enter key was pressed" up to the call of `history_add`. -/
def keyEnter (e : Ed) : Ed :=
  { e with buf := e.buf.set e.len.toNat 0, out := e.out ++ [10] }

/-- The branch "Left arrow was pressed". -/
def keyLeft (cwd : List Nat) (e : Ed) : Ed :=
  if e.cursor > 0 then
    { e with cursor := e.cursor - 1, prev_len := e.len,
             out := e.out ++ redraw cwd e.buf e.len (e.cursor - 1) e.prev_len }
  else e

/-- The branch "Right arrow was pressed". -/
def keyRight (cwd : List Nat) (e : Ed) : Ed :=
  if e.cursor < e.len then
    { e with cursor := e.cursor + 1, prev_len := e.len,
             out := e.out ++ redraw cwd e.buf e.len (e.cursor + 1) e.prev_len }
  else e

/-- The branch "Up arrow was pressed". -/
def keyUp (cwd : List Nat) (history : List (List Nat)) (e : Ed) : Ed :=
  if (history.length : Int) > 0 then
    let hist_idx := if e.hist_idx > 0 then e.hist_idx - 1 else e.hist_idx
    let buf := strcpy e.buf (history.getD hist_idx.toNat [])
    let len : Int := strlen buf
    { buf := buf, len := len, cursor := len, prev_len := len, hist_idx := hist_idx,
      out := e.out ++ redraw cwd buf len len e.prev_len }
  else e

/-- The branch "Down arrow was pressed". -/
def keyDown (cwd : List Nat) (history : List (List Nat)) (e : Ed) : Ed :=
  if (history.length : Int) > 0 then
    let hist_idx := if e.hist_idx < history.length then e.hist_idx + 1 else e.hist_idx
    let buf :=
      if hist_idx = history.length then e.buf.set 0 0
      else strcpy e.buf (history.getD hist_idx.toNat [])
    let len : Int := if hist_idx = history.length then 0 else strlen buf
    { buf := buf, len := len, cursor := len, prev_len := len, hist_idx := hist_idx,
      out := e.out ++ redraw cwd buf len len e.prev_len }
  else e

/-- The branch "backspace or delete key was pressed". -/
def keyBackspace (cwd : List Nat) (e : Ed) : Ed :=
  if e.cursor > 0 then
    let buf := shiftLeft e.len (e.len - e.cursor).toNat (e.cursor - 1) e.buf
    let len := e.len - 1
    let cursor := e.cursor - 1
    let buf := buf.set len.toNat 0
    { e with buf := buf, len := len, cursor := cursor, prev_len := len,
             out := e.out ++ redraw cwd buf len cursor e.prev_len }
  else e

/-- The branch "normal printable ASCII chars". -/
def keyInsert (cwd : List Nat) (nbuf : Int) (e : Ed) (c : Nat) : Ed :=
  if e.len < nbuf - 1 then
    let buf := shiftRight e.cursor (e.len - e.cursor).toNat e.len e.buf
    let buf := buf.set e.cursor.toNat c
    let cursor := e.cursor + 1
    let len := e.len + 1
    let buf := buf.set len.toNat 0
    { e with buf := buf, len := len, cursor := cursor, prev_len := len,
             out := e.out ++ redraw cwd buf len cursor e.prev_len }
  else e

/-- One pass through the body of the `while (1)` loop of `readline_xv6` for the byte `c`
just read: the locals, the buffer and the output afterwards.  (For `\n` and `\r` these are
the stores made before `history_add` and `return 0`.) -/
def key (cwd : List Nat) (history : List (List Nat)) (nbuf : Int) (e : Ed) (c : Nat) : Ed :=
  if c = 10 ∨ c = 13 then keyEnter e
  else if c = KEY_LF then keyLeft cwd e
  else if c = KEY_RT then keyRight cwd e
  else if c = KEY_UP then keyUp cwd history e
  else if c = KEY_DN then keyDown cwd history e
  else if c = 0x08 ∨ c = 0x7f then keyBackspace cwd e
  else if c ≥ 32 ∧ c < 127 then keyInsert cwd nbuf e c
  else e

/-- The locals of `readline_xv6` in front of its loop. -/
def edInit (history : List (List Nat)) (buf : List Nat) : Ed :=
  { buf := buf.set 0 0, len := 0, cursor := 0, prev_len := 0, hist_idx := history.length,
    out := [] }

/-- What a call of `readline_xv6` leaves behind: the value returned, the locals and buffer,
the history, and the input not yet read. -/
structure Read where
  ret : Int
  ed : Ed
  history : List (List Nat)
  rest : List Nat
  deriving DecidableEq, Repr

/-- The `while (1)` loop of `readline_xv6` over the bytes `read(0, &c, 1)` delivers; at the
end of the input `read` returns 0. -/
def readlineLoop (cwd : List Nat) (history : List (List Nat)) (nbuf : Int) :
    Ed → List Nat → Read
  | e, [] => { ret := -1, ed := e, history := history, rest := [] }
  | e, c :: cs =>
    if c = 10 ∨ c = 13 then
      { ret := 0, ed := key cwd history nbuf e c,
        history := history_add history (cstr (key cwd history nbuf e c).buf 0), rest := cs }
    else readlineLoop cwd history nbuf (key cwd history nbuf e c) cs

/-- The function `readline_xv6(buf, nbuf)`. -/
def readline_xv6 (cwd : List Nat) (history : List (List Nat)) (buf : List Nat) (nbuf : Int)
    (input : List Nat) : Read :=
  readlineLoop cwd history nbuf (edInit history buf) input

/-! ## The `cd` builtin of `main` -/

/-- The path `main` hands to `chdir` for the line in `buf`: `none` when the line does not
begin with `cd `, else the string at `buf + 3` after the store
`buf[strlen(buf)-1] = 0;  // chop \n`. -/
def cdPath (buf : List Nat) : Option (List Nat) :=
  if rd buf 0 = 99 ∧ rd buf 1 = 100 ∧ rd buf 2 = 32 then
    some (cstr (buf.set (strlen buf - 1) 0) 3)
  else none

/-! ## Notions used to state the properties of the parser -/

/-- A buffer that holds a C string of length `es` at offset 0. -/
structure CStr (b : List Nat) (es : Nat) : Prop where
  nz : ∀ i, i < es → rd b i ≠ 0
  z : rd b es = 0

/-- The bytes a word is made of: not the terminator, not whitespace, not a symbol. -/
def wordByte (c : Nat) : Bool := c != 0 && !strchr whitespace c && !strchr symbols c

/-- The five ways a `gettoken` call can go, read off the byte the leading whitespace loop
stops at. -/
inductive TokCase (b : List Nat) (es p : Nat) : Prop
  | eoi (h1 : skipws b es p = es)
      (h2 : gettoken b es p = ⟨0, es, es, es⟩)
  | sym (h1 : skipws b es p < es)
      (h2 : rd b (skipws b es p) ∈ [124, 40, 41, 59, 38, 60])
      (h3 : gettoken b es p = ⟨rd b (skipws b es p), skipws b es p, skipws b es p + 1,
        skipws b es (skipws b es p + 1)⟩)
  | gt (h1 : skipws b es p < es)
      (h2 : rd b (skipws b es p) = 62) (h3 : rd b (skipws b es p + 1) ≠ 62)
      (h4 : gettoken b es p = ⟨62, skipws b es p, skipws b es p + 1,
        skipws b es (skipws b es p + 1)⟩)
  | app (h1 : skipws b es p + 1 < es)
      (h2 : rd b (skipws b es p) = 62) (h3 : rd b (skipws b es p + 1) = 62)
      (h4 : gettoken b es p = ⟨43, skipws b es p, skipws b es p + 2,
        skipws b es (skipws b es p + 2)⟩)
  | word (h1 : skipws b es p < es)
      (h2 : wordByte (rd b (skipws b es p)) = true)
      (h3 : gettoken b es p = ⟨97, skipws b es p, wordEnd b es (skipws b es p),
        skipws b es (wordEnd b es (skipws b es p))⟩)
      (h4 : skipws b es p < wordEnd b es (skipws b es p))

/-- A result that is not the exhausted budget. -/
def Done (r : Except Panic (Cmd × Nat)) : Prop := r ≠ .error .outOfFuel

/-- The slices `[start, end)` a tree stores: the `(argv[i], eargv[i])` of its Exec nodes and
the `(file, efile)` of its Redir nodes. -/
def Cmd.slices : Cmd → List (Nat × Nat)
  | .exec argv => argv
  | .redir c f ef _ _ => (f, ef) :: c.slices
  | .pipe l r => l.slices ++ r.slices
  | .list l r => l.slices ++ r.slices
  | .back c => c.slices

/-- The bytes `[q, eq)` of a buffer. -/
def slice (b : List Nat) (sl : Nat × Nat) : List Nat := (b.drop sl.1).take (sl.2 - sl.1)

/-- A slice as `gettoken` cuts a word: non-empty, inside the string, made of word bytes, and
ending in front of a byte that is not a word byte. -/
def GoodSlice (b : List Nat) (es : Nat) (sl : Nat × Nat) : Prop :=
  sl.1 < sl.2 ∧ sl.2 ≤ es ∧ (∀ i, sl.1 ≤ i → i < sl.2 → wordByte (rd b i) = true) ∧
    wordByte (rd b sl.2) = false

/-- The tokens `gettoken` delivers when called again and again from offset `p`, up to the
call that returns 0. -/
def tokensFrom (b : List Nat) (es : Nat) : Nat → Nat → List Tok
  | 0, _ => []
  | n + 1, p =>
    if (gettoken b es p).ret = 0 then []
    else gettoken b es p :: tokensFrom b es n (gettoken b es p).ps

/-- The tokens from offset `p` on; each call moves on, so `es + 1 - p` calls reach the end. -/
def toks (b : List Nat) (es p : Nat) : List Tok := tokensFrom b es (es + 1 - p) p

/-- The token sequence of the C string in `b`. -/
def tokens (b : List Nat) : List Tok := toks b (strlen b) 0

/-- The return values `gettoken` gives for the redirection operators `<`, `>` and `>>`. -/
def isRedirOp (k : Nat) : Prop := k = 60 ∨ k = 62 ∨ k = 43

/-- Every redirection operator of a token sequence is directly followed by a word. -/
def RedirsHaveFiles (ts : List Tok) : Prop :=
  ∀ i t, ts[i]? = some t → isRedirOp t.ret → ∃ w, ts[i + 1]? = some w ∧ w.ret = 97

/-- What a successful run of a parsing function from offset `p` with the tree `c` in hand
guarantees for its result `x`: the offset only moves forward inside the string, the slices
stored are good ones, and the tokens consumed keep every redirection operator followed by a
word. -/
def Inv (b : List Nat) (es : Nat) (c : Cmd) (p : Nat) (x : Cmd × Nat) : Prop :=
  p ≤ x.2 ∧ x.2 ≤ es ∧
  ((∀ sl ∈ c.slices, GoodSlice b es sl) → ∀ sl ∈ x.1.slices, GoodSlice b es sl) ∧
  (RedirsHaveFiles (toks b es x.2) → RedirsHaveFiles (toks b es p))

/-- The state invariant of the line editor for a buffer of `nbuf` bytes. -/
def EdInv (history : List (List Nat)) (nbuf : Int) (e : Ed) : Prop :=
  (e.buf.length : Int) = nbuf ∧ 0 ≤ e.cursor ∧ e.cursor ≤ e.len ∧ e.len ≤ nbuf - 1 ∧
    rd e.buf e.len.toNat = 0 ∧ 0 ≤ e.hist_idx ∧ e.hist_idx ≤ history.length

/-- The editor state after the bytes `keys` have gone through the loop body one after the
other, starting from the locals as `readline_xv6` sets them up. -/
def runKeys (cwd : List Nat) (history : List (List Nat)) (nbuf : Int) (buf : List Nat)
    (keys : List Nat) : Ed :=
  keys.foldl (key cwd history nbuf) (edInit history buf)

/-- Some step budget lets the computation `f` finish with the result `r`. -/
def Runs (f : Nat → Except Panic (Cmd × Nat)) (r : Except Panic (Cmd × Nat)) : Prop :=
  ∃ n, f n = r ∧ Done r

/-- The part of `parseexec` behind `argc = 0;`, and equally the tail of its loop body: a
call of `parseredirs` followed by the `while` loop. -/
def execPhase (b : List Nat) (es n : Nat) (c : Cmd) (argc p : Nat) :
    Except Panic (Cmd × Nat) :=
  match parseredirs b es n c p with
  | .error e => .error e
  | .ok r => parseexecLoop b es n r.1 argc r.2

/-- One element of a simple command, as tokens: a word, or a redirection operator together
with the word after it. -/
inductive Piece
  | word (t : Tok)
  | redir (op f : Tok)

/-- The tokens of an element. -/
def Piece.toks : Piece → List Tok
  | .word t => [t]
  | .redir op f => [op, f]

/-- An element is made of the right kinds of token: `WORD`, or one of `<`, `>`, `>>` and
then `WORD`. -/
def Piece.ok : Piece → Prop
  | .word t => t.ret = 97
  | .redir op f => isRedirOp op.ret ∧ f.ret = 97

/-- The words among the elements, as slices, in textual order. -/
def wordsOf : List Piece → List (Nat × Nat)
  | [] => []
  | .word t :: ps => (t.q, t.eq) :: wordsOf ps
  | .redir _ _ :: ps => wordsOf ps

/-- The tree `c` wrapped in one Redir node per redirection among the elements, in textual
order, the first innermost: descriptor 0 and read-only for `<`, descriptor 1 and
write-or-create for `>` and for `>>`. -/
def wrapRedirs (c : Cmd) : List Piece → Cmd
  | [] => c
  | .word _ :: ps => wrapRedirs c ps
  | .redir op f :: ps =>
    wrapRedirs (if op.ret = 60 then .redir c f.q f.eq .O_RDONLY 0
      else .redir c f.q f.eq .O_WRONLY_or_O_CREATE 1) ps

/-- The tree for a simple command: one Exec node with all the words, inside the Redir
nodes. -/
def simpleTree (ps : List Piece) : Cmd := wrapRedirs (.exec (wordsOf ps)) ps

/-- The tokens of a list of elements. -/
def piecesToks (ps : List Piece) : List Tok := (ps.map Piece.toks).flatten

/-- What `peek` answers for a set of symbols when the next token has return value `k`. -/
def peekRet (k : Nat) (set : List Nat) : Bool :=
  if k = 0 ∨ k = 97 then false else if k = 43 then set.contains 62 else set.contains k

/-- The return value of the first token of a sequence, 0 at its end. -/
def headRet (ts : List Tok) : Nat := (ts.head?.map Tok.ret).getD 0

/-- The tokens of `| cmd | cmd ...`: each `|` token with the simple command after it. -/
def moreToks : List (Tok × List Piece) → List Tok
  | [] => []
  | (bar, c) :: m => bar :: (piecesToks c ++ moreToks m)

/-- The right-nested Pipe tree of a simple command and the ones piped after it. -/
def pipeTree (first : List Piece) : List (Tok × List Piece) → Cmd
  | [] => simpleTree first
  | (_, c) :: m => .pipe (simpleTree first) (pipeTree c m)

/-- One Back node around `c` per `&` token. -/
def backs (c : Cmd) : List Tok → Cmd
  | [] => c
  | _ :: amps => backs (.back c) amps

/-- A pipeline of simple commands followed by `&` tokens, as tokens. -/
structure Job where
  first : List Piece
  more : List (Tok × List Piece)
  amps : List Tok

/-- The tokens of a job. -/
def Job.toks (j : Job) : List Tok := piecesToks j.first ++ (moreToks j.more ++ j.amps)

/-- The tree of a job. -/
def Job.tree (j : Job) : Cmd := backs (pipeTree j.first j.more) j.amps

/-- The tokens of a job are of the right kinds, and no simple command in it has `MAXARGS`
words or more. -/
def Job.ok (j : Job) : Prop :=
  ((∀ x ∈ j.first, x.ok) ∧ (wordsOf j.first).length < MAXARGS) ∧
  (∀ m ∈ j.more, m.1.ret = 124 ∧ (∀ x ∈ m.2, x.ok) ∧ (wordsOf m.2).length < MAXARGS) ∧
  (∀ a ∈ j.amps, a.ret = 38)

/-- The tokens of `job ; job ; ...`. -/
def lineToks (j : Job) : List (Tok × Job) → List Tok
  | [] => j.toks
  | (semi, j2) :: t => j.toks ++ semi :: lineToks j2 t

/-- The right-nested List tree of jobs joined by `;`. -/
def lineTree (j : Job) : List (Tok × Job) → Cmd
  | [] => j.tree
  | (_, j2) :: t => .list j.tree (lineTree j2 t)

/-- The tokens of `; cmd ; cmd ...`: each `;` token with the simple command after it. -/
def semiToks : List (Tok × List Piece) → List Tok
  | [] => []
  | (semi, c) :: m => semi :: (piecesToks c ++ semiToks m)

/-- The right-nested List tree of a simple command and the ones that follow it after `;`. -/
def semiTree (first : List Piece) : List (Tok × List Piece) → Cmd
  | [] => simpleTree first
  | (_, c) :: m => .list (simpleTree first) (semiTree c m)

/-- The slice of a token. -/
def Tok.slice (t : Tok) : Nat × Nat := (t.q, t.eq)

/-- A lexeme as written in an input: a word, or an operator named by the value `gettoken`
returns for it (`+` for `>>`). -/
inductive Lex
  | word (w : List Nat)
  | op (k : Nat)

/-- The bytes of a lexeme. -/
def Lex.text : Lex → List Nat
  | .word w => w
  | .op k => if k = 43 then [62, 62] else [k]

/-- The value `gettoken` returns for a lexeme. -/
def Lex.ret : Lex → Nat
  | .word _ => 97
  | .op k => k

/-- A word is a non-empty run of word bytes; an operator is one of `| ( ) ; & < > >>`. -/
def Lex.ok : Lex → Prop
  | .word w => w ≠ [] ∧ ∀ c ∈ w, wordByte c = true
  | .op k => k ∈ [124, 40, 41, 59, 38, 60, 62, 43]

/-- The byte `c` written directly behind the lexeme would be read as part of it: a word
byte behind a word, a `>` behind a `>`. -/
def Lex.runsOn : Lex → Nat → Prop
  | .word _, c => wordByte c = true
  | .op k, c => k = 62 ∧ c = 62

/-- A run of whitespace bytes. -/
def isBlank (ws : List Nat) : Prop := ∀ c ∈ ws, strchr whitespace c = true

/-- The input text of lexemes, each followed by a (possibly empty) run of whitespace. -/
def render : List (Lex × List Nat) → List Nat
  | [] => []
  | x :: rest => x.1.text ++ (x.2 ++ render rest)

/-- Lexemes with nothing between them do not run together. -/
def rendersApart : List (Lex × List Nat) → Prop
  | [] => True
  | x :: rest => (x.2 = [] → ¬ x.1.runsOn ((render rest).headD 0)) ∧ rendersApart rest

/-- The tokens of rendered lexemes, the first of which starts at offset `off`. -/
def lexToks (off : Nat) : List (Lex × List Nat) → List Tok
  | [] => []
  | x :: rest =>
    ⟨x.1.ret, off, off + x.1.text.length, off + x.1.text.length + x.2.length⟩ ::
      lexToks (off + x.1.text.length + x.2.length) rest

/-- A lexeme that is a word. -/
def Lex.isWord : Lex → Prop
  | .word _ => True
  | .op _ => False

/-- An element of a simple command as written: a word and the whitespace behind it, or a
redirection operator, whitespace, the path word and the whitespace behind it. -/
inductive Written
  | word (w ws : List Nat)
  | redir (op : Nat) (ws1 path ws2 : List Nat)

/-- The lexemes of a written element. -/
def Written.lexemes : Written → List (Lex × List Nat)
  | .word w ws => [(.word w, ws)]
  | .redir op ws1 path ws2 => [(.op op, ws1), (.word path, ws2)]

/-- A written element is well formed: words are words, gaps are whitespace, the operator
is `<`, `>` or `>>`. -/
def Written.ok : Written → Prop
  | .word w ws => (Lex.word w).ok ∧ isBlank ws
  | .redir op ws1 path ws2 => isRedirOp op ∧ isBlank ws1 ∧ (Lex.word path).ok ∧ isBlank ws2

/-- The lexemes of a written simple command. -/
def written (ps : List Written) : List (Lex × List Nat) := (ps.map Written.lexemes).flatten

/-- The elements of a written simple command as tokens, the first starting at `off`. -/
def piecesAt (off : Nat) : List Written → List Piece
  | [] => []
  | .word w ws :: rest =>
    .word ⟨97, off, off + w.length, off + w.length + ws.length⟩ ::
      piecesAt (off + w.length + ws.length) rest
  | .redir op ws1 path ws2 :: rest =>
    .redir ⟨op, off, off + (Lex.op op).text.length,
        off + (Lex.op op).text.length + ws1.length⟩
      ⟨97, off + (Lex.op op).text.length + ws1.length,
        off + (Lex.op op).text.length + ws1.length + path.length,
        off + (Lex.op op).text.length + ws1.length + path.length + ws2.length⟩ ::
      piecesAt (off + (Lex.op op).text.length + ws1.length + path.length + ws2.length) rest

/-! ## Notions used to state the properties of the line editor -/

/-- The column a terminal is in after it has received the bytes `out` in column `col`: a
carriage return leads to column 0, a backspace one column back, and every other byte one
column on. -/
def column : Int → List Nat → Int
  | col, [] => col
  | col, c :: out => column (if c = 13 then 0 else if c = 8 then col - 1 else col + 1) out

/-! ## Notions used to state the properties of the history -/

/-- The rows `history[..]` a call `history_add(line)` stores into, that is the destinations
of its `strcpy` calls, in the order of the stores. -/
def history_add_rows (history : List (List Nat)) (line : List Nat) : List Int :=
  if (line.length : Int) ≤ 0 then []
  else if history.length > 0 ∧ history.getD (history.length - 1) [] = line then []
  else if history.length < HISTORY_SIZE then [(history.length : Int)]
  else (List.range' 1 (HISTORY_SIZE - 1)).map (fun (i : Nat) => (i : Int) - 1) ++
    [(HISTORY_SIZE : Int) - 1]

/-- The history after `history_add` has been called with each of `lines` in turn, starting
from the empty history. -/
def historyAfter (lines : List (List Nat)) : List (List Nat) :=
  lines.foldl history_add []

/-- The operation `add(line)` as the specification describes it: an empty line and a line
equal to the last entry are rejected; a history that is not full gets the line appended; a
full one loses its oldest entry and gets the line as its last. -/
def history_add_ref (H : List (List Nat)) (L : List Nat) : List (List Nat) :=
  if L = [] ∨ H.getLast? = some L then H
  else if H.length < 20 then H ++ [L]
  else H.drop 1 ++ [L]

/-! ## The function `getcmd` -/

/-- The call `memset(buf, c, n)`. -/
def memset (buf : List Nat) (c n : Nat) : List Nat := List.replicate n c ++ buf.drop n

/-- The function `getcmd(buf, nbuf)`: it writes the prompt, clears the buffer and reads the
edited line; the result is that of `readline_xv6` with the prompt in front of the output
and the value `getcmd` returns for the value returned. -/
def getcmd (cwd : List Nat) (history : List (List Nat)) (buf : List Nat) (nbuf : Int)
    (input : List Nat) : Read :=
  let r := readline_xv6 cwd history (memset buf 0 nbuf.toNat) nbuf input
  { r with ret := if r.ret < 0 then -1 else 0,
           ed := { r.ed with out := cwd ++ [36, 32] ++ r.ed.out } }

/-- The results of the calls `getcmd(buf, sizeof(buf))` that the loop of `main` makes, at
most `n` of them, while the lines read leave `cwd` and `buf` to the next call as they are
(every line but a `cd` line does); the loop ends with the first call that returns a
negative value. -/
def getcmds (cwd : List Nat) : Nat → List (List Nat) → List Nat → List Nat → List Read
  | 0, _, _, _ => []
  | n + 1, history, buf, input =>
    let r := getcmd cwd history buf 100 input
    r :: (if r.ret ≥ 0 then getcmds cwd n r.history r.ed.buf r.rest else [])

/-- A line as the editor hands it out: at most 99 bytes, each of them printable
(0x20..0x7E). -/
def GoodLine (l : List Nat) : Prop := l.length ≤ 99 ∧ ∀ c ∈ l, 32 ≤ c ∧ c < 127

/-- The history after a sequence of calls `readline_xv6(buf, 100)`, the first of them made
with the empty history; a call is given as the prompt string, the contents of `buf` and
the bytes `read` delivers at the time of the call. -/
def historyAfterCalls (calls : List (List Nat × List Nat × List Nat)) : List (List Nat) :=
  calls.foldl (fun h c => (readline_xv6 c.1 h c.2.1 100 c.2.2).history) []

/-! ## The prompt string after `cd` -/

/-- The loop `while (path[i] != 0) cwd[len++] = path[i++];` of `main` with at most `n`
bytes of `path` to go: the array `cwd` and the local `len` afterwards. -/
def cdCopy (path : List Nat) : Nat → List Nat → Nat → Nat → List Nat × Nat
  | 0, cwd, len, _ => (cwd, len)
  | n + 1, cwd, len, i =>
    if rd path i ≠ 0 then cdCopy path n (cwd.set len (rd path i)) (len + 1) (i + 1)
    else (cwd, len)

/-- The statements of `main` that follow the call `chdir(path)`, for the value `r` that
`chdir` returned: the array `cwd` afterwards. -/
def cdCwd (cwd path : List Nat) (r : Int) : List Nat :=
  if r < 0 then cwd
  else if rd path 0 = 47 then strcpy cwd (cstr path 0)
  else
    let len := strlen cwd
    let s : List Nat × Nat :=
      if cstr cwd 0 ≠ [47] then ((cwd.set len 47).set (len + 1) 0, len + 1) else (cwd, len)
    let t := cdCopy path path.length s.1 s.2 0
    t.1.set t.2 0

/-! ## Executor -/

/-- The diagnostics that `runcmd`, `panic` and `fork1` print. -/
inductive Msg
  | execFailed  -- printf(2, "exec %s failed\n", ecmd->argv[0])
  | openFailed  -- printf(2, "open %s failed\n", rcmd->file)
  | pipe        -- panic("pipe")
  | fork        -- panic("fork")
  deriving DecidableEq, Repr

/-- A call that a process running `runcmd` makes, with its arguments; strings are given by
their offsets in the input buffer. -/
inductive Call
  | exit
  | exec (path : Nat) (argv : List Nat)
  | printf (fd : Int) (msg : Msg)
  | close (fd : Int)
  | open_ (file : Nat) (mode : OMode)
  | fork
  | wait
  | pipe
  | dup (fd : Int)
  deriving DecidableEq, Repr

/-- What the kernel hands back to one of the calls whose result `runcmd` looks at (`pipe`,
`fork`, `open`, `exec`): the value returned and, for `pipe`, the descriptors stored in
`p[0]` and `p[1]`.  For `exec` a negative value says that the call came back; otherwise the
process image is replaced and the process makes no further call of `runcmd`. -/
structure Ans where
  ret : Int
  p0 : Int
  p1 : Int
  deriving DecidableEq, Repr

/-- The answer to the next call. -/
def Ans.next (ks : List Ans) : Ans := ks.headD ⟨0, 0, 0⟩

/-- The function `panic(s)`: `printf(2, "%s\n", s); exit();`. -/
def panic (msg : Msg) : List Call := [.printf 2 msg, .exit]

/-- The function `runcmd(cmd)` as the calls that the process executing it makes, one after
the other, given the answers `ks` of the kernel to those calls whose result is looked at.
A `fork` answered with 0 makes the process the child.  `runcmd` never returns: every path
ends in `exit` or in an `exec` that does not come back, so nothing follows a nested call
of `runcmd`.  A `Cmd` is not the null pointer and has one of the five types, so the tests
`cmd == 0` and `default:` have no counterpart here. -/
def runcmd : Cmd → List Ans → List Call
  | .exec argv, ks =>
    match argv with
    | [] => [.exit]
    | a :: _ =>
      .exec a.1 (argv.map Prod.fst) ::
        (if (Ans.next ks).ret < 0 then [.printf 2 .execFailed, .exit] else [])
  | .redir cmd file _ mode fd, ks =>
    .close fd :: .open_ file mode ::
      (if (Ans.next ks).ret < 0 then [.printf 2 .openFailed, .exit]
       else runcmd cmd ks.tail)
  | .list left right, ks =>
    .fork ::
      (if (Ans.next ks).ret = -1 then panic .fork
       else if (Ans.next ks).ret = 0 then runcmd left ks.tail
       else .wait :: runcmd right ks.tail)
  | .pipe left right, ks =>
    .pipe ::
      (if (Ans.next ks).ret < 0 then panic .pipe
       else
        .fork ::
          (if (Ans.next ks.tail).ret = -1 then panic .fork
           else if (Ans.next ks.tail).ret = 0 then
            [.close 1, .dup (Ans.next ks).p1, .close (Ans.next ks).p0,
              .close (Ans.next ks).p1] ++ runcmd left ks.tail.tail
           else
            .fork ::
              (if (Ans.next ks.tail.tail).ret = -1 then panic .fork
               else if (Ans.next ks.tail.tail).ret = 0 then
                [.close 0, .dup (Ans.next ks).p0, .close (Ans.next ks).p0,
                  .close (Ans.next ks).p1] ++ runcmd right ks.tail.tail.tail
               else
                [.close (Ans.next ks).p0, .close (Ans.next ks).p1, .wait, .wait, .exit])))
  | .back cmd, ks =>
    .fork ::
      (if (Ans.next ks).ret = -1 then panic .fork
       else if (Ans.next ks).ret = 0 then runcmd cmd ks.tail
       else [.exit])

/-! ## The tokenizer of the specification -/

/-- The whitespace of the specification: space, tab, CR, LF, VT. -/
def specSpace (c : Nat) : Bool := c == 32 || c == 9 || c == 13 || c == 10 || c == 11

/-- The bytes `< | > & ; ( )` of the specification. -/
def specSymbol (c : Nat) : Bool :=
  c == 60 || c == 124 || c == 62 || c == 38 || c == 59 || c == 40 || c == 41

/-- Skipping whitespace from `cursor` in the bytes `text` of a range, as the specification
has it: the cursor behind the whitespace. -/
def specSkip (text : List Nat) (cursor : Nat) : Nat :=
  cursor + ((text.drop cursor).takeWhile specSpace).length

/-- The kind and the stop of the token that begins at `start`, as the specification has it:
at the end the kind is END (0); at one of `| ( ) ; & <` the kind is that byte and one byte
is consumed; at `>` one byte is consumed, and if the next byte is `>` too it is consumed
and the kind is APPEND (`+`), otherwise the kind is `>`; otherwise the kind is WORD (`a`)
and the range extends until whitespace or one of `< | > & ; ( )` is seen. -/
def specKind (text : List Nat) (start : Nat) : Nat × Nat :=
  match text.drop start with
  | [] => (0, start)
  | c :: rest =>
    if c = 124 ∨ c = 40 ∨ c = 41 ∨ c = 59 ∨ c = 38 ∨ c = 60 then (c, start + 1)
    else if c = 62 then (if rest.head? = some 62 then (43, start + 2) else (62, start + 1))
    else (97, start +
      ((text.drop start).takeWhile (fun x => !specSpace x && !specSymbol x)).length)

/-- The tokenizer `next_token(cursor, end)` of the specification on the bytes `text` of the
range that ends at `end`: skip leading whitespace, classify, skip trailing whitespace.  The
result holds the kind, the start and the stop of the token and the cursor afterwards. -/
def next_token (text : List Nat) (cursor : Nat) : Tok :=
  let start := specSkip text cursor
  let r := specKind text start
  { ret := r.1, q := start, eq := r.2, ps := specSkip text r.2 }

/-! ## Facts about the tokenizer -/

theorem rd_of_length_le {b : List Nat} {i : Nat} (h : b.length ≤ i) : rd b i = 0 := by
  simp [rd, List.getElem?_eq_none h]

theorem rd_eq_getElem {a : List Nat} {i : Nat} (h : i < a.length) : rd a i = a[i] := by
  simp [rd, List.getD_eq_getElem?_getD, List.getElem?_eq_getElem h]

theorem rd_append_left {a b : List Nat} {i : Nat} (h : i < a.length) :
    rd (a ++ b) i = rd a i := by
  simp [rd, List.getD_eq_getElem?_getD, List.getElem?_append_left h]

theorem rd_append_right {a b : List Nat} {i : Nat} (h : a.length ≤ i) :
    rd (a ++ b) i = rd b (i - a.length) := by
  simp [rd, List.getD_eq_getElem?_getD, List.getElem?_append_right h]

theorem rd_take {a : List Nat} {n i : Nat} (h : i < n) : rd (a.take n) i = rd a i := by
  simp [rd, List.getD_eq_getElem?_getD, List.getElem?_take, h]

theorem rd_drop (a : List Nat) (n i : Nat) : rd (a.drop n) i = rd a (n + i) := by
  simp [rd, List.getD_eq_getElem?_getD, List.getElem?_drop]

theorem strlenFrom_spec (b : List Nat) : ∀ n i, b.length ≤ i + n →
    (∀ j, i ≤ j → j < i + strlenFrom b n i → rd b j ≠ 0) ∧ rd b (i + strlenFrom b n i) = 0
  | 0, i, h => by
    simp only [strlenFrom, Nat.add_zero] at h ⊢
    exact ⟨fun j h1 h2 => absurd h2 (by omega), rd_of_length_le h⟩
  | n + 1, i, h => by
    unfold strlenFrom
    by_cases hz : rd b i = 0
    · rw [if_pos hz]
      exact ⟨fun j h1 h2 => absurd h2 (by omega), hz⟩
    · rw [if_neg hz]
      obtain ⟨h1, h2⟩ := strlenFrom_spec b n (i + 1) (by omega)
      refine ⟨fun j hj1 hj2 => ?_, ?_⟩
      · by_cases hji : j = i
        · rw [hji]; exact hz
        · exact h1 j (by omega) (by omega)
      · have : i + (strlenFrom b n (i + 1) + 1) = i + 1 + strlenFrom b n (i + 1) := by omega
        rw [this]; exact h2

theorem cstr_strlen (b : List Nat) : CStr b (strlen b) := by
  obtain ⟨h1, h2⟩ := strlenFrom_spec b b.length 0 (by omega)
  refine ⟨fun i hi => h1 i (by omega) ?_, ?_⟩
  · simpa [strlen] using hi
  · simpa [strlen] using h2

theorem skipws_fix {b : List Nat} {es s : Nat}
    (h : ¬ (s < es ∧ strchr whitespace (rd b s) = true)) : skipws b es s = s := by
  unfold skipws
  cases hn : es - s with
  | zero => rfl
  | succ n =>
    unfold skipwsLoop
    have : (decide (s < es) && strchr whitespace (rd b s)) = false := by
      simpa using h
    simp [this]

theorem skipws_step {b : List Nat} {es s : Nat}
    (h1 : s < es) (h2 : strchr whitespace (rd b s) = true) :
    skipws b es s = skipws b es (s + 1) := by
  unfold skipws
  obtain ⟨n, hn⟩ : ∃ n, es - s = n + 1 := ⟨es - s - 1, by omega⟩
  have hn1 : es - (s + 1) = n := by omega
  rw [hn, hn1, skipwsLoop]
  simp [h1, h2]

theorem skipwsLoop_bounds (b : List Nat) (es : Nat) : ∀ n s,
    s ≤ skipwsLoop b es n s ∧ (s ≤ es → skipwsLoop b es n s ≤ es)
  | 0, s => by simp [skipwsLoop]
  | n + 1, s => by
    unfold skipwsLoop
    split
    · rename_i h
      have h1 : s < es := by
        simp only [Bool.and_eq_true, decide_eq_true_eq] at h; exact h.1
      obtain ⟨ha, hb⟩ := skipwsLoop_bounds b es n (s + 1)
      exact ⟨by omega, fun _ => hb (by omega)⟩
    · exact ⟨Nat.le_refl _, fun h => h⟩

theorem skipws_ge (b : List Nat) (es s : Nat) : s ≤ skipws b es s :=
  (skipwsLoop_bounds b es _ s).1

theorem skipws_le {b : List Nat} {es s : Nat} (h : s ≤ es) : skipws b es s ≤ es :=
  (skipwsLoop_bounds b es _ s).2 h

theorem skipwsLoop_stop (b : List Nat) (es : Nat) : ∀ n s, es - s ≤ n →
    ¬ (skipwsLoop b es n s < es ∧ strchr whitespace (rd b (skipwsLoop b es n s)) = true)
  | 0, s, h => by
    simp only [skipwsLoop]
    intro hc; omega
  | n + 1, s, h => by
    unfold skipwsLoop
    split
    · exact skipwsLoop_stop b es n (s + 1) (by omega)
    · rename_i hc
      simpa using hc

theorem skipws_stop (b : List Nat) (es s : Nat) :
    ¬ (skipws b es s < es ∧ strchr whitespace (rd b (skipws b es s)) = true) :=
  skipwsLoop_stop b es _ s (Nat.le_refl _)

theorem skipws_idem (b : List Nat) (es s : Nat) :
    skipws b es (skipws b es s) = skipws b es s :=
  skipws_fix (skipws_stop b es s)

theorem wordEnd_fix {b : List Nat} {es s : Nat}
    (h : ¬ (s < es ∧ strchr whitespace (rd b s) = false ∧ strchr symbols (rd b s) = false)) :
    wordEnd b es s = s := by
  unfold wordEnd
  cases hn : es - s with
  | zero => rfl
  | succ n =>
    unfold wordLoop
    have : (decide (s < es) && !strchr whitespace (rd b s) && !strchr symbols (rd b s))
        = false := by
      by_cases h1 : s < es <;> cases h2 : strchr whitespace (rd b s) <;>
        cases h3 : strchr symbols (rd b s) <;> simp_all
    simp [this]

theorem wordEnd_step {b : List Nat} {es s : Nat} (h1 : s < es)
    (h2 : strchr whitespace (rd b s) = false) (h3 : strchr symbols (rd b s) = false) :
    wordEnd b es s = wordEnd b es (s + 1) := by
  unfold wordEnd
  obtain ⟨n, hn⟩ : ∃ n, es - s = n + 1 := ⟨es - s - 1, by omega⟩
  have hn1 : es - (s + 1) = n := by omega
  rw [hn, hn1, wordLoop]
  simp [h1, h2, h3]

theorem wordLoop_spec (b : List Nat) (es : Nat) : ∀ n s, es - s ≤ n → s ≤ es →
    s ≤ wordLoop b es n s ∧ wordLoop b es n s ≤ es ∧
    (∀ i, s ≤ i → i < wordLoop b es n s →
      strchr whitespace (rd b i) = false ∧ strchr symbols (rd b i) = false) ∧
    ¬ (wordLoop b es n s < es ∧ strchr whitespace (rd b (wordLoop b es n s)) = false ∧
        strchr symbols (rd b (wordLoop b es n s)) = false)
  | 0, s, h, hs => by
    simp only [wordLoop]
    exact ⟨Nat.le_refl _, hs, fun i h1 h2 => absurd h2 (by omega), fun hc => by omega⟩
  | n + 1, s, h, hs => by
    unfold wordLoop
    split
    · rename_i hc
      simp only [Bool.and_eq_true, decide_eq_true_eq, Bool.not_eq_true'] at hc
      obtain ⟨h1, h2, h3, h4⟩ := wordLoop_spec b es n (s + 1) (by omega) (by omega)
      refine ⟨by omega, h2, fun i hi1 hi2 => ?_, h4⟩
      by_cases hi : i = s
      · rw [hi]; exact ⟨hc.1.2, hc.2⟩
      · exact h3 i (by omega) hi2
    · rename_i hc
      refine ⟨Nat.le_refl _, hs, fun i h1 h2 => absurd h2 (by omega), ?_⟩
      intro hx
      apply hc
      simp [hx.1, hx.2.1, hx.2.2]

theorem wordEnd_spec {b : List Nat} {es s : Nat} (hb : CStr b es) (hs : s ≤ es) :
    s ≤ wordEnd b es s ∧ wordEnd b es s ≤ es ∧
    (∀ i, s ≤ i → i < wordEnd b es s → wordByte (rd b i) = true) ∧
    wordByte (rd b (wordEnd b es s)) = false := by
  obtain ⟨h1, h2, h3, h4⟩ := wordLoop_spec b es (es - s) s (Nat.le_refl _) hs
  have hx : wordLoop b es (es - s) s = wordEnd b es s := rfl
  rw [hx] at h1 h2 h3 h4
  refine ⟨h1, h2, fun i hi1 hi2 => ?_, ?_⟩
  · have hz := hb.nz i (Nat.lt_of_lt_of_le hi2 h2)
    obtain ⟨ha, hc⟩ := h3 i hi1 hi2
    simp [wordByte, hz, ha, hc]
  · by_cases he : wordEnd b es s < es
    · cases hw : strchr whitespace (rd b (wordEnd b es s)) <;>
        cases hy : strchr symbols (rd b (wordEnd b es s)) <;> simp_all [wordByte]
    · have : wordEnd b es s = es := by omega
      rw [this]
      simp [wordByte, hb.z]

theorem wordByte_parts {c : Nat} (h : wordByte c = true) :
    c ≠ 0 ∧ strchr whitespace c = false ∧ strchr symbols c = false := by
  simpa [wordByte, and_assoc] using h

theorem gettoken_cases {b : List Nat} {es p : Nat} (hb : CStr b es) (hp : p ≤ es) :
    TokCase b es p := by
  have hle := skipws_le (b := b) hp
  by_cases hz : rd b (skipws b es p) = 0
  · have hes : skipws b es p = es := by
      by_contra hne
      exact hb.nz _ (by omega) hz
    refine .eoi hes ?_
    have hfix : skipws b es es = es := skipws_fix (by omega)
    simp only [gettoken, hes, hb.z, if_true, hfix]
  · have hlt : skipws b es p < es := by
      by_contra hne
      have : skipws b es p = es := by omega
      rw [this] at hz
      exact hz hb.z
    by_cases hs : rd b (skipws b es p) = 124 ∨ rd b (skipws b es p) = 40 ∨
        rd b (skipws b es p) = 41 ∨ rd b (skipws b es p) = 59 ∨
        rd b (skipws b es p) = 38 ∨ rd b (skipws b es p) = 60
    · refine .sym hlt (by simpa using hs) ?_
      simp only [gettoken, hz, if_false, hs, if_true]
    · by_cases hg : rd b (skipws b es p) = 62
      · by_cases hg2 : rd b (skipws b es p + 1) = 62
        · refine .app ?_ hg hg2 ?_
          · by_contra hne
            have : skipws b es p + 1 = es := by omega
            rw [this, hb.z] at hg2
            omega
          · simp [gettoken, hg, hg2]
        · refine .gt hlt hg hg2 ?_
          simp [gettoken, hg, hg2]
      · have hnws : strchr whitespace (rd b (skipws b es p)) = false := by
          have := skipws_stop b es p
          cases hw : strchr whitespace (rd b (skipws b es p))
          · rfl
          · exact absurd ⟨hlt, hw⟩ this
        have hnsym : strchr symbols (rd b (skipws b es p)) = false := by
          simp only [not_or] at hs
          simp [strchr, symbols, hs, hg]
        refine .word hlt (by simp [wordByte, hz, hnws, hnsym]) ?_ ?_
        · simp only [gettoken, hz, if_false, hs, hg]
        · rw [wordEnd_step hlt hnws hnsym]
          exact (wordEnd_spec hb (by omega : skipws b es p + 1 ≤ es)).1

theorem gettoken_q (b : List Nat) (es p : Nat) : (gettoken b es p).q = skipws b es p := rfl

theorem gettoken_ps_fix (b : List Nat) (es p : Nat) :
    skipws b es (gettoken b es p).ps = (gettoken b es p).ps :=
  skipws_idem b es _

theorem gettoken_bounds {b : List Nat} {es p : Nat} (hb : CStr b es) (hp : p ≤ es) :
    p ≤ (gettoken b es p).q ∧ (gettoken b es p).q ≤ (gettoken b es p).eq ∧
    (gettoken b es p).eq ≤ (gettoken b es p).ps ∧ (gettoken b es p).ps ≤ es ∧
    ((gettoken b es p).ret ≠ 0 → (gettoken b es p).q < (gettoken b es p).eq) := by
  have h0 := skipws_ge b es p
  cases gettoken_cases hb hp with
  | eoi h1 h2 => rw [h2]; simp; omega
  | sym h1 h2 h3 =>
    rw [h3]
    have := skipws_ge b es (skipws b es p + 1)
    have := skipws_le (b := b) (by omega : skipws b es p + 1 ≤ es)
    simp; omega
  | gt h1 h2 h3 h4 =>
    rw [h4]
    have := skipws_ge b es (skipws b es p + 1)
    have := skipws_le (b := b) (by omega : skipws b es p + 1 ≤ es)
    simp; omega
  | app h1 h2 h3 h4 =>
    rw [h4]
    have := skipws_ge b es (skipws b es p + 2)
    have := skipws_le (b := b) (by omega : skipws b es p + 2 ≤ es)
    simp; omega
  | word h1 h2 h3 h4 =>
    rw [h3]
    have hw := wordEnd_spec hb (by omega : skipws b es p ≤ es)
    have := skipws_ge b es (wordEnd b es (skipws b es p))
    have := skipws_le (b := b) hw.2.1
    simp; omega

theorem gettoken_skipws (b : List Nat) (es p : Nat) :
    gettoken b es (skipws b es p) = gettoken b es p := by
  simp [gettoken, skipws_idem]

theorem peek_fst (b : List Nat) (es p : Nat) (set : List Nat) :
    (peek b es p set).1 = skipws b es p := rfl

theorem peek_snd (b : List Nat) (es p : Nat) (set : List Nat) :
    (peek b es p set).2 = (rd b (skipws b es p) != 0 && strchr set (rd b (skipws b es p))) := rfl

theorem peek_true {b : List Nat} {es p : Nat} {set : List Nat}
    (h : (peek b es p set).2 = true) :
    rd b (skipws b es p) ≠ 0 ∧ rd b (skipws b es p) ∈ set := by
  simpa [peek_snd, strchr] using h

/-- The return value of `gettoken` against the byte its token starts with. -/
theorem gettoken_kind {b : List Nat} {es p : Nat} (hb : CStr b es) (hp : p ≤ es) :
    ((gettoken b es p).ret = 0 ∧ rd b (skipws b es p) = 0) ∨
    ((gettoken b es p).ret = rd b (skipws b es p) ∧
      rd b (skipws b es p) ∈ [124, 40, 41, 59, 38, 60]) ∨
    (rd b (skipws b es p) = 62 ∧ ((gettoken b es p).ret = 62 ∨ (gettoken b es p).ret = 43)) ∨
    ((gettoken b es p).ret = 97 ∧ wordByte (rd b (skipws b es p)) = true) := by
  cases gettoken_cases hb hp with
  | eoi h1 h2 => left; rw [h2, h1]; exact ⟨rfl, hb.z⟩
  | sym h1 h2 h3 => right; left; rw [h3]; exact ⟨rfl, h2⟩
  | gt h1 h2 h3 h4 => right; right; left; rw [h4]; exact ⟨h2, Or.inl rfl⟩
  | app h1 h2 h3 h4 => right; right; left; rw [h4]; exact ⟨h2, Or.inr rfl⟩
  | word h1 h2 h3 h4 => right; right; right; rw [h3]; exact ⟨rfl, h2⟩

theorem wordByte_ne_sym {c : Nat} (h : wordByte c = true) :
    c ≠ 0 ∧ c ∉ [60, 124, 62, 38, 59, 40, 41] := by
  obtain ⟨h1, _, h3⟩ := wordByte_parts h
  refine ⟨h1, ?_⟩
  simpa [strchr, symbols] using h3

theorem gettoken_ret_ne_zero {b : List Nat} {es p : Nat} (hb : CStr b es) (hp : p ≤ es)
    (h : rd b (skipws b es p) ≠ 0) : (gettoken b es p).ret ≠ 0 := by
  rcases gettoken_kind hb hp with h1 | h1 | h1 | h1
  · exact absurd h1.2 h
  · rw [h1.1]; exact h
  · rcases h1.2 with h2 | h2 <;> rw [h2] <;> decide
  · rw [h1.1]; decide

theorem gettoken_ret_eq_byte {b : List Nat} {es p : Nat} (hb : CStr b es) (hp : p ≤ es)
    (h : rd b (skipws b es p) ∈ [124, 40, 41, 59, 38, 60]) :
    (gettoken b es p).ret = rd b (skipws b es p) := by
  rcases gettoken_kind hb hp with h1 | h1 | h1 | h1
  · rw [h1.2] at h; simp at h
  · exact h1.1
  · rw [h1.1] at h; simp at h
  · have := (wordByte_ne_sym h1.2).2
    simp only [List.mem_cons, List.mem_singleton, not_or, List.not_mem_nil, or_false] at h this
    omega

theorem gettoken_word_good {b : List Nat} {es p : Nat} (hb : CStr b es) (hp : p ≤ es)
    (h : (gettoken b es p).ret = 97) :
    GoodSlice b es ((gettoken b es p).q, (gettoken b es p).eq) := by
  cases gettoken_cases hb hp with
  | eoi h1 h2 => rw [h2] at h; simp at h
  | sym h1 h2 h3 =>
    rw [h3] at h
    simp only at h
    rw [h] at h2; simp at h2
  | gt h1 h2 h3 h4 => rw [h4] at h; simp at h
  | app h1 h2 h3 h4 => rw [h4] at h; simp at h
  | word h1 h2 h3 h4 =>
    rw [h3]
    obtain ⟨_, hw2, hw3, hw4⟩ := wordEnd_spec hb (by omega : skipws b es p ≤ es)
    exact ⟨h4, hw2, hw3, hw4⟩

theorem tokensFrom_fuel {b : List Nat} {es : Nat} (hb : CStr b es) : ∀ n m p, p ≤ es →
    es - p < n → es - p < m → tokensFrom b es n p = tokensFrom b es m p
  | 0, _, _, _, h, _ => absurd h (by omega)
  | _ + 1, 0, _, _, _, h => absurd h (by omega)
  | n + 1, m + 1, p, hp, h1, h2 => by
    rw [tokensFrom, tokensFrom]
    by_cases hz : (gettoken b es p).ret = 0
    · rw [if_pos hz, if_pos hz]
    · rw [if_neg hz, if_neg hz]
      obtain ⟨g1, g2, g3, g4, g5⟩ := gettoken_bounds hb hp
      have := g5 hz
      rw [tokensFrom_fuel hb n m _ g4 (by omega) (by omega)]

theorem toks_unfold {b : List Nat} {es p : Nat} (hb : CStr b es) (hp : p ≤ es) :
    toks b es p = if (gettoken b es p).ret = 0 then []
      else gettoken b es p :: toks b es (gettoken b es p).ps := by
  obtain ⟨n, hn⟩ : ∃ n, es + 1 - p = n + 1 := ⟨es - p, by omega⟩
  unfold toks
  rw [hn, tokensFrom]
  by_cases hz : (gettoken b es p).ret = 0
  · rw [if_pos hz, if_pos hz]
  · rw [if_neg hz, if_neg hz]
    obtain ⟨g1, g2, g3, g4, g5⟩ := gettoken_bounds hb hp
    have := g5 hz
    rw [tokensFrom_fuel hb n (es + 1 - (gettoken b es p).ps) _ g4 (by omega) (by omega)]

theorem toks_cons {b : List Nat} {es p : Nat} (hb : CStr b es) (hp : p ≤ es)
    (h : (gettoken b es p).ret ≠ 0) :
    toks b es p = gettoken b es p :: toks b es (gettoken b es p).ps := by
  rw [toks_unfold hb hp, if_neg h]

theorem toks_nil {b : List Nat} {es p : Nat} (hb : CStr b es) (hp : p ≤ es)
    (h : (gettoken b es p).ret = 0) : toks b es p = [] := by
  rw [toks_unfold hb hp, if_pos h]

theorem toks_skipws {b : List Nat} {es p : Nat} (hb : CStr b es) (hp : p ≤ es) :
    toks b es (skipws b es p) = toks b es p := by
  rw [toks_unfold hb (skipws_le hp), toks_unfold hb hp, gettoken_skipws]

theorem redirsHaveFiles_nil : RedirsHaveFiles [] := by
  intro i t h
  simp at h

theorem redirsHaveFiles_cons {t : Tok} {ts : List Tok} (ht : ¬ isRedirOp t.ret)
    (h : RedirsHaveFiles ts) : RedirsHaveFiles (t :: ts) := by
  intro i u hi hr
  cases i with
  | zero =>
    simp only [List.getElem?_cons_zero, Option.some.injEq] at hi
    rw [← hi] at hr
    exact absurd hr ht
  | succ j =>
    simp only [List.getElem?_cons_succ] at hi ⊢
    exact h j u hi hr

theorem redirsHaveFiles_cons_word {t w : Tok} {ts : List Tok} (hw : w.ret = 97)
    (h : RedirsHaveFiles ts) : RedirsHaveFiles (t :: w :: ts) := by
  intro i u hi hr
  cases i with
  | zero => exact ⟨w, by simp, hw⟩
  | succ j =>
    have hw2 : ¬ isRedirOp w.ret := by rw [hw]; simp [isRedirOp]
    simp only [List.getElem?_cons_succ] at hi
    have := redirsHaveFiles_cons hw2 h j u hi hr
    simpa using this

/-! ## The step budget: more budget never changes a finished result -/

theorem done_ok (x : Cmd × Nat) : Done (.ok x) := by simp [Done]

theorem parseredirs_succ (b : List Nat) (es : Nat) : ∀ n c p r,
    parseredirs b es n c p = r → Done r → parseredirs b es (n + 1) c p = r
  | 0, c, p, r, h, hd => by
    rw [parseredirs] at h
    exact absurd h.symm hd
  | n + 1, c, p, r, h, hd => by
    rw [parseredirs] at h ⊢
    by_cases hp : (peek b es p [60, 62]).2 = true
    · simp only [hp, if_true] at h ⊢
      split at h
      · rename_i hf
        rw [if_pos hf]
        exact h
      · rename_i hf
        rw [if_neg hf]
        exact parseredirs_succ b es n _ _ r h hd
    · simp only [hp, if_false] at h ⊢
      exact h

theorem done_error_of_eq {e : Panic} {r : Except Panic (Cmd × Nat)}
    (h : Except.error e = r) (hd : Done r) : Done (.error e) := by
  rw [h]; exact hd

theorem parseexecLoop_succ (b : List Nat) (es : Nat) : ∀ n c argc p r,
    parseexecLoop b es n c argc p = r → Done r → parseexecLoop b es (n + 1) c argc p = r
  | 0, c, argc, p, r, h, hd => by
    rw [parseexecLoop] at h
    exact absurd h.symm hd
  | n + 1, c, argc, p, r, h, hd => by
    rw [parseexecLoop] at h ⊢
    by_cases hp : (peek b es p [124, 41, 38, 59]).2 = true
    · simp only [hp, if_true] at h ⊢
      exact h
    · simp only [hp] at h ⊢
      by_cases h0 : (gettoken b es (peek b es p [124, 41, 38, 59]).1).ret = 0
      · rw [if_pos h0] at h ⊢
        exact h
      · rw [if_neg h0] at h ⊢
        by_cases ha : (gettoken b es (peek b es p [124, 41, 38, 59]).1).ret ≠ 97
        · rw [if_pos ha] at h ⊢
          exact h
        · rw [if_neg ha] at h ⊢
          by_cases hm : argc + 1 ≥ MAXARGS
          · rw [if_pos hm] at h ⊢
            exact h
          · rw [if_neg hm] at h ⊢
            cases hx : parseredirs b es n
                (c.storeArg ((gettoken b es (peek b es p [124, 41, 38, 59]).1).q,
                  (gettoken b es (peek b es p [124, 41, 38, 59]).1).eq))
                (gettoken b es (peek b es p [124, 41, 38, 59]).1).ps with
            | error e =>
              rw [hx] at h
              rw [parseredirs_succ b es n _ _ _ hx (done_error_of_eq h hd)]
              exact h
            | ok x =>
              rw [hx] at h
              rw [parseredirs_succ b es n _ _ _ hx (done_ok x)]
              exact parseexecLoop_succ b es n _ _ _ r h hd

theorem parselineBack_succ (b : List Nat) (es : Nat) : ∀ n c p r,
    parselineBack b es n c p = r → Done r → parselineBack b es (n + 1) c p = r
  | 0, c, p, r, h, hd => by
    rw [parselineBack] at h
    exact absurd h.symm hd
  | n + 1, c, p, r, h, hd => by
    rw [parselineBack] at h ⊢
    by_cases hp : (peek b es p [38]).2 = true
    · simp only [hp, if_true] at h ⊢
      exact parselineBack_succ b es n _ _ r h hd
    · simp only [hp] at h ⊢
      exact h

/-- One more unit of budget leaves every finished result of the four mutually recursive
parsing functions as it is. -/
theorem parse_succ (b : List Nat) (es : Nat) : ∀ n,
    (∀ p r, parseline b es n p = r → Done r → parseline b es (n + 1) p = r) ∧
    (∀ p r, parsepipe b es n p = r → Done r → parsepipe b es (n + 1) p = r) ∧
    (∀ p r, parseexec b es n p = r → Done r → parseexec b es (n + 1) p = r) ∧
    (∀ p r, parseblock b es n p = r → Done r → parseblock b es (n + 1) p = r)
  | 0 => by
    refine ⟨?_, ?_, ?_, ?_⟩ <;> intro p r h hd
    · rw [parseline] at h; exact absurd h.symm hd
    · rw [parsepipe] at h; exact absurd h.symm hd
    · rw [parseexec] at h; exact absurd h.symm hd
    · rw [parseblock] at h; exact absurd h.symm hd
  | n + 1 => by
    obtain ⟨ihl, ihp, ihe, ihb⟩ := parse_succ b es n
    refine ⟨?_, ?_, ?_, ?_⟩ <;> intro p r h hd
    · rw [parseline] at h ⊢
      cases hx : parsepipe b es n p with
      | error e =>
        rw [hx] at h
        rw [ihp _ _ hx (done_error_of_eq h hd)]
        exact h
      | ok x =>
        rw [hx] at h
        rw [ihp _ _ hx (done_ok x)]
        simp only at h ⊢
        cases hy : parselineBack b es n x.1 x.2 with
        | error e =>
          rw [hy] at h
          rw [parselineBack_succ b es n _ _ _ hy (done_error_of_eq h hd)]
          exact h
        | ok y =>
          rw [hy] at h
          rw [parselineBack_succ b es n _ _ _ hy (done_ok y)]
          simp only at h ⊢
          by_cases hs : (peek b es y.2 [59]).2 = true
          · simp only [hs, if_true] at h ⊢
            cases hz : parseline b es n (gettoken b es (peek b es y.2 [59]).1).ps with
            | error e =>
              rw [hz] at h
              rw [ihl _ _ hz (done_error_of_eq h hd)]
              exact h
            | ok z =>
              rw [hz] at h
              rw [ihl _ _ hz (done_ok z)]
              exact h
          · simp only [hs] at h ⊢
            exact h
    · rw [parsepipe] at h ⊢
      cases hx : parseexec b es n p with
      | error e =>
        rw [hx] at h
        rw [ihe _ _ hx (done_error_of_eq h hd)]
        exact h
      | ok x =>
        rw [hx] at h
        rw [ihe _ _ hx (done_ok x)]
        simp only at h ⊢
        by_cases hs : (peek b es x.2 [124]).2 = true
        · simp only [hs, if_true] at h ⊢
          cases hz : parsepipe b es n (gettoken b es (peek b es x.2 [124]).1).ps with
          | error e =>
            rw [hz] at h
            rw [ihp _ _ hz (done_error_of_eq h hd)]
            exact h
          | ok z =>
            rw [hz] at h
            rw [ihp _ _ hz (done_ok z)]
            exact h
        · simp only [hs] at h ⊢
          exact h
    · rw [parseexec] at h ⊢
      by_cases hs : (peek b es p [40]).2 = true
      · simp only [hs, if_true] at h ⊢
        exact ihb _ _ h hd
      · simp only [hs] at h ⊢
        cases hx : parseredirs b es n (.exec []) (peek b es p [40]).1 with
        | error e =>
          rw [hx] at h
          rw [parseredirs_succ b es n _ _ _ hx (done_error_of_eq h hd)]
          exact h
        | ok x =>
          rw [hx] at h
          rw [parseredirs_succ b es n _ _ _ hx (done_ok x)]
          exact parseexecLoop_succ b es n _ _ _ r h hd
    · rw [parseblock] at h ⊢
      by_cases hs : (peek b es p [40]).2 = true
      · simp only [hs, Bool.not_true] at h ⊢
        cases hx : parseline b es n (gettoken b es (peek b es p [40]).1).ps with
        | error e =>
          rw [hx] at h
          rw [ihl _ _ hx (done_error_of_eq h hd)]
          exact h
        | ok x =>
          rw [hx] at h
          rw [ihl _ _ hx (done_ok x)]
          simp only at h ⊢
          by_cases hc : (peek b es x.2 [41]).2 = true
          · simp only [hc, Bool.not_true] at h ⊢
            exact parseredirs_succ b es n _ _ r h hd
          · simp only [hc] at h ⊢
            exact h
      · simp only [hs] at h ⊢
        exact h

theorem mono_of_succ {α : Type} (f : Nat → α) (P : α → Prop)
    (h : ∀ n r, f n = r → P r → f (n + 1) = r) {n m : Nat} {r : α}
    (hnm : n ≤ m) (hf : f n = r) (hp : P r) : f m = r := by
  induction hnm with
  | refl => exact hf
  | step _ ih => exact h _ _ ih hp

/-! ## What every successful parse guarantees -/

theorem inv_here {b : List Nat} {es p : Nat} (hb : CStr b es) (hp : p ≤ es) (c : Cmd) :
    Inv b es c p (c, skipws b es p) :=
  ⟨skipws_ge b es p, skipws_le hp, fun h => h, fun h => by
    rw [toks_skipws hb hp] at h; exact h⟩

theorem inv_eoi {b : List Nat} {es p : Nat} (hb : CStr b es) (hp : p ≤ es) (c : Cmd)
    (h : (gettoken b es p).ret = 0) : Inv b es c p (c, (gettoken b es p).ps) := by
  obtain ⟨g1, g2, g3, g4, _⟩ := gettoken_bounds hb hp
  refine ⟨by show p ≤ (gettoken b es p).ps; omega, g4, fun h => h, fun _ => ?_⟩
  rw [toks_nil hb hp h]
  exact redirsHaveFiles_nil

theorem inv_tok {b : List Nat} {es p : Nat} (hb : CStr b es) (hp : p ≤ es) {c c1 : Cmd}
    {x : Cmd × Nat} (hret : (gettoken b es p).ret ≠ 0)
    (hnr : ¬ isRedirOp (gettoken b es p).ret)
    (hsl : (∀ sl ∈ c.slices, GoodSlice b es sl) → ∀ sl ∈ c1.slices, GoodSlice b es sl)
    (h : Inv b es c1 (gettoken b es p).ps x) : Inv b es c p x := by
  obtain ⟨g1, g2, g3, g4, _⟩ := gettoken_bounds hb hp
  obtain ⟨h1, h2, h3, h4⟩ := h
  refine ⟨by omega, h2, fun hc => h3 (hsl hc), fun hr => ?_⟩
  rw [toks_cons hb hp hret]
  exact redirsHaveFiles_cons hnr (h4 hr)

theorem inv_redir {b : List Nat} {es p : Nat} (hb : CStr b es) (hp : p ≤ es) {c c1 : Cmd}
    {x : Cmd × Nat} (hret : (gettoken b es p).ret ≠ 0)
    (hf : (gettoken b es (gettoken b es p).ps).ret = 97)
    (hsl : (∀ sl ∈ c.slices, GoodSlice b es sl) → ∀ sl ∈ c1.slices, GoodSlice b es sl)
    (h : Inv b es c1 (gettoken b es (gettoken b es p).ps).ps x) : Inv b es c p x := by
  obtain ⟨g1, g2, g3, g4, _⟩ := gettoken_bounds hb hp
  obtain ⟨f1, f2, f3, f4, _⟩ := gettoken_bounds hb g4
  obtain ⟨h1, h2, h3, h4⟩ := h
  refine ⟨by omega, h2, fun hc => h3 (hsl hc), fun hr => ?_⟩
  rw [toks_cons hb hp hret, toks_cons hb g4 (by rw [hf]; decide)]
  exact redirsHaveFiles_cons_word hf (h4 hr)

theorem inv_trans {b : List Nat} {es p : Nat} {c : Cmd} {x y : Cmd × Nat}
    (h1 : Inv b es c p x) (h2 : Inv b es x.1 x.2 y) : Inv b es c p y :=
  ⟨Nat.le_trans h1.1 h2.1, h2.2.1, fun hc => h2.2.2.1 (h1.2.2.1 hc),
    fun hr => h1.2.2.2 (h2.2.2.2 hr)⟩

theorem inv_skip {b : List Nat} {es p : Nat} (hb : CStr b es) (hp : p ≤ es) {c : Cmd}
    {x : Cmd × Nat} (h : Inv b es c (skipws b es p) x) : Inv b es c p x :=
  inv_trans (inv_here hb hp c) h

theorem inv_cmd {b : List Nat} {es p : Nat} {c c1 : Cmd} {x : Cmd × Nat}
    (hsl : (∀ sl ∈ c.slices, GoodSlice b es sl) → ∀ sl ∈ c1.slices, GoodSlice b es sl)
    (h : Inv b es c1 p x) : Inv b es c p x :=
  ⟨h.1, h.2.1, fun hc => h.2.2.1 (hsl hc), h.2.2.2⟩

theorem inv_out {b : List Nat} {es p : Nat} {c : Cmd} {x : Cmd × Nat} (c2 : Cmd)
    (hsl : (∀ sl ∈ x.1.slices, GoodSlice b es sl) → ∀ sl ∈ c2.slices, GoodSlice b es sl)
    (h : Inv b es c p x) : Inv b es c p (c2, x.2) :=
  ⟨h.1, h.2.1, fun hc => hsl (h.2.2.1 hc), h.2.2.2⟩

theorem slices_storeArg (c : Cmd) (a sl : Nat × Nat) (h : sl ∈ (c.storeArg a).slices) :
    sl = a ∨ sl ∈ c.slices := by
  induction c with
  | exec argv =>
    simp only [Cmd.storeArg, Cmd.slices, List.mem_append, List.mem_singleton] at h ⊢
    tauto
  | redir c f ef m fd ih =>
    simp only [Cmd.storeArg, Cmd.slices, List.mem_cons] at h ⊢
    rcases h with h | h
    · exact Or.inr (Or.inl h)
    · rcases ih h with h | h
      · exact Or.inl h
      · exact Or.inr (Or.inr h)
  | pipe l r _ _ => exact Or.inr h
  | list l r _ _ => exact Or.inr h
  | back c _ => exact Or.inr h

theorem parseredirs_inv {b : List Nat} {es : Nat} (hb : CStr b es) : ∀ n c p x, p ≤ es →
    parseredirs b es n c p = .ok x → Inv b es c p x
  | 0, c, p, x, hp, h => by
    rw [parseredirs] at h; cases h
  | n + 1, c, p, x, hp, h => by
    rw [parseredirs] at h
    simp only [peek_fst, gettoken_skipws] at h
    cases hpk : (peek b es p [60, 62]).2 with
    | true =>
      rw [hpk] at h
      simp only [if_true] at h
      have hret := gettoken_ret_ne_zero hb hp (peek_true hpk).1
      obtain ⟨_, _, _, g4, _⟩ := gettoken_bounds hb hp
      by_cases hf : (gettoken b es (gettoken b es p).ps).ret ≠ 97
      · rw [if_pos hf] at h; cases h
      · rw [if_neg hf] at h
        have hf1 : (gettoken b es (gettoken b es p).ps).ret = 97 := not_not.mp hf
        obtain ⟨_, _, _, f4, _⟩ := gettoken_bounds hb g4
        refine inv_redir hb hp hret hf1 ?_ (parseredirs_inv hb n _ _ x f4 h)
        intro hc sl hsl
        have hgood := gettoken_word_good hb g4 hf1
        split_ifs at hsl
        all_goals first
          | exact hc sl hsl
          | (simp only [Cmd.slices, List.mem_cons] at hsl
             rcases hsl with hsl | hsl
             · rw [hsl]; exact hgood
             · exact hc sl hsl)
    | false =>
      rw [hpk] at h
      simp only [Bool.false_eq_true, if_false, Except.ok.injEq] at h
      rw [← h]
      exact inv_here hb hp c

theorem parseexecLoop_inv {b : List Nat} {es : Nat} (hb : CStr b es) : ∀ n c argc p x, p ≤ es →
    parseexecLoop b es n c argc p = .ok x → Inv b es c p x
  | 0, c, argc, p, x, hp, h => by
    rw [parseexecLoop] at h; cases h
  | n + 1, c, argc, p, x, hp, h => by
    rw [parseexecLoop] at h
    simp only [peek_fst, gettoken_skipws] at h
    cases hpk : (peek b es p [124, 41, 38, 59]).2 with
    | true =>
      rw [hpk] at h
      simp only [if_true, Except.ok.injEq] at h
      rw [← h]
      exact inv_here hb hp c
    | false =>
      rw [hpk] at h
      simp only [Bool.false_eq_true, if_false] at h
      by_cases h0 : (gettoken b es p).ret = 0
      · rw [if_pos h0] at h
        simp only [Except.ok.injEq] at h
        rw [← h]
        exact inv_eoi hb hp c h0
      · rw [if_neg h0] at h
        by_cases ha : (gettoken b es p).ret ≠ 97
        · rw [if_pos ha] at h; cases h
        · rw [if_neg ha] at h
          have ha1 : (gettoken b es p).ret = 97 := not_not.mp ha
          by_cases hm : argc + 1 ≥ MAXARGS
          · rw [if_pos hm] at h; cases h
          · rw [if_neg hm] at h
            obtain ⟨_, _, _, g4, _⟩ := gettoken_bounds hb hp
            cases hx : parseredirs b es n
                (c.storeArg ((gettoken b es p).q, (gettoken b es p).eq))
                (gettoken b es p).ps with
            | error e => rw [hx] at h; cases h
            | ok r =>
              rw [hx] at h
              simp only at h
              have i1 := parseredirs_inv hb n _ _ r g4 hx
              have i2 := parseexecLoop_inv hb n _ _ _ x i1.2.1 h
              refine inv_tok hb hp h0 (by rw [ha1]; simp [isRedirOp]) ?_ (inv_trans i1 i2)
              intro hc sl hsl
              rcases slices_storeArg _ _ _ hsl with h1 | h1
              · rw [h1]; exact gettoken_word_good hb hp ha1
              · exact hc sl h1

/-- After a successful `peek` for one of the one-byte operators other than `<`, the token
read next is that operator: not the end of input and not a redirection operator. -/
theorem gettoken_after_peek {b : List Nat} {es p : Nat} {set : List Nat} (hb : CStr b es)
    (hp : p ≤ es) (hset : ∀ c ∈ set, c ∈ [124, 40, 41, 59, 38])
    (hpk : (peek b es p set).2 = true) :
    (gettoken b es p).ret ≠ 0 ∧ ¬ isRedirOp (gettoken b es p).ret ∧
      (gettoken b es p).ret = rd b (skipws b es p) := by
  obtain ⟨h1, h2⟩ := peek_true hpk
  have h3 := hset _ h2
  have h4 : (gettoken b es p).ret = rd b (skipws b es p) :=
    gettoken_ret_eq_byte hb hp (by simp at h3 ⊢; tauto)
  refine ⟨by rw [h4]; exact h1, ?_, h4⟩
  rw [h4]
  simp only [List.mem_cons, List.mem_singleton, List.not_mem_nil, or_false] at h3
  simp only [isRedirOp]
  omega

theorem parselineBack_inv {b : List Nat} {es : Nat} (hb : CStr b es) : ∀ n c p x, p ≤ es →
    parselineBack b es n c p = .ok x → Inv b es c p x
  | 0, c, p, x, hp, h => by
    rw [parselineBack] at h; cases h
  | n + 1, c, p, x, hp, h => by
    rw [parselineBack] at h
    simp only [peek_fst, gettoken_skipws] at h
    cases hpk : (peek b es p [38]).2 with
    | true =>
      rw [hpk] at h
      simp only [if_true] at h
      obtain ⟨k1, k2, _⟩ := gettoken_after_peek hb hp (by simp) hpk
      obtain ⟨_, _, _, g4, _⟩ := gettoken_bounds hb hp
      have hsl : (∀ sl ∈ c.slices, GoodSlice b es sl) →
          ∀ sl ∈ (Cmd.back c).slices, GoodSlice b es sl := fun hc => hc
      exact inv_tok hb hp k1 k2 hsl (parselineBack_inv hb n _ _ x g4 h)
    | false =>
      rw [hpk] at h
      simp only [Bool.false_eq_true, if_false, Except.ok.injEq] at h
      rw [← h]
      exact inv_here hb hp c

theorem inv_pair {b : List Nat} {es p : Nat} {r1 r2 : Cmd × Nat} (c2 : Cmd)
    (h1 : Inv b es (.exec []) p r1) (h2 : Inv b es (.exec []) r1.2 r2)
    (hsl : ∀ sl ∈ c2.slices, sl ∈ r1.1.slices ∨ sl ∈ r2.1.slices) :
    Inv b es (.exec []) p (c2, r2.2) := by
  have hnil : ∀ sl ∈ (Cmd.exec []).slices, GoodSlice b es sl := by
    intro sl h; simp [Cmd.slices] at h
  refine ⟨Nat.le_trans h1.1 h2.1, h2.2.1, fun _ sl h => ?_, fun hr => h1.2.2.2 (h2.2.2.2 hr)⟩
  rcases hsl sl h with h3 | h3
  · exact h1.2.2.1 hnil sl h3
  · exact h2.2.2.1 hnil sl h3

/-- The guarantees of `Inv` hold for every successful run of the four mutually recursive
parsing functions, whatever the budget. -/
theorem parse_inv {b : List Nat} {es : Nat} (hb : CStr b es) : ∀ n,
    (∀ p x, p ≤ es → parseline b es n p = .ok x → Inv b es (.exec []) p x) ∧
    (∀ p x, p ≤ es → parsepipe b es n p = .ok x → Inv b es (.exec []) p x) ∧
    (∀ p x, p ≤ es → parseexec b es n p = .ok x → Inv b es (.exec []) p x) ∧
    (∀ p x, p ≤ es → parseblock b es n p = .ok x → Inv b es (.exec []) p x)
  | 0 => by
    refine ⟨?_, ?_, ?_, ?_⟩ <;> intro p x hp h
    · rw [parseline] at h; cases h
    · rw [parsepipe] at h; cases h
    · rw [parseexec] at h; cases h
    · rw [parseblock] at h; cases h
  | n + 1 => by
    obtain ⟨ihl, ihp, ihe, ihb⟩ := parse_inv hb n
    refine ⟨?_, ?_, ?_, ?_⟩ <;> intro p x hp h
    · rw [parseline] at h
      cases hx : parsepipe b es n p with
      | error e => rw [hx] at h; cases h
      | ok r =>
        rw [hx] at h
        simp only at h
        have i1 := ihp p r hp hx
        cases hy : parselineBack b es n r.1 r.2 with
        | error e => rw [hy] at h; cases h
        | ok r1 =>
          rw [hy] at h
          simp only [peek_fst, gettoken_skipws] at h
          have i2 := inv_trans i1 (parselineBack_inv hb n _ _ r1 i1.2.1 hy)
          cases hpk : (peek b es r1.2 [59]).2 with
          | true =>
            rw [hpk] at h
            simp only [if_true] at h
            obtain ⟨k1, k2, _⟩ := gettoken_after_peek hb i2.2.1 (by simp) hpk
            obtain ⟨_, _, _, g4, _⟩ := gettoken_bounds hb i2.2.1
            cases hz : parseline b es n (gettoken b es r1.2).ps with
            | error e => rw [hz] at h; cases h
            | ok r2 =>
              rw [hz] at h
              simp only [Except.ok.injEq] at h
              rw [← h]
              have i3 : Inv b es (.exec []) r1.2 r2 :=
                inv_tok hb i2.2.1 k1 k2 (fun hc => hc) (ihl _ r2 g4 hz)
              exact inv_pair _ i2 i3 (fun sl hsl => by
                simpa [Cmd.slices] using hsl)
          | false =>
            rw [hpk] at h
            simp only [Bool.false_eq_true, if_false, Except.ok.injEq] at h
            rw [← h]
            exact inv_trans i2 (inv_here hb i2.2.1 r1.1)
    · rw [parsepipe] at h
      cases hx : parseexec b es n p with
      | error e => rw [hx] at h; cases h
      | ok r =>
        rw [hx] at h
        simp only [peek_fst, gettoken_skipws] at h
        have i1 := ihe p r hp hx
        cases hpk : (peek b es r.2 [124]).2 with
        | true =>
          rw [hpk] at h
          simp only [if_true] at h
          obtain ⟨k1, k2, _⟩ := gettoken_after_peek hb i1.2.1 (by simp) hpk
          obtain ⟨_, _, _, g4, _⟩ := gettoken_bounds hb i1.2.1
          cases hz : parsepipe b es n (gettoken b es r.2).ps with
          | error e => rw [hz] at h; cases h
          | ok r2 =>
            rw [hz] at h
            simp only [Except.ok.injEq] at h
            rw [← h]
            have i3 : Inv b es (.exec []) r.2 r2 :=
              inv_tok hb i1.2.1 k1 k2 (fun hc => hc) (ihp _ r2 g4 hz)
            exact inv_pair _ i1 i3 (fun sl hsl => by
              simpa [Cmd.slices] using hsl)
        | false =>
          rw [hpk] at h
          simp only [Bool.false_eq_true, if_false, Except.ok.injEq] at h
          rw [← h]
          exact inv_trans i1 (inv_here hb i1.2.1 r.1)
    · rw [parseexec] at h
      simp only [peek_fst] at h
      cases hpk : (peek b es p [40]).2 with
      | true =>
        rw [hpk] at h
        simp only [if_true] at h
        exact inv_skip hb hp (ihb _ x (skipws_le hp) h)
      | false =>
        rw [hpk] at h
        simp only [Bool.false_eq_true, if_false] at h
        cases hx : parseredirs b es n (.exec []) (skipws b es p) with
        | error e => rw [hx] at h; cases h
        | ok r =>
          rw [hx] at h
          simp only at h
          have i1 := parseredirs_inv hb n _ _ r (skipws_le hp) hx
          exact inv_skip hb hp (inv_trans i1 (parseexecLoop_inv hb n _ _ _ x i1.2.1 h))
    · rw [parseblock] at h
      simp only [peek_fst, gettoken_skipws] at h
      cases hpk : (peek b es p [40]).2 with
      | false =>
        rw [hpk] at h
        simp at h
      | true =>
        rw [hpk] at h
        simp only [Bool.not_true, Bool.false_eq_true, if_false] at h
        obtain ⟨k1, k2, _⟩ := gettoken_after_peek hb hp (by simp) hpk
        obtain ⟨_, _, _, g4, _⟩ := gettoken_bounds hb hp
        cases hx : parseline b es n (gettoken b es p).ps with
        | error e => rw [hx] at h; cases h
        | ok r =>
          rw [hx] at h
          simp only [peek_fst, gettoken_skipws] at h
          have i1 : Inv b es (.exec []) p r :=
            inv_tok hb hp k1 k2 (fun hc => hc) (ihl _ r g4 hx)
          cases hpk2 : (peek b es r.2 [41]).2 with
          | false =>
            rw [hpk2] at h
            simp at h
          | true =>
            rw [hpk2] at h
            simp only [Bool.not_true, Bool.false_eq_true, if_false] at h
            obtain ⟨m1, m2, _⟩ := gettoken_after_peek hb i1.2.1 (by simp) hpk2
            obtain ⟨_, _, _, m4, _⟩ := gettoken_bounds hb i1.2.1
            exact inv_trans i1
              (inv_tok hb i1.2.1 m1 m2 (fun hc => hc) (parseredirs_inv hb n _ _ x m4 h))

/-! ## The budget `parsecmd` hands out is never exhausted -/

theorem done_error {e : Panic} (h : e ≠ .outOfFuel) :
    Done (.error e) := by
  intro hc
  injection hc with hc
  exact h hc

theorem gettoken_advance {b : List Nat} {es p : Nat} (hb : CStr b es) (hp : p ≤ es)
    (h : (gettoken b es p).ret ≠ 0) : p < (gettoken b es p).ps ∧ (gettoken b es p).ps ≤ es := by
  obtain ⟨g1, g2, g3, g4, g5⟩ := gettoken_bounds hb hp
  have := g5 h
  exact ⟨by omega, g4⟩

theorem parseredirs_done {b : List Nat} {es : Nat} (hb : CStr b es) : ∀ n c p, p ≤ es →
    es - p < n → Done (parseredirs b es n c p)
  | 0, c, p, hp, h => absurd h (by omega)
  | n + 1, c, p, hp, h => by
    rw [parseredirs]
    simp only [peek_fst, gettoken_skipws]
    cases hpk : (peek b es p [60, 62]).2 with
    | true =>
      simp only [if_true]
      obtain ⟨a1, a2⟩ := gettoken_advance hb hp (gettoken_ret_ne_zero hb hp (peek_true hpk).1)
      by_cases hf : (gettoken b es (gettoken b es p).ps).ret ≠ 97
      · rw [if_pos hf]; exact done_error (by decide)
      · rw [if_neg hf]
        obtain ⟨f1, f2⟩ := gettoken_advance hb a2 (by rw [not_not.mp hf]; decide)
        exact parseredirs_done hb n _ _ f2 (by omega)
    | false =>
      simp only [Bool.false_eq_true, if_false]
      exact done_ok _

theorem parseexecLoop_done {b : List Nat} {es : Nat} (hb : CStr b es) : ∀ n c argc p, p ≤ es →
    es - p < n → Done (parseexecLoop b es n c argc p)
  | 0, c, argc, p, hp, h => absurd h (by omega)
  | n + 1, c, argc, p, hp, h => by
    rw [parseexecLoop]
    simp only [peek_fst, gettoken_skipws]
    cases hpk : (peek b es p [124, 41, 38, 59]).2 with
    | true =>
      simp only [if_true]
      exact done_ok _
    | false =>
      simp only [Bool.false_eq_true, if_false]
      by_cases h0 : (gettoken b es p).ret = 0
      · rw [if_pos h0]; exact done_ok _
      · rw [if_neg h0]
        by_cases ha : (gettoken b es p).ret ≠ 97
        · rw [if_pos ha]; exact done_error (by decide)
        · rw [if_neg ha]
          by_cases hm : argc + 1 ≥ MAXARGS
          · rw [if_pos hm]; exact done_error (by decide)
          · rw [if_neg hm]
            obtain ⟨a1, a2⟩ := gettoken_advance hb hp h0
            have hd := parseredirs_done hb n
              (c.storeArg ((gettoken b es p).q, (gettoken b es p).eq)) _ a2 (by omega)
            cases hx : parseredirs b es n
                (c.storeArg ((gettoken b es p).q, (gettoken b es p).eq))
                (gettoken b es p).ps with
            | error e =>
              rw [hx] at hd
              exact hd
            | ok r =>
              simp only
              have i1 := parseredirs_inv hb n _ _ r a2 hx
              exact parseexecLoop_done hb n _ _ _ i1.2.1 (by have := i1.1; omega)

theorem parselineBack_done {b : List Nat} {es : Nat} (hb : CStr b es) : ∀ n c p, p ≤ es →
    es - p < n → Done (parselineBack b es n c p)
  | 0, c, p, hp, h => absurd h (by omega)
  | n + 1, c, p, hp, h => by
    rw [parselineBack]
    simp only [peek_fst, gettoken_skipws]
    cases hpk : (peek b es p [38]).2 with
    | true =>
      simp only [if_true]
      obtain ⟨a1, a2⟩ := gettoken_advance hb hp (gettoken_ret_ne_zero hb hp (peek_true hpk).1)
      exact parselineBack_done hb n _ _ a2 (by omega)
    | false =>
      simp only [Bool.false_eq_true, if_false]
      exact done_ok _

/-- With a budget above four times the bytes left (plus the depth of the call inside one
round of `parseline`, `parsepipe`, `parseexec`, `parseblock`), the budget is not exhausted. -/
theorem parse_done {b : List Nat} {es : Nat} (hb : CStr b es) : ∀ n,
    (∀ p, p ≤ es → 4 * (es - p) + 3 < n → Done (parseline b es n p)) ∧
    (∀ p, p ≤ es → 4 * (es - p) + 2 < n → Done (parsepipe b es n p)) ∧
    (∀ p, p ≤ es → 4 * (es - p) + 1 < n → Done (parseexec b es n p)) ∧
    (∀ p, p ≤ es → 4 * (es - p) < n → Done (parseblock b es n p))
  | 0 => by
    refine ⟨?_, ?_, ?_, ?_⟩ <;> intro p hp h <;> omega
  | n + 1 => by
    obtain ⟨ihl, ihp, ihe, ihb⟩ := parse_done hb n
    obtain ⟨jl, jp, je, jb⟩ := parse_inv hb n
    refine ⟨?_, ?_, ?_, ?_⟩ <;> intro p hp h
    · rw [parseline]
      have hd := ihp p hp (by omega)
      cases hx : parsepipe b es n p with
      | error e => rw [hx] at hd; exact hd
      | ok r =>
        simp only
        have i1 := jp p r hp hx
        have hd2 := parselineBack_done hb n r.1 r.2 i1.2.1 (by have := i1.1; omega)
        cases hy : parselineBack b es n r.1 r.2 with
        | error e => rw [hy] at hd2; exact hd2
        | ok r1 =>
          simp only [peek_fst, gettoken_skipws]
          have i2 := parselineBack_inv hb n _ _ r1 i1.2.1 hy
          cases hpk : (peek b es r1.2 [59]).2 with
          | true =>
            simp only [if_true]
            obtain ⟨a1, a2⟩ := gettoken_advance hb i2.2.1
              (gettoken_ret_ne_zero hb i2.2.1 (peek_true hpk).1)
            have hd3 := ihl _ a2 (by have := i1.1; have := i2.1; omega)
            cases hz : parseline b es n (gettoken b es r1.2).ps with
            | error e => rw [hz] at hd3; exact hd3
            | ok r2 => exact done_ok _
          | false =>
            simp only [Bool.false_eq_true, if_false]
            exact done_ok _
    · rw [parsepipe]
      have hd := ihe p hp (by omega)
      cases hx : parseexec b es n p with
      | error e => rw [hx] at hd; exact hd
      | ok r =>
        simp only [peek_fst, gettoken_skipws]
        have i1 := je p r hp hx
        cases hpk : (peek b es r.2 [124]).2 with
        | true =>
          simp only [if_true]
          obtain ⟨a1, a2⟩ := gettoken_advance hb i1.2.1
            (gettoken_ret_ne_zero hb i1.2.1 (peek_true hpk).1)
          have hd3 := ihp _ a2 (by have := i1.1; omega)
          cases hz : parsepipe b es n (gettoken b es r.2).ps with
          | error e => rw [hz] at hd3; exact hd3
          | ok r2 => exact done_ok _
        | false =>
          simp only [Bool.false_eq_true, if_false]
          exact done_ok _
    · rw [parseexec]
      simp only [peek_fst]
      have hs1 := skipws_ge b es p
      have hs2 := skipws_le (b := b) hp
      cases hpk : (peek b es p [40]).2 with
      | true =>
        simp only [if_true]
        exact ihb _ hs2 (by omega)
      | false =>
        simp only [Bool.false_eq_true, if_false]
        have hd := parseredirs_done hb n (.exec []) _ hs2 (by omega)
        cases hx : parseredirs b es n (.exec []) (skipws b es p) with
        | error e => rw [hx] at hd; exact hd
        | ok r =>
          simp only
          have i1 := parseredirs_inv hb n _ _ r hs2 hx
          exact parseexecLoop_done hb n _ _ _ i1.2.1 (by have := i1.1; omega)
    · rw [parseblock]
      simp only [peek_fst, gettoken_skipws]
      cases hpk : (peek b es p [40]).2 with
      | false =>
        simp only [Bool.not_false, if_true]
        exact done_error (by decide)
      | true =>
        simp only [Bool.not_true, Bool.false_eq_true, if_false]
        obtain ⟨a1, a2⟩ := gettoken_advance hb hp
          (gettoken_ret_ne_zero hb hp (peek_true hpk).1)
        have hd := ihl _ a2 (by omega)
        cases hx : parseline b es n (gettoken b es p).ps with
        | error e => rw [hx] at hd; exact hd
        | ok r =>
          simp only [peek_fst, gettoken_skipws]
          have i1 := jl _ r a2 hx
          cases hpk2 : (peek b es r.2 [41]).2 with
          | false =>
            simp only [Bool.not_false, if_true]
            exact done_error (by decide)
          | true =>
            simp only [Bool.not_true, Bool.false_eq_true, if_false]
            obtain ⟨c1, c2⟩ := gettoken_advance hb i1.2.1
              (gettoken_ret_ne_zero hb i1.2.1 (peek_true hpk2).1)
            exact parseredirs_done hb n _ _ c2 (by have := i1.1; omega)

theorem parseline_top_done (b : List Nat) :
    Done (parseline b (strlen b) (4 * strlen b + 4) 0) :=
  (parse_done (cstr_strlen b) _).1 0 (Nat.zero_le _) (by omega)

/-! ## Finalization -/

theorem rd_set_zero (b : List Nat) (j i : Nat) :
    rd (b.set j 0) i = if i = j then 0 else rd b i := by
  unfold rd
  by_cases h : i = j
  · subst h
    by_cases hl : i < b.length
    · simp [List.getD_eq_getElem?_getD, List.getElem?_set_self, hl]
    · simp [List.getD_eq_getElem?_getD, List.getElem?_eq_none, Nat.le_of_not_lt hl]
  · rw [if_neg h]
    simp [List.getD_eq_getElem?_getD, List.getElem?_set_ne (Ne.symm h)]

theorem rd_foldl_set (argv : List (Nat × Nat)) : ∀ (b : List Nat) (i : Nat),
    rd (argv.foldl (fun m a => m.set a.2 0) b) i =
      if i ∈ argv.map Prod.snd then 0 else rd b i := by
  induction argv with
  | nil => intro b i; simp
  | cons a rest ih =>
    intro b i
    rw [List.foldl_cons, ih, rd_set_zero]
    by_cases h1 : i ∈ rest.map Prod.snd
    · simp [h1]
    · by_cases h2 : i = a.2
      · simp [h1, h2]
      · have : i ∉ (a :: rest).map Prod.snd := by
          simp only [List.map_cons, List.mem_cons, not_or]
          exact ⟨h2, h1⟩
        rw [if_neg h1, if_neg h2, if_neg this]

/-- The stores of `nulterminate` put a zero at the end offset of every slice of the tree
and leave every other byte as it is. -/
theorem rd_nulterminate (c : Cmd) : ∀ (b : List Nat) (i : Nat),
    rd (nulterminate c b) i = if i ∈ c.slices.map Prod.snd then 0 else rd b i := by
  induction c with
  | exec argv => intro b i; exact rd_foldl_set argv b i
  | redir c f ef m fd ih =>
    intro b i
    rw [nulterminate, rd_set_zero, ih]
    by_cases h2 : i = ef
    · simp [Cmd.slices, h2]
    · by_cases h1 : i ∈ c.slices.map Prod.snd
      · simp [Cmd.slices, h1]
      · have : i ∉ (Cmd.redir c f ef m fd).slices.map Prod.snd := by
          simp only [Cmd.slices, List.map_cons, List.mem_cons, not_or]
          exact ⟨h2, h1⟩
        rw [if_neg h2, if_neg h1, if_neg this]
  | pipe l r ihl ihr =>
    intro b i
    rw [nulterminate, ihr, ihl]
    by_cases h1 : i ∈ l.slices.map Prod.snd <;> by_cases h2 : i ∈ r.slices.map Prod.snd <;>
      simp [Cmd.slices, h1, h2]
  | list l r ihl ihr =>
    intro b i
    rw [nulterminate, ihr, ihl]
    by_cases h1 : i ∈ l.slices.map Prod.snd <;> by_cases h2 : i ∈ r.slices.map Prod.snd <;>
      simp [Cmd.slices, h1, h2]
  | back c ih =>
    intro b i
    rw [nulterminate, ih]
    simp [Cmd.slices]

theorem length_foldl_set (argv : List (Nat × Nat)) : ∀ (b : List Nat),
    (argv.foldl (fun m a => m.set a.2 0) b).length = b.length := by
  induction argv with
  | nil => intro b; rfl
  | cons a rest ih => intro b; rw [List.foldl_cons, ih, List.length_set]

theorem length_nulterminate (c : Cmd) : ∀ (b : List Nat),
    (nulterminate c b).length = b.length := by
  induction c with
  | exec argv => intro b; exact length_foldl_set argv b
  | redir c f ef m fd ih => intro b; rw [nulterminate, List.length_set, ih]
  | pipe l r ihl ihr => intro b; rw [nulterminate, ihr, ihl]
  | list l r ihl ihr => intro b; rw [nulterminate, ihr, ihl]
  | back c ih => intro b; rw [nulterminate, ih]

theorem drop_eq_rd_cons {b : List Nat} {i : Nat} (h : i < b.length) :
    b.drop i = rd b i :: b.drop (i + 1) := by
  rw [List.drop_eq_getElem_cons h]
  simp [rd, List.getD_eq_getElem?_getD, List.getElem?_eq_getElem h]

theorem lt_length_of_rd_ne_zero {b : List Nat} {i : Nat} (h : rd b i ≠ 0) : i < b.length := by
  by_contra hc
  exact h (rd_of_length_le (Nat.le_of_not_lt hc))

theorem cstr_of_rd (b b1 : List Nat) : ∀ (k q : Nat),
    (∀ i, q ≤ i → i < q + k → rd b1 i = rd b i ∧ rd b i ≠ 0) → rd b1 (q + k) = 0 →
    cstr b1 q = (b.drop q).take k
  | 0, q, _, hz => by
    simp only [Nat.add_zero] at hz
    simp only [cstr, List.take_zero]
    by_cases hl : q < b1.length
    · rw [drop_eq_rd_cons hl, hz]
      simp
    · rw [List.drop_eq_nil_of_le (Nat.le_of_not_lt hl)]
      simp
  | k + 1, q, h, hz => by
    obtain ⟨h1, h2⟩ := h q (Nat.le_refl _) (by omega)
    have hl : q < b.length := lt_length_of_rd_ne_zero h2
    have hl1 : q < b1.length := lt_length_of_rd_ne_zero (by rw [h1]; exact h2)
    have ih := cstr_of_rd b b1 k (q + 1) (fun i hi1 hi2 => h i (by omega) (by omega))
      (by rw [← hz]; congr 1; omega)
    unfold cstr at ih ⊢
    rw [drop_eq_rd_cons hl, drop_eq_rd_cons hl1, h1, List.take_succ_cons,
      List.takeWhile_cons_of_pos (by simpa using h2), ih]

theorem parsecmd_ok {b : List Nat} {tree : Cmd} {b1 : List Nat}
    (h : parsecmd b = .ok (tree, b1)) :
    ∃ p, parseline b (strlen b) (4 * strlen b + 4) 0 = .ok (tree, p) ∧
      skipws b (strlen b) p = strlen b ∧ b1 = nulterminate tree b := by
  unfold parsecmd at h
  simp only [peek_fst] at h
  cases hx : parseline b (strlen b) (4 * strlen b + 4) 0 with
  | error e => rw [hx] at h; cases h
  | ok r =>
    rw [hx] at h
    simp only at h
    by_cases hs : skipws b (strlen b) r.2 ≠ strlen b
    · rw [if_pos hs] at h; cases h
    · rw [if_neg hs] at h
      simp only [Except.ok.injEq, Prod.mk.injEq] at h
      obtain ⟨h1, h2⟩ := h
      subst h1
      exact ⟨r.2, rfl, not_not.mp hs, h2.symm⟩

theorem parsecmd_good {b : List Nat} {tree : Cmd} {b1 : List Nat}
    (h : parsecmd b = .ok (tree, b1)) :
    ∀ sl ∈ tree.slices, GoodSlice b (strlen b) sl := by
  obtain ⟨p, h1, _, _⟩ := parsecmd_ok h
  have inv := (parse_inv (cstr_strlen b) _).1 0 _ (Nat.zero_le _) h1
  exact inv.2.2.1 (fun sl hsl => by simp [Cmd.slices] at hsl)

/-- C1: whenever `parsecmd` returns a tree, every slice `[start, end)` stored in it (each
argument of an Exec node, each path of a Redir node) is a non-empty range of the input
string, the byte at `end` is 0 once `nulterminate` has run, and the zero-terminated string
then read at `start` is exactly the bytes `[start, end)` of the original input: no
terminator lands inside another slice. -/
theorem parsecmd_slices_terminated (b : List Nat) (tree : Cmd) (b1 : List Nat)
    (h : parsecmd b = .ok (tree, b1)) :
    ∀ sl ∈ tree.slices, sl.1 < sl.2 ∧ sl.2 ≤ strlen b ∧ rd b1 sl.2 = 0 ∧
      cstr b1 sl.1 = slice b sl := by
  intro sl hsl
  have good := parsecmd_good h
  obtain ⟨_, _, _, hb1⟩ := parsecmd_ok h
  obtain ⟨g1, g2, g3, g4⟩ := good sl hsl
  have hz : rd b1 sl.2 = 0 := by
    rw [hb1, rd_nulterminate, if_pos (List.mem_map_of_mem _ hsl)]
  refine ⟨g1, g2, hz, ?_⟩
  have hk : sl.1 + (sl.2 - sl.1) = sl.2 := by omega
  refine cstr_of_rd b b1 (sl.2 - sl.1) sl.1 (fun i hi1 hi2 => ?_) (by rw [hk]; exact hz)
  have hw := g3 i hi1 (by omega)
  refine ⟨?_, (wordByte_parts hw).1⟩
  rw [hb1, rd_nulterminate, if_neg]
  intro hmem
  obtain ⟨sl2, hsl2, he⟩ := List.mem_map.mp hmem
  have := (good sl2 hsl2).2.2.2
  rw [he, hw] at this
  cases this

theorem parsecmd_slices_terminated_witness :
    parsecmd [97, 62, 98, 32, 99, 0] =
      .ok (.redir (.exec [(0, 1), (4, 5)]) 2 3 .O_WRONLY_or_O_CREATE 1, [97, 0, 98, 0, 99, 0]) ∧
    ((2, 3) : Nat × Nat).1 < ((2, 3) : Nat × Nat).2 ∧
    ((2, 3) : Nat × Nat).2 ≤ strlen [97, 62, 98, 32, 99, 0] ∧
    rd [97, 0, 98, 0, 99, 0] ((2, 3) : Nat × Nat).2 = 0 ∧
    cstr [97, 0, 98, 0, 99, 0] ((2, 3) : Nat × Nat).1 = slice [97, 62, 98, 32, 99, 0] (2, 3) :=
  ⟨by rfl, parsecmd_slices_terminated [97, 62, 98, 32, 99, 0]
    (.redir (.exec [(0, 1), (4, 5)]) 2 3 .O_WRONLY_or_O_CREATE 1) [97, 0, 98, 0, 99, 0]
    (by rfl) (2, 3) (by decide)⟩

/-! ## Running the parser on a known token sequence -/

theorem peek_of_eoi {b : List Nat} {es p : Nat} (hb : CStr b es) (hp : p ≤ es)
    (h : (gettoken b es p).ret = 0) (set : List Nat) : (peek b es p set).2 = false := by
  rcases gettoken_kind hb hp with h1 | h1 | h1 | h1
  · simp [peek_snd, h1.2]
  · have := h1.2
    rw [← h1.1, h] at this
    simp at this
  · rcases h1.2 with h2 | h2 <;> rw [h2] at h <;> simp at h
  · rw [h1.1] at h; simp at h

theorem peek_of_word {b : List Nat} {es p : Nat} (hb : CStr b es) (hp : p ≤ es)
    (h : (gettoken b es p).ret = 97) {set : List Nat} (hset : ∀ c ∈ set, c ∈ symbols) :
    (peek b es p set).2 = false := by
  have hw : wordByte (rd b (skipws b es p)) = true := by
    rcases gettoken_kind hb hp with h1 | h1 | h1 | h1
    · rw [h1.1] at h; simp at h
    · have := h1.2
      rw [← h1.1, h] at this
      simp at this
    · rcases h1.2 with h2 | h2 <;> rw [h2] at h <;> simp at h
    · exact h1.2
  have hns := (wordByte_ne_sym hw).2
  rw [peek_snd]
  have : strchr set (rd b (skipws b es p)) = false := by
    cases hc : strchr set (rd b (skipws b es p))
    · rfl
    · exfalso
      apply hns
      have : rd b (skipws b es p) ∈ set := by simpa [strchr] using hc
      simpa [symbols] using hset _ this
  rw [this, Bool.and_false]

theorem byte_of_op {b : List Nat} {es p k : Nat} (hb : CStr b es) (hp : p ≤ es)
    (h : (gettoken b es p).ret = k) (hk : k ∈ [124, 40, 41, 59, 38, 60]) :
    rd b (skipws b es p) = k := by
  rcases gettoken_kind hb hp with h1 | h1 | h1 | h1
  · rw [h1.1] at h; rw [← h] at hk; simp at hk
  · rw [← h1.1]; exact h
  · rcases h1.2 with h2 | h2 <;> rw [h2] at h <;> rw [← h] at hk <;> simp at hk
  · rw [h1.1] at h; rw [← h] at hk; simp at hk

theorem byte_of_gt {b : List Nat} {es p : Nat} (hb : CStr b es) (hp : p ≤ es)
    (h : (gettoken b es p).ret = 62 ∨ (gettoken b es p).ret = 43) :
    rd b (skipws b es p) = 62 := by
  rcases gettoken_kind hb hp with h1 | h1 | h1 | h1
  · rw [h1.1] at h; simp at h
  · have := h1.2
    rw [← h1.1] at this
    rcases h with h | h <;> rw [h] at this <;> simp at this
  · exact h1.1
  · rw [h1.1] at h; simp at h

theorem peek_of_byte {b : List Nat} {es p k : Nat} (h : rd b (skipws b es p) = k)
    (hk : k ≠ 0) (set : List Nat) : (peek b es p set).2 = set.contains k := by
  rw [peek_snd, h]
  simp [strchr, hk]

theorem toks_head {b : List Nat} {es p : Nat} (hb : CStr b es) (hp : p ≤ es) {t : Tok}
    {ts : List Tok} (h : toks b es p = t :: ts) :
    gettoken b es p = t ∧ t.ret ≠ 0 ∧ toks b es t.ps = ts ∧ t.ps ≤ es := by
  rw [toks_unfold hb hp] at h
  by_cases hz : (gettoken b es p).ret = 0
  · rw [if_pos hz] at h; cases h
  · rw [if_neg hz] at h
    simp only [List.cons.injEq] at h
    obtain ⟨h1, h2⟩ := h
    subst h1
    exact ⟨rfl, hz, h2, (gettoken_advance hb hp hz).2⟩

theorem toks_end {b : List Nat} {es p : Nat} (hb : CStr b es) (hp : p ≤ es)
    (h : toks b es p = []) : (gettoken b es p).ret = 0 ∧ (gettoken b es p).ps = es := by
  rw [toks_unfold hb hp] at h
  by_cases hz : (gettoken b es p).ret = 0
  · refine ⟨hz, ?_⟩
    cases gettoken_cases hb hp with
    | eoi h1 h2 => rw [h2]
    | sym h1 h2 h3 =>
      rw [h3] at hz; simp only at hz
      rw [hz] at h2; simp at h2
    | gt h1 h2 h3 h4 => rw [h4] at hz; simp at hz
    | app h1 h2 h3 h4 => rw [h4] at hz; simp at hz
    | word h1 h2 h3 h4 => rw [h3] at hz; simp at hz
  · rw [if_neg hz] at h; cases h

theorem peek_skipws (b : List Nat) (es p : Nat) (set : List Nat) :
    peek b es (skipws b es p) set = peek b es p set := by
  simp [peek, skipws_idem]

theorem parseredirs_skipws (b : List Nat) (es : Nat) (n : Nat) (c : Cmd) (p : Nat) :
    parseredirs b es n c (skipws b es p) = parseredirs b es n c p := by
  cases n with
  | zero => rfl
  | succ n => rw [parseredirs, parseredirs, peek_skipws]

theorem parseexecLoop_skipws (b : List Nat) (es : Nat) (n : Nat) (c : Cmd) (argc p : Nat) :
    parseexecLoop b es n c argc (skipws b es p) = parseexecLoop b es n c argc p := by
  cases n with
  | zero => rfl
  | succ n => rw [parseexecLoop, parseexecLoop, peek_skipws]

theorem execPhase_succ (b : List Nat) (es : Nat) (n : Nat) (c : Cmd) (argc p : Nat)
    (r : Except Panic (Cmd × Nat)) (h : execPhase b es n c argc p = r) (hd : Done r) :
    execPhase b es (n + 1) c argc p = r := by
  unfold execPhase at h ⊢
  cases hx : parseredirs b es n c p with
  | error e =>
    rw [hx] at h
    rw [parseredirs_succ b es n _ _ _ hx (done_error_of_eq h hd)]
    exact h
  | ok x =>
    rw [hx] at h
    rw [parseredirs_succ b es n _ _ _ hx (done_ok x)]
    exact parseexecLoop_succ b es n _ _ _ r h hd

/-- The node `parseredirs` builds for the operator token `op` and the file token `f`. -/
theorem redir_node (op : Nat) (c : Cmd) (q eq : Nat) (h : isRedirOp op) :
    (if op = 60 then Cmd.redir c q eq .O_RDONLY 0
      else if op = 62 then Cmd.redir c q eq .O_WRONLY_or_O_CREATE 1
      else if op = 43 then Cmd.redir c q eq .O_WRONLY_or_O_CREATE 1
      else c) =
    (if op = 60 then Cmd.redir c q eq .O_RDONLY 0
      else Cmd.redir c q eq .O_WRONLY_or_O_CREATE 1) := by
  rcases h with h | h | h <;> subst h <;> simp

theorem runs_phase_redir {b : List Nat} {es p argc : Nat} {c : Cmd}
    {r : Except Panic (Cmd × Nat)} (hpk : (peek b es p [60, 62]).2 = true)
    (hop : isRedirOp (gettoken b es p).ret)
    (hf : (gettoken b es (gettoken b es p).ps).ret = 97)
    (h : Runs (fun n => execPhase b es n
      (if (gettoken b es p).ret = 60
        then Cmd.redir c (gettoken b es (gettoken b es p).ps).q
          (gettoken b es (gettoken b es p).ps).eq .O_RDONLY 0
        else Cmd.redir c (gettoken b es (gettoken b es p).ps).q
          (gettoken b es (gettoken b es p).ps).eq .O_WRONLY_or_O_CREATE 1) argc
      (gettoken b es (gettoken b es p).ps).ps) r) :
    Runs (fun n => execPhase b es n c argc p) r := by
  obtain ⟨n, hn, hd⟩ := h
  refine ⟨n + 1, ?_, hd⟩
  have hstep : parseredirs b es (n + 1) c p = parseredirs b es n
      (if (gettoken b es p).ret = 60
        then Cmd.redir c (gettoken b es (gettoken b es p).ps).q
          (gettoken b es (gettoken b es p).ps).eq .O_RDONLY 0
        else Cmd.redir c (gettoken b es (gettoken b es p).ps).q
          (gettoken b es (gettoken b es p).ps).eq .O_WRONLY_or_O_CREATE 1)
      (gettoken b es (gettoken b es p).ps).ps := by
    rw [parseredirs]
    simp only [peek_fst, gettoken_skipws, hpk, if_true]
    rw [if_neg (by rw [hf]; simp), redir_node _ _ _ _ hop]
  simp only [execPhase] at hn ⊢
  rw [hstep]
  cases hx : parseredirs b es n
      (if (gettoken b es p).ret = 60
        then Cmd.redir c (gettoken b es (gettoken b es p).ps).q
          (gettoken b es (gettoken b es p).ps).eq .O_RDONLY 0
        else Cmd.redir c (gettoken b es (gettoken b es p).ps).q
          (gettoken b es (gettoken b es p).ps).eq .O_WRONLY_or_O_CREATE 1)
      (gettoken b es (gettoken b es p).ps).ps with
  | error e => rw [hx] at hn; exact hn
  | ok x =>
    rw [hx] at hn
    exact parseexecLoop_succ b es n _ _ _ r hn hd

theorem runs_phase_missing {b : List Nat} {es p argc : Nat} {c : Cmd}
    (hpk : (peek b es p [60, 62]).2 = true)
    (hf : (gettoken b es (gettoken b es p).ps).ret ≠ 97) :
    Runs (fun n => execPhase b es n c argc p) (.error .missingFile) := by
  refine ⟨1, ?_, done_error (by decide)⟩
  simp only [execPhase, parseredirs, peek_fst, gettoken_skipws, hpk, if_true]
  rw [if_pos hf]

theorem parseredirs_none {b : List Nat} {es p : Nat} (c : Cmd) (n : Nat)
    (hpk : (peek b es p [60, 62]).2 = false) :
    parseredirs b es (n + 1) c p = .ok (c, skipws b es p) := by
  rw [parseredirs]
  simp [hpk, peek_fst]

theorem runs_phase_word {b : List Nat} {es p argc : Nat} {c : Cmd}
    {r : Except Panic (Cmd × Nat)} (hpk : (peek b es p [60, 62]).2 = false)
    (hst : (peek b es p [124, 41, 38, 59]).2 = false)
    (hw : (gettoken b es p).ret = 97) (hargc : argc + 1 < MAXARGS)
    (h : Runs (fun n => execPhase b es n
      (c.storeArg ((gettoken b es p).q, (gettoken b es p).eq)) (argc + 1)
      (gettoken b es p).ps) r) :
    Runs (fun n => execPhase b es n c argc p) r := by
  obtain ⟨n, hn, hd⟩ := h
  refine ⟨n + 1, ?_, hd⟩
  simp only [execPhase]
  rw [parseredirs_none c n hpk]
  simp only
  rw [parseexecLoop_skipws, parseexecLoop]
  simp only [peek_fst, gettoken_skipws, hst, Bool.false_eq_true, if_false]
  rw [if_neg (by rw [hw]; simp), if_neg (by rw [hw]; simp), if_neg (by omega)]
  exact hn

theorem runs_phase_many {b : List Nat} {es p argc : Nat} {c : Cmd}
    (hpk : (peek b es p [60, 62]).2 = false)
    (hst : (peek b es p [124, 41, 38, 59]).2 = false)
    (hw : (gettoken b es p).ret = 97) (hargc : argc + 1 ≥ MAXARGS) :
    Runs (fun n => execPhase b es n c argc p) (.error .tooManyArgs) := by
  refine ⟨1, ?_, done_error (by decide)⟩
  simp only [execPhase]
  rw [parseredirs_none c 0 hpk]
  simp only
  rw [parseexecLoop_skipws, parseexecLoop]
  simp only [peek_fst, gettoken_skipws, hst, Bool.false_eq_true, if_false]
  rw [if_neg (by rw [hw]; simp), if_neg (by rw [hw]; simp), if_pos hargc]

theorem runs_phase_eoi {b : List Nat} {es p argc : Nat} {c : Cmd}
    (hpk : (peek b es p [60, 62]).2 = false)
    (hst : (peek b es p [124, 41, 38, 59]).2 = false)
    (hw : (gettoken b es p).ret = 0) :
    Runs (fun n => execPhase b es n c argc p) (.ok (c, (gettoken b es p).ps)) := by
  refine ⟨1, ?_, done_ok _⟩
  simp only [execPhase]
  rw [parseredirs_none c 0 hpk]
  simp only
  rw [parseexecLoop_skipws, parseexecLoop]
  simp only [peek_fst, gettoken_skipws, hst, Bool.false_eq_true, if_false]
  rw [if_pos hw]

theorem runs_phase_stop {b : List Nat} {es p argc : Nat} {c : Cmd}
    (hpk : (peek b es p [60, 62]).2 = false)
    (hst : (peek b es p [124, 41, 38, 59]).2 = true) :
    Runs (fun n => execPhase b es n c argc p) (.ok (c, skipws b es p)) := by
  refine ⟨1, ?_, done_ok _⟩
  simp only [execPhase]
  rw [parseredirs_none c 0 hpk]
  simp only
  rw [parseexecLoop_skipws, parseexecLoop]
  simp only [peek_fst, hst, if_true]

theorem runs_at_max {f g : Nat → Except Panic (Cmd × Nat)}
    (hf : ∀ n r, f n = r → Done r → f (n + 1) = r)
    (hg : ∀ n r, g n = r → Done r → g (n + 1) = r)
    {r1 r2 : Except Panic (Cmd × Nat)} (h1 : Runs f r1) (h2 : Runs g r2) :
    ∃ n, f n = r1 ∧ g n = r2 := by
  obtain ⟨n1, e1, d1⟩ := h1
  obtain ⟨n2, e2, d2⟩ := h2
  exact ⟨max n1 n2, mono_of_succ f Done hf (Nat.le_max_left _ _) e1 d1,
    mono_of_succ g Done hg (Nat.le_max_right _ _) e2 d2⟩

theorem runs_parseexec {b : List Nat} {es p : Nat} {r : Except Panic (Cmd × Nat)}
    (hpk : (peek b es p [40]).2 = false)
    (h : Runs (fun n => execPhase b es n (.exec []) 0 p) r) :
    Runs (fun n => parseexec b es n p) r := by
  obtain ⟨n, hn, hd⟩ := h
  beta_reduce at hn
  refine ⟨n + 1, ?_, hd⟩
  beta_reduce
  rw [parseexec]
  simp only [peek_fst, hpk, Bool.false_eq_true, if_false]
  rw [parseredirs_skipws]
  exact hn

theorem runs_parsepipe_error {b : List Nat} {es p : Nat} {e : Panic}
    (h : Runs (fun n => parseexec b es n p) (.error e)) :
    Runs (fun n => parsepipe b es n p) (.error e) := by
  obtain ⟨n, hn, hd⟩ := h
  beta_reduce at hn
  refine ⟨n + 1, ?_, hd⟩
  beta_reduce
  rw [parsepipe, hn]

theorem runs_parsepipe_stop {b : List Nat} {es p : Nat} {x : Cmd × Nat}
    (h : Runs (fun n => parseexec b es n p) (.ok x))
    (hpk : (peek b es x.2 [124]).2 = false) :
    Runs (fun n => parsepipe b es n p) (.ok (x.1, skipws b es x.2)) := by
  obtain ⟨n, hn, hd⟩ := h
  beta_reduce at hn
  refine ⟨n + 1, ?_, done_ok _⟩
  beta_reduce
  rw [parsepipe, hn]
  simp [hpk, peek_fst]

theorem runs_parsepipe_step {b : List Nat} {es p : Nat} {x y : Cmd × Nat}
    (h : Runs (fun n => parseexec b es n p) (.ok x))
    (hpk : (peek b es x.2 [124]).2 = true)
    (h2 : Runs (fun n => parsepipe b es n (gettoken b es x.2).ps) (.ok y)) :
    Runs (fun n => parsepipe b es n p) (.ok (.pipe x.1 y.1, y.2)) := by
  obtain ⟨n, e1, e2⟩ := runs_at_max
    (fun n r => (parse_succ b es n).2.2.1 p r)
    (fun n r => (parse_succ b es n).2.1 (gettoken b es x.2).ps r) h h2
  refine ⟨n + 1, ?_, done_ok _⟩
  beta_reduce
  rw [parsepipe]
  rw [e1]
  simp only [peek_fst, gettoken_skipws, hpk, if_true]
  rw [e2]

theorem runs_back_stop {b : List Nat} {es p : Nat} (c : Cmd)
    (hpk : (peek b es p [38]).2 = false) :
    Runs (fun n => parselineBack b es n c p) (.ok (c, skipws b es p)) := by
  refine ⟨1, ?_, done_ok _⟩
  simp [parselineBack, hpk, peek_fst]

theorem runs_back_step {b : List Nat} {es p : Nat} {c : Cmd} {r : Except Panic (Cmd × Nat)}
    (hpk : (peek b es p [38]).2 = true)
    (h : Runs (fun n => parselineBack b es n (.back c) (gettoken b es p).ps) r) :
    Runs (fun n => parselineBack b es n c p) r := by
  obtain ⟨n, hn, hd⟩ := h
  beta_reduce at hn
  refine ⟨n + 1, ?_, hd⟩
  beta_reduce
  rw [parselineBack]
  simp only [peek_fst, gettoken_skipws, hpk, if_true]
  exact hn

theorem runs_parseline_error {b : List Nat} {es p : Nat} {e : Panic}
    (h : Runs (fun n => parsepipe b es n p) (.error e)) :
    Runs (fun n => parseline b es n p) (.error e) := by
  obtain ⟨n, hn, hd⟩ := h
  beta_reduce at hn
  refine ⟨n + 1, ?_, hd⟩
  beta_reduce
  rw [parseline, hn]

theorem runs_parseline_stop {b : List Nat} {es p : Nat} {x y : Cmd × Nat}
    (h : Runs (fun n => parsepipe b es n p) (.ok x))
    (h2 : Runs (fun n => parselineBack b es n x.1 x.2) (.ok y))
    (hpk : (peek b es y.2 [59]).2 = false) :
    Runs (fun n => parseline b es n p) (.ok (y.1, skipws b es y.2)) := by
  obtain ⟨n, e1, e2⟩ := runs_at_max
    (fun n r => (parse_succ b es n).2.1 p r)
    (fun n r => parselineBack_succ b es n x.1 x.2 r) h h2
  refine ⟨n + 1, ?_, done_ok _⟩
  beta_reduce
  rw [parseline]
  rw [e1]
  simp only
  rw [e2]
  simp [hpk, peek_fst]

theorem runs_parseline_step {b : List Nat} {es p : Nat} {x y z : Cmd × Nat}
    (h : Runs (fun n => parsepipe b es n p) (.ok x))
    (h2 : Runs (fun n => parselineBack b es n x.1 x.2) (.ok y))
    (hpk : (peek b es y.2 [59]).2 = true)
    (h3 : Runs (fun n => parseline b es n (gettoken b es y.2).ps) (.ok z)) :
    Runs (fun n => parseline b es n p) (.ok (.list y.1 z.1, z.2)) := by
  obtain ⟨n1, e1, e2⟩ := runs_at_max
    (fun n r => (parse_succ b es n).2.1 p r)
    (fun n r => parselineBack_succ b es n x.1 x.2 r) h h2
  obtain ⟨n, e3, e4⟩ := runs_at_max
    (fun n r => (parse_succ b es n).2.1 p r)
    (fun n r => (parse_succ b es n).1 (gettoken b es y.2).ps r) ⟨n1, e1, done_ok _⟩ h3
  have e5 := mono_of_succ (fun n => parselineBack b es n x.1 x.2) Done
    (fun n r => parselineBack_succ b es n x.1 x.2 r) (n := n1) (m := max n1 n)
    (Nat.le_max_left _ _) e2 (done_ok _)
  have e6 := mono_of_succ (fun n => parsepipe b es n p) Done
    (fun n r => (parse_succ b es n).2.1 p r) (n := n) (m := max n1 n)
    (Nat.le_max_right _ _) e3 (done_ok _)
  have e7 := mono_of_succ (fun n => parseline b es n (gettoken b es y.2).ps) Done
    (fun n r => (parse_succ b es n).1 (gettoken b es y.2).ps r) (n := n) (m := max n1 n)
    (Nat.le_max_right _ _) e4 (done_ok _)
  refine ⟨max n1 n + 1, ?_, done_ok _⟩
  beta_reduce
  rw [parseline]
  beta_reduce at e5 e6 e7
  rw [e6]
  simp only
  rw [e5]
  simp only [peek_fst, gettoken_skipws, hpk, if_true]
  rw [e7]

theorem parseline_top_eq {b : List Nat} {r : Except Panic (Cmd × Nat)}
    (h : Runs (fun n => parseline b (strlen b) n 0) r) :
    parseline b (strlen b) (4 * strlen b + 4) 0 = r := by
  obtain ⟨n, hn, hd⟩ := h
  have hs := fun n r => (parse_succ b (strlen b) n).1 0 r
  have e1 := mono_of_succ (fun n => parseline b (strlen b) n 0) Done hs
    (Nat.le_max_left n (4 * strlen b + 4)) hn hd
  have e2 := mono_of_succ (fun n => parseline b (strlen b) n 0) Done hs
    (Nat.le_max_right n (4 * strlen b + 4)) rfl (parseline_top_done b)
  beta_reduce at e1 e2
  rw [← e2, e1]

theorem parsecmd_of_runs_error {b : List Nat} {e : Panic}
    (h : Runs (fun n => parseline b (strlen b) n 0) (.error e)) :
    parsecmd b = .error e := by
  unfold parsecmd
  simp only [parseline_top_eq h]

theorem parsecmd_of_runs_ok {b : List Nat} {x : Cmd × Nat}
    (h : Runs (fun n => parseline b (strlen b) n 0) (.ok x))
    (hend : skipws b (strlen b) x.2 = strlen b) :
    parsecmd b = .ok (x.1, nulterminate x.1 b) := by
  unfold parsecmd
  simp only [parseline_top_eq h, peek_fst, hend, ne_eq, not_true_eq_false, if_false]

theorem parsecmd_of_runs_leftovers {b : List Nat} {x : Cmd × Nat}
    (h : Runs (fun n => parseline b (strlen b) n 0) (.ok x))
    (hend : skipws b (strlen b) x.2 ≠ strlen b) :
    parsecmd b = .error .leftovers := by
  unfold parsecmd
  simp only [parseline_top_eq h, peek_fst]
  rw [if_pos hend]

theorem gettoken_eoi_at {b : List Nat} {es p : Nat} (hb : CStr b es) (hp : p ≤ es)
    (h : (gettoken b es p).ret = 0) : skipws b es p = es ∧ (gettoken b es p).ps = es := by
  cases gettoken_cases hb hp with
  | eoi h1 h2 => exact ⟨h1, by rw [h2]⟩
  | sym h1 h2 h3 =>
    rw [h3] at h; simp only at h
    rw [h] at h2; simp at h2
  | gt h1 h2 h3 h4 => rw [h4] at h; simp at h
  | app h1 h2 h3 h4 => rw [h4] at h; simp at h
  | word h1 h2 h3 h4 => rw [h3] at h; simp at h

theorem toks_at_end {b : List Nat} {es : Nat} (hb : CStr b es) : toks b es es = [] := by
  apply toks_nil hb (Nat.le_refl _)
  have hfix : skipws b es es = es := skipws_fix (by omega)
  simp [gettoken, hfix, hb.z]

theorem gettoken_ret_headRet {b : List Nat} {es p : Nat} (hb : CStr b es) (hp : p ≤ es)
    {ts : List Tok} (h : toks b es p = ts) : (gettoken b es p).ret = headRet ts := by
  cases ts with
  | nil => exact (toks_end hb hp h).1
  | cons t ts =>
    obtain ⟨h1, _, _, _⟩ := toks_head hb hp h
    rw [h1]; rfl

/-- The answer of `peek` for a set of symbols, read off the return value of the token that
`gettoken` would deliver at the same offset. -/
theorem peek_eq_peekRet {b : List Nat} {es p : Nat} (hb : CStr b es) (hp : p ≤ es)
    {set : List Nat} (hset : ∀ c ∈ set, c ∈ symbols) :
    (peek b es p set).2 = peekRet (gettoken b es p).ret set := by
  rcases gettoken_kind hb hp with h1 | h1 | h1 | h1
  · rw [peek_of_eoi hb hp h1.1, h1.1]; rfl
  · have hk := h1.2
    rw [← h1.1] at hk
    have hb2 := byte_of_op hb hp rfl hk
    have hne : (gettoken b es p).ret ≠ 0 := by
      intro h0; rw [h0] at hk; simp at hk
    rw [peek_of_byte hb2 hne]
    unfold peekRet
    rw [if_neg, if_neg]
    · intro h0; rw [h0] at hk; simp at hk
    · intro h0
      rcases h0 with h0 | h0 <;> rw [h0] at hk <;> simp at hk
  · rw [peek_of_byte h1.1 (by decide)]
    rcases h1.2 with h2 | h2 <;> rw [h2] <;> rfl
  · rw [peek_of_word hb hp h1.1 hset, h1.1]; rfl

theorem storeArg_wrapRedirs (a : Nat × Nat) : ∀ (ps : List Piece) (c : Cmd),
    (wrapRedirs c ps).storeArg a = wrapRedirs (c.storeArg a) ps
  | [], c => rfl
  | .word _ :: ps, c => storeArg_wrapRedirs a ps c
  | .redir op f :: ps, c => by
    rw [wrapRedirs, wrapRedirs, storeArg_wrapRedirs a ps]
    congr 1
    split <;> rfl

theorem wrapRedirs_append : ∀ (ps qs : List Piece) (c : Cmd),
    wrapRedirs c (ps ++ qs) = wrapRedirs (wrapRedirs c ps) qs
  | [], qs, c => rfl
  | .word _ :: ps, qs, c => wrapRedirs_append ps qs c
  | .redir op f :: ps, qs, c => by
    rw [List.cons_append, wrapRedirs, wrapRedirs, wrapRedirs_append ps qs]

theorem wordsOf_append : ∀ (ps qs : List Piece), wordsOf (ps ++ qs) = wordsOf ps ++ wordsOf qs
  | [], qs => rfl
  | .word t :: ps, qs => by
    rw [List.cons_append, wordsOf, wordsOf, wordsOf_append ps qs, List.cons_append]
  | .redir op f :: ps, qs => by
    rw [List.cons_append, wordsOf, wordsOf, wordsOf_append ps qs]

/-- The redirections and words of a simple command that ends in front of `rest` (the end
of input, or one of `|`, `)`, `&`, `;`) are taken up one element after the other. -/
theorem phase_pieces {b : List Nat} {es : Nat} (hb : CStr b es) (rest : List Tok)
    (hrest : headRet rest = 0 ∨ headRet rest ∈ [124, 41, 38, 59]) :
    ∀ (pieces done : List Piece) (argv : List (Nat × Nat)) (p : Nat), p ≤ es →
    toks b es p = piecesToks pieces ++ rest → (∀ x ∈ pieces, x.ok) →
    argv.length + (wordsOf pieces).length < MAXARGS →
    ∃ q, Runs (fun n => execPhase b es n (wrapRedirs (.exec argv) done) argv.length p)
        (.ok (wrapRedirs (.exec (argv ++ wordsOf pieces)) (done ++ pieces), q)) ∧
      q ≤ es ∧ toks b es q = rest
  | [], done, argv, p, hp, ht, _, _ => by
    simp only [piecesToks, List.map_nil, List.flatten_nil, List.nil_append] at ht
    have hret := gettoken_ret_headRet hb hp ht
    have hpk1 : (peek b es p [60, 62]).2 = false := by
      rw [peek_eq_peekRet hb hp (by simp [symbols]), hret]
      rcases hrest with h | h
      · rw [h]; rfl
      · simp only [List.mem_cons, List.mem_singleton, List.not_mem_nil, or_false] at h
        rcases h with h | h | h | h <;> rw [h] <;> rfl
    simp only [wordsOf, List.append_nil]
    rcases hrest with h | h
    · have hpk2 : (peek b es p [124, 41, 38, 59]).2 = false := by
        rw [peek_eq_peekRet hb hp (by simp [symbols]), hret, h]; rfl
      have h0 : (gettoken b es p).ret = 0 := by rw [hret, h]
      refine ⟨(gettoken b es p).ps, runs_phase_eoi hpk1 hpk2 h0, ?_, ?_⟩
      · rw [(gettoken_eoi_at hb hp h0).2]
      · rw [(gettoken_eoi_at hb hp h0).2, toks_at_end hb]
        cases rest with
        | nil => rfl
        | cons t ts =>
          obtain ⟨h1, h2, _, _⟩ := toks_head hb hp ht
          rw [h1] at h0
          exact absurd h0 h2
    · have hpk2 : (peek b es p [124, 41, 38, 59]).2 = true := by
        rw [peek_eq_peekRet hb hp (by simp [symbols]), hret]
        simp only [List.mem_cons, List.mem_singleton, List.not_mem_nil, or_false] at h
        rcases h with h | h | h | h <;> rw [h] <;> rfl
      exact ⟨skipws b es p, runs_phase_stop hpk1 hpk2, skipws_le hp, by
        rw [toks_skipws hb hp, ht]⟩
  | .word t :: ps, done, argv, p, hp, ht, hok, hn => by
    simp only [piecesToks, List.map_cons, List.flatten_cons, Piece.toks, List.cons_append,
      List.nil_append] at ht
    obtain ⟨h1, h2, h3, h4⟩ := toks_head hb hp ht
    have htw : t.ret = 97 := hok _ (List.mem_cons_self _ _)
    have hret : (gettoken b es p).ret = 97 := by rw [h1, htw]
    have hpk1 : (peek b es p [60, 62]).2 = false := by
      rw [peek_eq_peekRet hb hp (by simp [symbols]), hret]; rfl
    have hpk2 : (peek b es p [124, 41, 38, 59]).2 = false := by
      rw [peek_eq_peekRet hb hp (by simp [symbols]), hret]; rfl
    simp only [wordsOf, List.length_cons] at hn
    obtain ⟨q, hq1, hq2, hq3⟩ := phase_pieces hb rest hrest ps done (argv ++ [(t.q, t.eq)])
      t.ps h4 h3 (fun x hx => hok x (List.mem_cons_of_mem _ hx))
      (by rw [List.length_append, List.length_singleton]; omega)
    refine ⟨q, ?_, hq2, hq3⟩
    have e1 : wrapRedirs (.exec (argv ++ wordsOf (.word t :: ps))) (done ++ .word t :: ps) =
        wrapRedirs (.exec (argv ++ [(t.q, t.eq)] ++ wordsOf ps)) (done ++ ps) := by
      rw [wrapRedirs_append, wrapRedirs_append, wordsOf, List.append_assoc]
      rfl
    rw [e1]
    apply runs_phase_word hpk1 hpk2 hret (by omega)
    rw [h1, storeArg_wrapRedirs]
    rw [List.length_append, List.length_singleton] at hq1
    exact hq1
  | .redir op f :: ps, done, argv, p, hp, ht, hok, hn => by
    simp only [piecesToks, List.map_cons, List.flatten_cons, Piece.toks, List.cons_append,
      List.nil_append] at ht
    obtain ⟨h1, h2, h3, h4⟩ := toks_head hb hp ht
    obtain ⟨g1, g2, g3, g4⟩ := toks_head hb h4 h3
    obtain ⟨hop, hfw⟩ : isRedirOp op.ret ∧ f.ret = 97 := hok _ (List.mem_cons_self _ _)
    have hpk1 : (peek b es p [60, 62]).2 = true := by
      rw [peek_eq_peekRet hb hp (by simp [symbols]), h1]
      rcases hop with h | h | h <;> rw [h] <;> rfl
    simp only [wordsOf] at hn
    obtain ⟨q, hq1, hq2, hq3⟩ := phase_pieces hb rest hrest ps (done ++ [.redir op f]) argv
      f.ps g4 g3 (fun x hx => hok x (List.mem_cons_of_mem _ hx)) hn
    refine ⟨q, ?_, hq2, hq3⟩
    have e1 : done ++ .redir op f :: ps = done ++ [.redir op f] ++ ps := by simp
    rw [wordsOf, e1]
    apply runs_phase_redir hpk1 (by rw [h1]; exact hop) (by rw [h1, g1]; exact hfw)
    rw [h1, g1]
    rw [wrapRedirs_append] at hq1
    exact hq1

theorem phase_pieces_many {b : List Nat} {es : Nat} (hb : CStr b es) (rest : List Tok) :
    ∀ (pieces : List Piece) (c : Cmd) (argc p : Nat), p ≤ es →
    toks b es p = piecesToks pieces ++ rest → (∀ x ∈ pieces, x.ok) →
    argc < MAXARGS → argc + (wordsOf pieces).length ≥ MAXARGS →
    Runs (fun n => execPhase b es n c argc p) (.error .tooManyArgs)
  | [], c, argc, p, hp, ht, _, h1, h2 => by
    simp only [wordsOf, List.length_nil] at h2
    omega
  | .word t :: ps, c, argc, p, hp, ht, hok, hlt, hn => by
    simp only [piecesToks, List.map_cons, List.flatten_cons, Piece.toks, List.cons_append,
      List.nil_append] at ht
    obtain ⟨h1, h2, h3, h4⟩ := toks_head hb hp ht
    have htw : t.ret = 97 := hok _ (List.mem_cons_self _ _)
    have hret : (gettoken b es p).ret = 97 := by rw [h1, htw]
    have hpk1 : (peek b es p [60, 62]).2 = false := by
      rw [peek_eq_peekRet hb hp (by simp [symbols]), hret]; rfl
    have hpk2 : (peek b es p [124, 41, 38, 59]).2 = false := by
      rw [peek_eq_peekRet hb hp (by simp [symbols]), hret]; rfl
    simp only [wordsOf, List.length_cons] at hn
    by_cases hm : argc + 1 ≥ MAXARGS
    · exact runs_phase_many hpk1 hpk2 hret hm
    · apply runs_phase_word hpk1 hpk2 hret (by omega)
      rw [h1]
      exact phase_pieces_many hb rest ps _ (argc + 1) t.ps h4 h3
        (fun x hx => hok x (List.mem_cons_of_mem _ hx)) (by omega) (by omega)
  | .redir op f :: ps, c, argc, p, hp, ht, hok, hlt, hn => by
    simp only [piecesToks, List.map_cons, List.flatten_cons, Piece.toks, List.cons_append,
      List.nil_append] at ht
    obtain ⟨h1, h2, h3, h4⟩ := toks_head hb hp ht
    obtain ⟨g1, g2, g3, g4⟩ := toks_head hb h4 h3
    obtain ⟨hop, hfw⟩ : isRedirOp op.ret ∧ f.ret = 97 := hok _ (List.mem_cons_self _ _)
    have hpk1 : (peek b es p [60, 62]).2 = true := by
      rw [peek_eq_peekRet hb hp (by simp [symbols]), h1]
      rcases hop with h | h | h <;> rw [h] <;> rfl
    simp only [wordsOf] at hn
    apply runs_phase_redir hpk1 (by rw [h1]; exact hop) (by rw [h1, g1]; exact hfw)
    rw [h1, g1]
    exact phase_pieces_many hb rest ps _ argc f.ps g4 g3
      (fun x hx => hok x (List.mem_cons_of_mem _ hx)) hlt hn

theorem headRet_pieces {pieces : List Piece} {rest : List Tok} (hok : ∀ x ∈ pieces, x.ok)
    (hrest : headRet rest = 0 ∨ headRet rest ∈ [124, 41, 38, 59]) :
    headRet (piecesToks pieces ++ rest) ∈ [0, 124, 41, 38, 59, 97, 60, 62, 43] := by
  cases pieces with
  | nil =>
    simp only [piecesToks, List.map_nil, List.flatten_nil, List.nil_append]
    rcases hrest with h | h
    · rw [h]; simp
    · simp only [List.mem_cons, List.mem_singleton, List.not_mem_nil, or_false] at h ⊢
      omega
  | cons x ps =>
    have hx := hok x (List.mem_cons_self _ _)
    cases x with
    | word t =>
      have : t.ret = 97 := hx
      simp [piecesToks, Piece.toks, headRet, this]
    | redir op f =>
      have : isRedirOp op.ret := hx.1
      simp only [piecesToks, List.map_cons, List.flatten_cons, Piece.toks, List.cons_append,
        headRet, List.head?_cons, Option.map_some', Option.getD_some]
      rcases this with h | h | h <;> rw [h] <;> simp

theorem parseexec_simple {b : List Nat} {es : Nat} (hb : CStr b es) {rest : List Tok}
    (hrest : headRet rest = 0 ∨ headRet rest ∈ [124, 41, 38, 59]) {pieces : List Piece}
    {p : Nat} (hp : p ≤ es) (ht : toks b es p = piecesToks pieces ++ rest)
    (hok : ∀ x ∈ pieces, x.ok) (hn : (wordsOf pieces).length < MAXARGS) :
    ∃ q, Runs (fun n => parseexec b es n p) (.ok (simpleTree pieces, q)) ∧
      q ≤ es ∧ toks b es q = rest := by
  have hpk : (peek b es p [40]).2 = false := by
    rw [peek_eq_peekRet hb hp (by simp [symbols]), gettoken_ret_headRet hb hp ht]
    have := headRet_pieces hok hrest
    simp only [List.mem_cons, List.mem_singleton, List.not_mem_nil, or_false] at this
    rcases this with h | h | h | h | h | h | h | h | h <;> rw [h] <;> rfl
  obtain ⟨q, h1, h2, h3⟩ := phase_pieces hb rest hrest pieces [] [] p hp ht hok
    (by simpa using hn)
  exact ⟨q, runs_parseexec hpk (by simpa [simpleTree] using h1), h2, h3⟩

theorem parseexec_simple_many {b : List Nat} {es : Nat} (hb : CStr b es) (rest : List Tok)
    (hrest : headRet rest = 0 ∨ headRet rest ∈ [124, 41, 38, 59]) {pieces : List Piece}
    {p : Nat} (hp : p ≤ es) (ht : toks b es p = piecesToks pieces ++ rest)
    (hok : ∀ x ∈ pieces, x.ok) (hn : (wordsOf pieces).length ≥ MAXARGS) :
    Runs (fun n => parseexec b es n p) (.error .tooManyArgs) := by
  have hpk : (peek b es p [40]).2 = false := by
    rw [peek_eq_peekRet hb hp (by simp [symbols]), gettoken_ret_headRet hb hp ht]
    have := headRet_pieces hok hrest
    simp only [List.mem_cons, List.mem_singleton, List.not_mem_nil, or_false] at this
    rcases this with h | h | h | h | h | h | h | h | h <;> rw [h] <;> rfl
  exact runs_parseexec hpk
    (phase_pieces_many hb rest pieces _ 0 p hp ht hok (by decide) (by omega))

theorem peekRet_other {k c : Nat} (hc : c ≠ 62) (h : k ≠ c) : peekRet k [c] = false := by
  unfold peekRet
  split
  · rfl
  · split
    · simp [Ne.symm hc]
    · simp [h]

theorem headRet_cons (t : Tok) (ts : List Tok) : headRet (t :: ts) = t.ret := rfl

theorem headRet_append_of_ne_nil {ts : List Tok} (rest : List Tok) (h : ts ≠ []) :
    headRet (ts ++ rest) = headRet ts := by
  cases ts with
  | nil => exact absurd rfl h
  | cons t ts => rfl

theorem parsepipe_more {b : List Nat} {es : Nat} (hb : CStr b es) {rest : List Tok}
    (hrest : headRet rest = 0 ∨ headRet rest ∈ [41, 38, 59]) :
    ∀ (more : List (Tok × List Piece)) (first : List Piece) (p : Nat), p ≤ es →
    toks b es p = piecesToks first ++ (moreToks more ++ rest) →
    ((∀ x ∈ first, x.ok) ∧ (wordsOf first).length < MAXARGS) →
    (∀ m ∈ more, m.1.ret = 124 ∧ (∀ x ∈ m.2, x.ok) ∧ (wordsOf m.2).length < MAXARGS) →
    ∃ q, Runs (fun n => parsepipe b es n p) (.ok (pipeTree first more, q)) ∧
      q ≤ es ∧ toks b es q = rest
  | [], first, p, hp, ht, hf, _ => by
    simp only [moreToks, List.nil_append] at ht
    have hrest2 : headRet rest = 0 ∨ headRet rest ∈ [124, 41, 38, 59] := by
      rcases hrest with h | h
      · exact Or.inl h
      · exact Or.inr (List.mem_cons_of_mem _ h)
    obtain ⟨q, h1, h2, h3⟩ := parseexec_simple hb hrest2 hp ht hf.1 hf.2
    have hpk : (peek b es q [124]).2 = false := by
      rw [peek_eq_peekRet hb h2 (by simp [symbols]), gettoken_ret_headRet hb h2 h3]
      apply peekRet_other (by decide)
      rcases hrest with h | h
      · rw [h]; decide
      · simp only [List.mem_cons, List.mem_singleton, List.not_mem_nil, or_false] at h
        omega
    exact ⟨skipws b es q, runs_parsepipe_stop h1 hpk, skipws_le h2, by
      rw [toks_skipws hb h2, h3]⟩
  | (bar, c) :: more, first, p, hp, ht, hf, hm => by
    obtain ⟨hbar, hc1, hc2⟩ := hm _ (List.mem_cons_self _ _)
    have ht2 : toks b es p =
        piecesToks first ++ (bar :: (piecesToks c ++ (moreToks more ++ rest))) := by
      rw [ht]; simp [moreToks]
    obtain ⟨q, h1, h2, h3⟩ := parseexec_simple hb
      (Or.inr (by rw [headRet_cons, hbar]; simp)) hp ht2 hf.1 hf.2
    obtain ⟨g1, g2, g3, g4⟩ := toks_head hb h2 h3
    have hpk : (peek b es q [124]).2 = true := by
      rw [peek_eq_peekRet hb h2 (by simp [symbols]), g1, hbar]; rfl
    obtain ⟨q2, k1, k2, k3⟩ := parsepipe_more hb hrest more c bar.ps g4 g3 ⟨hc1, hc2⟩
      (fun m hmm => hm m (List.mem_cons_of_mem _ hmm))
    rw [← g1] at k1
    exact ⟨q2, runs_parsepipe_step h1 hpk k1, k2, k3⟩

theorem back_amps {b : List Nat} {es : Nat} (hb : CStr b es) {rest : List Tok}
    (hrest : headRet rest ≠ 38) : ∀ (amps : List Tok) (c : Cmd) (p : Nat), p ≤ es →
    toks b es p = amps ++ rest → (∀ a ∈ amps, a.ret = 38) →
    ∃ q, Runs (fun n => parselineBack b es n c p) (.ok (backs c amps, q)) ∧
      q ≤ es ∧ toks b es q = rest
  | [], c, p, hp, ht, _ => by
    simp only [List.nil_append] at ht
    have hpk : (peek b es p [38]).2 = false := by
      rw [peek_eq_peekRet hb hp (by simp [symbols]), gettoken_ret_headRet hb hp ht]
      exact peekRet_other (by decide) hrest
    exact ⟨skipws b es p, runs_back_stop c hpk, skipws_le hp, by
      rw [toks_skipws hb hp, ht]⟩
  | a :: amps, c, p, hp, ht, ha => by
    simp only [List.cons_append] at ht
    obtain ⟨g1, g2, g3, g4⟩ := toks_head hb hp ht
    have hpk : (peek b es p [38]).2 = true := by
      rw [peek_eq_peekRet hb hp (by simp [symbols]), g1, ha a (List.mem_cons_self _ _)]; rfl
    obtain ⟨q, k1, k2, k3⟩ := back_amps hb hrest amps (.back c) a.ps g4 g3
      (fun x hx => ha x (List.mem_cons_of_mem _ hx))
    rw [← g1] at k1
    exact ⟨q, runs_back_step hpk k1, k2, k3⟩

/-- A job that ends in front of `rest` is parsed by `parsepipe` and the `&` loop into its
tree. -/
theorem parse_job {b : List Nat} {es : Nat} (hb : CStr b es) (rest : List Tok) (j : Job)
    (hj : j.ok) (hamp : headRet rest ≠ 38)
    (hrest : j.amps = [] → (headRet rest = 0 ∨ headRet rest ∈ [41, 38, 59]))
    {p : Nat} (hp : p ≤ es) (ht : toks b es p = j.toks ++ rest) :
    ∃ x y, Runs (fun n => parsepipe b es n p) (.ok x) ∧
      Runs (fun n => parselineBack b es n x.1 x.2) (.ok y) ∧ y.1 = j.tree ∧
      y.2 ≤ es ∧ toks b es y.2 = rest := by
  obtain ⟨hfirst, hmore, hamps⟩ := hj
  have hr2 : headRet (j.amps ++ rest) = 0 ∨ headRet (j.amps ++ rest) ∈ [41, 38, 59] := by
    cases ha : j.amps with
    | nil => simpa using hrest ha
    | cons a as =>
      right
      rw [List.cons_append, headRet_cons, hamps a (by rw [ha]; exact List.mem_cons_self _ _)]
      simp
  have ht2 : toks b es p = piecesToks j.first ++ (moreToks j.more ++ (j.amps ++ rest)) := by
    rw [ht]; simp [Job.toks]
  obtain ⟨q, h1, h2, h3⟩ := parsepipe_more hb hr2 j.more j.first p hp ht2 hfirst hmore
  obtain ⟨q2, k1, k2, k3⟩ := back_amps hb hamp j.amps (pipeTree j.first j.more) q h2 h3 hamps
  exact ⟨(pipeTree j.first j.more, q), (backs (pipeTree j.first j.more) j.amps, q2),
    h1, k1, rfl, k2, k3⟩

theorem parseline_jobs {b : List Nat} {es : Nat} (hb : CStr b es) :
    ∀ (tail : List (Tok × Job)) (j : Job) (p : Nat), p ≤ es →
    toks b es p = lineToks j tail → j.ok → (∀ t ∈ tail, t.1.ret = 59 ∧ t.2.ok) →
    ∃ q, Runs (fun n => parseline b es n p) (.ok (lineTree j tail, q)) ∧
      q ≤ es ∧ toks b es q = []
  | [], j, p, hp, ht, hj, _ => by
    simp only [lineToks] at ht
    obtain ⟨x, y, h1, h2, h3, h4, h5⟩ := parse_job hb [] j hj (by decide)
      (fun _ => Or.inl rfl) hp (by rw [ht]; simp)
    have hpk : (peek b es y.2 [59]).2 = false := by
      rw [peek_eq_peekRet hb h4 (by simp [symbols]), gettoken_ret_headRet hb h4 h5]
      rfl
    refine ⟨skipws b es y.2, ?_, skipws_le h4, by rw [toks_skipws hb h4, h5]⟩
    have := runs_parseline_stop h1 h2 hpk
    rw [h3] at this
    exact this
  | (semi, j2) :: tail, j, p, hp, ht, hj, htail => by
    simp only [lineToks] at ht
    obtain ⟨hsemi, hj2⟩ := htail _ (List.mem_cons_self _ _)
    obtain ⟨x, y, h1, h2, h3, h4, h5⟩ := parse_job hb (semi :: lineToks j2 tail) j hj
      (by rw [headRet_cons, hsemi]; decide)
      (fun _ => Or.inr (by rw [headRet_cons, hsemi]; simp)) hp ht
    obtain ⟨g1, g2, g3, g4⟩ := toks_head hb h4 h5
    have hpk : (peek b es y.2 [59]).2 = true := by
      rw [peek_eq_peekRet hb h4 (by simp [symbols]), g1, hsemi]; rfl
    obtain ⟨q, k1, k2, k3⟩ := parseline_jobs hb tail j2 semi.ps g4 g3 hj2
      (fun t ht => htail t (List.mem_cons_of_mem _ ht))
    rw [← g1] at k1
    refine ⟨q, ?_, k2, k3⟩
    have := runs_parseline_step h1 h2 hpk k1
    rw [h3] at this
    exact this

/-- An input whose tokens are those of jobs joined by `;` is parsed into the right-nested
List tree of the jobs. -/
theorem parsecmd_jobs {b : List Nat} (j : Job) (tail : List (Tok × Job))
    (ht : tokens b = lineToks j tail) (hj : j.ok) (htail : ∀ t ∈ tail, t.1.ret = 59 ∧ t.2.ok) :
    parsecmd b = .ok (lineTree j tail, nulterminate (lineTree j tail) b) := by
  have hb := cstr_strlen b
  obtain ⟨q, h1, h2, h3⟩ := parseline_jobs hb tail j 0 (Nat.zero_le _) ht hj htail
  have hend := (gettoken_eoi_at hb h2 (toks_end hb h2 h3).1).1
  exact parsecmd_of_runs_ok h1 hend

/-! ## The shapes of the trees `parsecmd` returns -/

theorem piecesToks_cons (x : Piece) (ps : List Piece) :
    piecesToks (x :: ps) = x.toks ++ piecesToks ps := rfl

theorem piecesToks_words : ∀ (ws : List Tok), piecesToks (ws.map Piece.word) = ws
  | [] => rfl
  | t :: ws => by
    rw [List.map_cons, piecesToks_cons, piecesToks_words ws]
    rfl

theorem wordsOf_words : ∀ (ws : List Tok), wordsOf (ws.map Piece.word) = ws.map Tok.slice
  | [] => rfl
  | t :: ws => by
    simp only [List.map_cons, wordsOf, wordsOf_words ws]
    rfl

theorem wrapRedirs_words (c : Cmd) : ∀ (ws : List Tok), wrapRedirs c (ws.map Piece.word) = c
  | [] => rfl
  | t :: ws => by
    simp only [List.map_cons, wrapRedirs, wrapRedirs_words c ws]

theorem simpleTree_words (ws : List Tok) :
    simpleTree (ws.map Piece.word) = .exec (ws.map Tok.slice) := by
  rw [simpleTree, wrapRedirs_words, wordsOf_words]

theorem words_ok (ws : List Tok) (hw : ∀ t ∈ ws, t.ret = 97) :
    ∀ x ∈ ws.map Piece.word, x.ok := by
  intro x hx
  obtain ⟨t, ht, rfl⟩ := List.mem_map.mp hx
  exact hw t ht

/-- The parse of a single simple command. -/
theorem parsecmd_simple {b : List Nat} (pieces : List Piece)
    (ht : tokens b = piecesToks pieces) (hok : ∀ x ∈ pieces, x.ok)
    (hn : (wordsOf pieces).length < MAXARGS) :
    parsecmd b = .ok (simpleTree pieces, nulterminate (simpleTree pieces) b) := by
  have := parsecmd_jobs (b := b) ⟨pieces, [], []⟩ []
    (by rw [ht]; simp [lineToks, Job.toks, moreToks])
    ⟨⟨hok, hn⟩, by simp, by simp⟩ (by simp)
  simpa [lineTree, Job.tree, backs, pipeTree] using this

theorem parsecmd_simple_many {b : List Nat} (pieces : List Piece)
    (ht : tokens b = piecesToks pieces) (hok : ∀ x ∈ pieces, x.ok)
    (hn : (wordsOf pieces).length ≥ MAXARGS) : parsecmd b = .error .tooManyArgs := by
  have hb := cstr_strlen b
  have h1 := parseexec_simple_many hb [] (Or.inl rfl) (Nat.zero_le _)
    (by rw [List.append_nil]; exact ht) hok hn
  exact parsecmd_of_runs_error (runs_parseline_error (runs_parsepipe_error h1))

/-- For a simple command made of `n` whitespace-separated words and no
operators (every token of the input is a `WORD`), `parsecmd` succeeds and yields an Exec
node with exactly those `n` arguments in order for every `n <= MAXARGS - 1 = 9`, and aborts
with "too many args" exactly when `n >= MAXARGS = 10`. -/
theorem args_of_tokens (b : List Nat) (hw : ∀ t ∈ tokens b, t.ret = 97) :
    ((tokens b).length ≤ 9 →
      parsecmd b = .ok (.exec ((tokens b).map Tok.slice),
        nulterminate (.exec ((tokens b).map Tok.slice)) b)) ∧
    ((tokens b).length ≥ 10 → parsecmd b = .error .tooManyArgs) := by
  constructor
  · intro hn
    have := parsecmd_simple (b := b) ((tokens b).map Piece.word)
      (piecesToks_words _).symm (words_ok _ hw)
      (by rw [wordsOf_words, List.length_map]; unfold MAXARGS; omega)
    rw [simpleTree_words] at this
    exact this
  · intro hn
    exact parsecmd_simple_many ((tokens b).map Piece.word)
      (piecesToks_words _).symm (words_ok _ hw)
      (by rw [wordsOf_words, List.length_map]; exact hn)

theorem lineToks_semi : ∀ (tail : List (Tok × List Piece)) (first : List Piece),
    lineToks ⟨first, [], []⟩ (tail.map fun m => (m.1, ⟨m.2, [], []⟩)) =
      piecesToks first ++ semiToks tail
  | [], first => by simp [lineToks, Job.toks, moreToks, semiToks]
  | (s, c) :: tail, first => by
    simp only [List.map_cons, lineToks, semiToks, lineToks_semi tail c]
    simp [Job.toks, moreToks]

theorem lineTree_semi : ∀ (tail : List (Tok × List Piece)) (first : List Piece),
    lineTree ⟨first, [], []⟩ (tail.map fun m => (m.1, ⟨m.2, [], []⟩)) = semiTree first tail
  | [], first => rfl
  | (s, c) :: tail, first => by
    simp only [List.map_cons, lineTree, semiTree, lineTree_semi tail c]
    rfl

theorem parsecmd_semis {b : List Nat} (first : List Piece) (tail : List (Tok × List Piece))
    (ht : tokens b = piecesToks first ++ semiToks tail)
    (hf : (∀ x ∈ first, x.ok) ∧ (wordsOf first).length < MAXARGS)
    (hm : ∀ m ∈ tail, m.1.ret = 59 ∧ (∀ x ∈ m.2, x.ok) ∧ (wordsOf m.2).length < MAXARGS) :
    parsecmd b = .ok (semiTree first tail, nulterminate (semiTree first tail) b) := by
  have := parsecmd_jobs (b := b) ⟨first, [], []⟩ (tail.map fun m => (m.1, ⟨m.2, [], []⟩))
    (by rw [lineToks_semi]; exact ht) ⟨hf, by simp, by simp⟩ (by
      intro t htm
      obtain ⟨m, hmm, rfl⟩ := List.mem_map.mp htm
      obtain ⟨h1, h2, h3⟩ := hm m hmm
      exact ⟨h1, ⟨h2, h3⟩, by simp, by simp⟩)
  rw [lineTree_semi] at this
  exact this

theorem parsecmd_pipes {b : List Nat} (first : List Piece) (more : List (Tok × List Piece))
    (ht : tokens b = piecesToks first ++ moreToks more)
    (hf : (∀ x ∈ first, x.ok) ∧ (wordsOf first).length < MAXARGS)
    (hm : ∀ m ∈ more, m.1.ret = 124 ∧ (∀ x ∈ m.2, x.ok) ∧ (wordsOf m.2).length < MAXARGS) :
    parsecmd b = .ok (pipeTree first more, nulterminate (pipeTree first more) b) := by
  have := parsecmd_jobs (b := b) ⟨first, more, []⟩ []
    (by rw [ht]; simp [lineToks, Job.toks]) ⟨hf, hm, by simp⟩ (by simp)
  simpa [lineTree, Job.tree, backs] using this

theorem word_piece_ok {t : Tok} (h : t.ret = 97) :
    (∀ x ∈ [Piece.word t], x.ok) ∧ (wordsOf [Piece.word t]).length < MAXARGS := by
  refine ⟨fun x hx => ?_, by simp [wordsOf, MAXARGS]⟩
  rw [List.mem_singleton] at hx
  rw [hx]; exact h

/-- The operators `;` and `|` are right-associative.  An input whose tokens are `A ; B ; C` for words
`A`, `B`, `C` parses to `List(Exec[A], List(Exec[B], Exec[C]))`, one whose tokens are
`A | B | C` to `Pipe(Exec[A], Pipe(Exec[B], Exec[C]))`; and in general any sequence of
simple commands (each of words and redirections, with fewer than `MAXARGS` words) joined by
`;` tokens, or joined by `|` tokens, parses to the fully right-nested List tree, or Pipe
tree, of the commands. -/
theorem right_assoc_of_tokens (b : List Nat) :
    (∀ a s1 b1 s2 c : Tok, tokens b = [a, s1, b1, s2, c] →
      a.ret = 97 → b1.ret = 97 → c.ret = 97 →
      (s1.ret = 59 → s2.ret = 59 → parsecmd b =
        .ok (.list (.exec [a.slice]) (.list (.exec [b1.slice]) (.exec [c.slice])),
          nulterminate
            (.list (.exec [a.slice]) (.list (.exec [b1.slice]) (.exec [c.slice]))) b)) ∧
      (s1.ret = 124 → s2.ret = 124 → parsecmd b =
        .ok (.pipe (.exec [a.slice]) (.pipe (.exec [b1.slice]) (.exec [c.slice])),
          nulterminate
            (.pipe (.exec [a.slice]) (.pipe (.exec [b1.slice]) (.exec [c.slice]))) b))) ∧
    (∀ (first : List Piece) (tail : List (Tok × List Piece)),
      tokens b = piecesToks first ++ semiToks tail →
      ((∀ x ∈ first, x.ok) ∧ (wordsOf first).length < MAXARGS) →
      (∀ m ∈ tail, m.1.ret = 59 ∧ (∀ x ∈ m.2, x.ok) ∧ (wordsOf m.2).length < MAXARGS) →
      parsecmd b = .ok (semiTree first tail, nulterminate (semiTree first tail) b)) ∧
    (∀ (first : List Piece) (more : List (Tok × List Piece)),
      tokens b = piecesToks first ++ moreToks more →
      ((∀ x ∈ first, x.ok) ∧ (wordsOf first).length < MAXARGS) →
      (∀ m ∈ more, m.1.ret = 124 ∧ (∀ x ∈ m.2, x.ok) ∧ (wordsOf m.2).length < MAXARGS) →
      parsecmd b = .ok (pipeTree first more, nulterminate (pipeTree first more) b)) := by
  refine ⟨fun a s1 b1 s2 c ht ha hb1 hc => ⟨fun h1 h2 => ?_, fun h1 h2 => ?_⟩,
    fun first tail ht hf hm => parsecmd_semis first tail ht hf hm,
    fun first more ht hf hm => parsecmd_pipes first more ht hf hm⟩
  · exact parsecmd_semis [.word a] [(s1, [.word b1]), (s2, [.word c])] (by rw [ht]; rfl)
      (word_piece_ok ha) (by
        intro m hm
        simp only [List.mem_cons, List.mem_singleton, List.not_mem_nil, or_false] at hm
        rcases hm with rfl | rfl
        · exact ⟨h1, word_piece_ok hb1⟩
        · exact ⟨h2, word_piece_ok hc⟩)
  · exact parsecmd_pipes [.word a] [(s1, [.word b1]), (s2, [.word c])] (by rw [ht]; rfl)
      (word_piece_ok ha) (by
        intro m hm
        simp only [List.mem_cons, List.mem_singleton, List.not_mem_nil, or_false] at hm
        rcases hm with rfl | rfl
        · exact ⟨h1, word_piece_ok hb1⟩
        · exact ⟨h2, word_piece_ok hc⟩)

/-- For a simple command whose tokens are words and redirections (each one of
`<`, `>`, `>>` followed by a path word) interleaved in any positions, with at most 9 words,
`parsecmd` yields `Redir_n(...Redir_1(Exec[w1..wk]))`: a single innermost Exec node with
all the words in textual order, wrapped by the redirections in textual order with the first
innermost, descriptor 0 and read-only for `<`, descriptor 1 and write-or-create for `>`
and for `>>`, so that `>>` gives exactly the node `>` gives. -/
theorem wrap_of_tokens (b : List Nat) (pieces : List Piece)
    (ht : tokens b = piecesToks pieces) (hok : ∀ x ∈ pieces, x.ok)
    (hn : (wordsOf pieces).length ≤ 9) :
    parsecmd b = .ok (wrapRedirs (.exec (wordsOf pieces)) pieces,
      nulterminate (wrapRedirs (.exec (wordsOf pieces)) pieces) b) ∧
    (∀ (c : Cmd) (op f : Tok), op.ret = 60 →
      wrapRedirs c [.redir op f] = .redir c f.q f.eq .O_RDONLY 0) ∧
    (∀ (c : Cmd) (op f : Tok), op.ret = 62 ∨ op.ret = 43 →
      wrapRedirs c [.redir op f] = .redir c f.q f.eq .O_WRONLY_or_O_CREATE 1) := by
  refine ⟨parsecmd_simple pieces ht hok (by unfold MAXARGS; omega), ?_, ?_⟩
  · intro c op f h
    simp [wrapRedirs, h]
  · intro c op f h
    rcases h with h | h <;> simp [wrapRedirs, h]

theorem backs_eq_iterate : ∀ (amps : List Tok) (c : Cmd),
    backs c amps = Cmd.back^[amps.length] c
  | [], c => rfl
  | a :: amps, c => by
    rw [backs, backs_eq_iterate amps, List.length_cons, Function.iterate_succ_apply]

/-- An input whose tokens are a word `A` followed by `n >= 1` tokens `&` parses to
`Exec[A]` inside exactly `n` nested Back nodes, and one whose tokens are `A & ;` parses to
`List(Back(Exec[A]), E)` with `E` an Exec node of zero arguments. -/
theorem backs_of_tokens (b : List Nat) :
    (∀ (a : Tok) (amps : List Tok), tokens b = a :: amps → a.ret = 97 →
      (∀ x ∈ amps, x.ret = 38) → 1 ≤ amps.length →
      parsecmd b = .ok (Cmd.back^[amps.length] (.exec [a.slice]),
        nulterminate (Cmd.back^[amps.length] (.exec [a.slice])) b)) ∧
    (∀ a amp semi : Tok, tokens b = [a, amp, semi] → a.ret = 97 → amp.ret = 38 →
      semi.ret = 59 →
      parsecmd b = .ok (.list (.back (.exec [a.slice])) (.exec []),
        nulterminate (.list (.back (.exec [a.slice])) (.exec [])) b)) := by
  constructor
  · intro a amps ht ha hamps _
    have := parsecmd_jobs (b := b) ⟨[.word a], [], amps⟩ []
      (by rw [ht]; rfl) ⟨word_piece_ok ha, by simp, hamps⟩ (by simp)
    rw [← backs_eq_iterate]
    exact this
  · intro a amp semi ht ha hamp hsemi
    exact parsecmd_jobs (b := b) ⟨[.word a], [], [amp]⟩ [(semi, ⟨[], [], []⟩)]
      (by rw [ht]; rfl)
      ⟨word_piece_ok ha, by simp, by simpa using hamp⟩
      (by
        intro t htm
        rw [List.mem_singleton] at htm
        rw [htm]
        exact ⟨hsemi, ⟨by simp, by simp [wordsOf, MAXARGS]⟩, by simp, by simp⟩)

theorem skipws_ne_end_of_toks {b : List Nat} {es p : Nat} (hb : CStr b es) (hp : p ≤ es)
    {t : Tok} {ts : List Tok} (h : toks b es p = t :: ts) : skipws b es p ≠ es := by
  obtain ⟨h1, h2, _, _⟩ := toks_head hb hp h
  intro hc
  rcases gettoken_kind hb hp with g | g | g | g
  · rw [h1] at g; exact h2 g.1
  · have := g.2
    rw [hc, hb.z] at this
    simp at this
  · have := g.1
    rw [hc, hb.z] at this
    simp at this
  · have := (wordByte_parts g.2).1
    rw [hc, hb.z] at this
    exact this rfl

/-- An input whose tokens are a word `A`, `&`, `&`, and then a command that
begins with a word `B` does not parse: `parseline` returns `Back(Back(Exec[A]))` with the
offset resting in front of `B`, and `parsecmd` then aborts with the "leftovers" syntax
error, so `B` is part of no tree. -/
theorem leftovers_of_tokens (b : List Nat) (a amp1 amp2 w : Tok) (more : List Tok)
    (ht : tokens b = a :: amp1 :: amp2 :: w :: more) (ha : a.ret = 97) (h1 : amp1.ret = 38)
    (h2 : amp2.ret = 38) (hw : w.ret = 97) :
    parsecmd b = .error .leftovers ∧
    ∃ q, parseline b (strlen b) (4 * strlen b + 4) 0 =
        .ok (.back (.back (.exec [a.slice])), q) ∧
      toks b (strlen b) q = w :: more := by
  have hb := cstr_strlen b
  obtain ⟨x, y, k1, k2, k3, k4, k5⟩ := parse_job hb (w :: more)
    ⟨[.word a], [], [amp1, amp2]⟩
    ⟨word_piece_ok ha, by simp, by
      intro t htm
      simp only [List.mem_cons, List.mem_singleton, List.not_mem_nil, or_false] at htm
      rcases htm with rfl | rfl
      · exact h1
      · exact h2⟩
    (by rw [headRet_cons, hw]; decide) (fun h => by simp at h) (Nat.zero_le _)
    (by rw [show toks b (strlen b) 0 = tokens b from rfl, ht]; rfl)
  have hpk : (peek b (strlen b) y.2 [59]).2 = false := by
    rw [peek_eq_peekRet hb k4 (by simp [symbols]), gettoken_ret_headRet hb k4 k5,
      headRet_cons, hw]
    rfl
  have hrun := runs_parseline_stop k1 k2 hpk
  have htk : toks b (strlen b) (skipws b (strlen b) y.2) = w :: more := by
    rw [toks_skipws hb k4, k5]
  have hne := skipws_ne_end_of_toks hb (skipws_le k4) htk
  refine ⟨parsecmd_of_runs_leftovers hrun hne, skipws b (strlen b) y.2, ?_, htk⟩
  rw [parseline_top_eq hrun, k3]
  rfl

theorem parsecmd_done (b : List Nat) : parsecmd b ≠ .error .outOfFuel := by
  intro h
  have hd := parseline_top_done b
  unfold parsecmd at h
  simp only at h
  cases hx : parseline b (strlen b) (4 * strlen b + 4) 0 with
  | error e =>
    rw [hx] at h
    simp only [Except.error.injEq] at h
    rw [h] at hx
    exact hd hx
  | ok r =>
    rw [hx] at h
    simp only at h
    split at h <;> cases h

theorem parsecmd_tokens_ok {b : List Nat} {r : Cmd × List Nat} (h : parsecmd b = .ok r) :
    RedirsHaveFiles (tokens b) := by
  have hb := cstr_strlen b
  obtain ⟨tree, b1⟩ := r
  obtain ⟨p, h1, h2, _⟩ := parsecmd_ok h
  have inv := (parse_inv hb _).1 0 _ (Nat.zero_le _) h1
  apply inv.2.2.2
  have hp : p ≤ strlen b := inv.2.1
  show RedirsHaveFiles (toks b (strlen b) p)
  rw [← toks_skipws hb hp, h2, toks_at_end hb]
  exact redirsHaveFiles_nil

/-- C8: an input that has a redirection operator (`<`, `>` or `>>`) whose next token is not
a `WORD` (it is another operator, or there is no next token) makes `parsecmd` abort: no
tree is returned, and the abort is one of the parser's own `panic` calls.  Equivalently,
in every input on which `parsecmd` succeeds every redirection operator is directly followed
by a word token. -/
theorem redirection_needs_file (b : List Nat) :
    ((∃ i t, (tokens b)[i]? = some t ∧ isRedirOp t.ret ∧
        ∀ w, (tokens b)[i + 1]? = some w → w.ret ≠ 97) →
      ∃ e, parsecmd b = .error e ∧ e ≠ .outOfFuel) ∧
    (∀ r, parsecmd b = .ok r → RedirsHaveFiles (tokens b)) := by
  refine ⟨?_, fun r h => parsecmd_tokens_ok h⟩
  rintro ⟨i, t, h1, h2, h3⟩
  cases hx : parsecmd b with
  | error e =>
    refine ⟨e, rfl, fun he => ?_⟩
    rw [he] at hx
    exact parsecmd_done b hx
  | ok r =>
    exfalso
    obtain ⟨w, hw1, hw2⟩ := parsecmd_tokens_ok hx i t h1 h2
    exact h3 w hw1 hw2

/-! ## The tokens of a written-out input -/

theorem skipws_run {b : List Nat} {es : Nat} : ∀ (k p : Nat), p + k ≤ es →
    (∀ i, p ≤ i → i < p + k → strchr whitespace (rd b i) = true) →
    ¬ (p + k < es ∧ strchr whitespace (rd b (p + k)) = true) → skipws b es p = p + k
  | 0, p, _, _, hstop => skipws_fix hstop
  | k + 1, p, hle, hws, hstop => by
    rw [skipws_step (by omega) (hws p (Nat.le_refl _) (by omega)),
      skipws_run k (p + 1) (by omega) (fun i h1 h2 => hws i (by omega) (by omega))
        (by rw [show p + 1 + k = p + (k + 1) by omega]; exact hstop)]
    omega

theorem wordEnd_run {b : List Nat} {es : Nat} (hb : CStr b es) : ∀ (k p : Nat), p + k ≤ es →
    (∀ i, p ≤ i → i < p + k → wordByte (rd b i) = true) →
    wordByte (rd b (p + k)) = false → wordEnd b es p = p + k
  | 0, p, hle, _, hstop => by
    apply wordEnd_fix
    rintro ⟨h1, h2, h3⟩
    have hz := hb.nz p h1
    simp only [Nat.add_zero] at hstop
    simp [wordByte, hz, h2, h3] at hstop
  | k + 1, p, hle, hw, hstop => by
    obtain ⟨_, h2, h3⟩ := wordByte_parts (hw p (Nat.le_refl _) (by omega))
    rw [wordEnd_step (by omega) h2 h3,
      wordEnd_run hb k (p + 1) (by omega) (fun i h1 h2 => hw i (by omega) (by omega))
        (by rw [show p + 1 + k = p + (k + 1) by omega]; exact hstop)]
    omega

theorem rd_mem {l : List Nat} {i : Nat} (h : i < l.length) : rd l i ∈ l := by
  rw [rd_eq_getElem h]
  exact List.getElem_mem h

theorem rd_zero_eq_headD (l : List Nat) : rd l 0 = l.headD 0 := by
  cases l <;> rfl

theorem rd_in_text (pre text r : List Nat) {i : Nat} (h : i < text.length) :
    rd (pre ++ (text ++ r)) (pre.length + i) = rd text i := by
  rw [rd_append_right (by omega), Nat.add_sub_cancel_left, rd_append_left h]

theorem rd_in_ws (pre text ws r : List Nat) {i : Nat} (h : i < ws.length) :
    rd (pre ++ (text ++ (ws ++ r))) (pre.length + text.length + i) = rd ws i := by
  rw [rd_append_right (by omega), show pre.length + text.length + i - pre.length
    = text.length + i by omega, rd_append_right (by omega), Nat.add_sub_cancel_left,
    rd_append_left h]

theorem rd_behind_ws (pre text ws r : List Nat) :
    rd (pre ++ (text ++ (ws ++ r))) (pre.length + text.length + ws.length) = r.headD 0 := by
  rw [rd_append_right (by omega), show pre.length + text.length + ws.length - pre.length
    = text.length + ws.length by omega, rd_append_right (by omega), Nat.add_sub_cancel_left,
    rd_append_right (Nat.le_refl _), Nat.sub_self, rd_zero_eq_headD]

theorem rd_behind_text (pre text ws r : List Nat) :
    rd (pre ++ (text ++ (ws ++ r))) (pre.length + text.length) = (ws ++ r).headD 0 := by
  rw [rd_append_right (by omega), Nat.add_sub_cancel_left, rd_append_right (Nat.le_refl _),
    Nat.sub_self, rd_zero_eq_headD]

theorem blank_not_wordByte {c : Nat} (h : strchr whitespace c = true) :
    wordByte c = false := by
  simp [wordByte, h]

theorem lex_text_pos {l : Lex} (h : l.ok) : 0 < l.text.length := by
  cases l with
  | word w =>
    have : w ≠ [] := h.1
    exact List.length_pos.mpr this
  | op k => simp only [Lex.text]; split <;> simp

/-- The first byte of a lexeme is not whitespace and not zero. -/
theorem lex_first {l : Lex} (h : l.ok) :
    strchr whitespace (rd l.text 0) = false ∧ rd l.text 0 ≠ 0 := by
  cases l with
  | word w =>
    obtain ⟨h1, h2⟩ : w ≠ [] ∧ ∀ c ∈ w, wordByte c = true := h
    have hw := h2 _ (rd_mem (List.length_pos.mpr h1))
    obtain ⟨a1, a2, _⟩ := wordByte_parts hw
    exact ⟨a2, a1⟩
  | op k =>
    have hk : k ∈ [124, 40, 41, 59, 38, 60, 62, 43] := h
    simp only [List.mem_cons, List.mem_singleton, List.not_mem_nil, or_false] at hk
    rcases hk with h | h | h | h | h | h | h | h <;> subst h <;> decide

theorem gettoken_lex {b : List Nat} {es : Nat} (hb : CStr b es) (pre ws r : List Nat)
    (l : Lex) (hl : l.ok) (hws : isBlank ws) (heq : b = pre ++ (l.text ++ (ws ++ r)))
    (hes : pre.length + l.text.length + ws.length ≤ es)
    (hr : strchr whitespace (r.headD 0) = false)
    (hgap : ws = [] → ¬ l.runsOn (r.headD 0)) :
    gettoken b es pre.length = ⟨l.ret, pre.length, pre.length + l.text.length,
      pre.length + l.text.length + ws.length⟩ := by
  have hpos := lex_text_pos hl
  have hfirst : rd b pre.length = rd l.text 0 := by
    rw [heq]; exact rd_in_text pre l.text _ hpos
  obtain ⟨hf1, hf2⟩ := lex_first hl
  have hsk : skipws b es pre.length = pre.length :=
    skipws_fix (by rw [hfirst, hf1]; simp)
  have hsk2 : skipws b es (pre.length + l.text.length) =
      pre.length + l.text.length + ws.length := by
    apply skipws_run ws.length _ hes
    · intro i h1 h2
      obtain ⟨j, rfl⟩ : ∃ j, i = pre.length + l.text.length + j := ⟨i - (pre.length +
        l.text.length), by omega⟩
      rw [heq, rd_in_ws pre l.text ws r (by omega)]
      exact hws _ (rd_mem (by omega))
    · rw [heq, rd_behind_ws, hr]
      simp
  have hnext : rd b (pre.length + l.text.length) = (ws ++ r).headD 0 := by
    rw [heq]; exact rd_behind_text pre l.text ws r
  have hnext_ws : ws ≠ [] → strchr whitespace (rd b (pre.length + l.text.length)) = true := by
    intro hne
    rw [hnext]
    cases ws with
    | nil => exact absurd rfl hne
    | cons c cs => exact hws c (List.mem_cons_self _ _)
  have hnext_nil : ws = [] → rd b (pre.length + l.text.length) = r.headD 0 := by
    intro he; rw [hnext, he]; rfl
  have hp : pre.length ≤ es := by omega
  cases l with
  | word w =>
    obtain ⟨h1, h2⟩ : w ≠ [] ∧ ∀ c ∈ w, wordByte c = true := hl
    have hbyte : wordByte (rd b (skipws b es pre.length)) = true := by
      rw [hsk, hfirst]
      exact h2 _ (rd_mem hpos)
    have hwe : wordEnd b es pre.length = pre.length + w.length := by
      apply wordEnd_run hb w.length _ (by simp only [Lex.text] at hes; omega)
      · intro i h1 h2'
        obtain ⟨j, rfl⟩ : ∃ j, i = pre.length + j := ⟨i - pre.length, by omega⟩
        rw [heq, rd_in_text pre _ _ (by simp only [Lex.text]; omega)]
        exact h2 _ (rd_mem (by omega))
      · by_cases hne : ws = []
        · have := hgap hne
          simp only [Lex.runsOn, Bool.not_eq_true] at this
          have h3 := hnext_nil hne
          simp only [Lex.text] at h3
          rw [h3]; exact this
        · have := hnext_ws hne
          simp only [Lex.text] at this
          exact blank_not_wordByte this
    cases gettoken_cases hb hp with
    | eoi g1 g2 => rw [hsk] at g1; omega
    | sym g1 g2 g3 =>
      have := (wordByte_ne_sym hbyte).2
      exact absurd (by
        simp only [List.mem_cons, List.mem_singleton, List.not_mem_nil, or_false] at g2 ⊢
        omega) this
    | gt g1 g2 g3 g4 =>
      have := (wordByte_ne_sym hbyte).2
      rw [g2] at this; simp at this
    | app g1 g2 g3 g4 =>
      have := (wordByte_ne_sym hbyte).2
      rw [g2] at this; simp at this
    | word g1 g2 g3 g4 =>
      rw [g3, hsk, hwe]
      simp only [Lex.text] at hsk2
      rw [hsk2]
      rfl
  | op k =>
    have hk : k ∈ [124, 40, 41, 59, 38, 60, 62, 43] := hl
    by_cases h43 : k = 43
    · subst h43
      have hb0 : rd b (skipws b es pre.length) = 62 := by rw [hsk, hfirst]; rfl
      have hb1 : rd b (skipws b es pre.length + 1) = 62 := by
        rw [hsk, heq, rd_in_text pre _ _ (by simp [Lex.text])]
        rfl
      cases gettoken_cases hb hp with
      | eoi g1 g2 => rw [hsk] at g1; omega
      | sym g1 g2 g3 => rw [hb0] at g2; simp at g2
      | gt g1 g2 g3 g4 => exact absurd hb1 g3
      | app g1 g2 g3 g4 =>
        rw [g4, hsk]
        have : pre.length + (Lex.op 43).text.length = pre.length + 2 := rfl
        rw [this] at hsk2
        rw [hsk2]
        rfl
      | word g1 g2 g3 g4 =>
        have := (wordByte_ne_sym g2).2
        rw [hb0] at this; simp at this
    · have htext : (Lex.op k).text = [k] := by simp [Lex.text, h43]
      have hlen : (Lex.op k).text.length = 1 := by rw [htext]; rfl
      have hb0 : rd b (skipws b es pre.length) = k := by rw [hsk, hfirst, htext]; rfl
      rw [hlen] at hsk2 hnext_ws hnext_nil
      have hb1 : k = 62 → rd b (skipws b es pre.length + 1) ≠ 62 := by
        intro hk62
        rw [hsk]
        by_cases hne : ws = []
        · rw [hnext_nil hne]
          intro hc
          exact hgap hne ⟨hk62, hc⟩
        · have := hnext_ws hne
          intro hc
          rw [hc] at this
          exact absurd this (by decide)
      simp only [List.mem_cons, List.mem_singleton, List.not_mem_nil, or_false] at hk
      cases gettoken_cases hb hp with
      | eoi g1 g2 => rw [hsk] at g1; omega
      | sym g1 g2 g3 =>
        rw [g3, hb0, hsk, hsk2, hlen]
        rfl
      | gt g1 g2 g3 g4 =>
        rw [g4, hsk, hsk2, hlen]
        rw [hb0] at g2
        subst g2
        rfl
      | app g1 g2 g3 g4 =>
        rw [hb0] at g2
        exact absurd g3 (hb1 g2)
      | word g1 g2 g3 g4 =>
        have := (wordByte_ne_sym g2).2
        rw [hb0] at this
        simp only [List.mem_cons, List.mem_singleton, List.not_mem_nil, or_false, not_or]
          at this
        omega

theorem strlen_eq_of_cstr {b : List Nat} {es : Nat} (hb : CStr b es) : strlen b = es := by
  have h1 := cstr_strlen b
  by_contra hne
  rcases Nat.lt_or_gt_of_ne hne with h | h
  · exact hb.nz _ h h1.z
  · exact h1.nz _ h hb.z

theorem blank_ne_zero {c : Nat} (h : strchr whitespace c = true) : c ≠ 0 := by
  intro hc
  rw [hc] at h
  exact absurd h (by decide)

theorem lex_text_nz {l : Lex} (h : l.ok) : ∀ c ∈ l.text, c ≠ 0 := by
  cases l with
  | word w =>
    intro c hc
    exact (wordByte_parts (h.2 c hc)).1
  | op k =>
    have hk : k ∈ [124, 40, 41, 59, 38, 60, 62, 43] := h
    simp only [List.mem_cons, List.mem_singleton, List.not_mem_nil, or_false] at hk
    intro c hc
    rcases hk with h | h | h | h | h | h | h | h <;> subst h <;>
      simp [Lex.text] at hc <;> omega

theorem render_nz : ∀ (items : List (Lex × List Nat)),
    (∀ x ∈ items, x.1.ok ∧ isBlank x.2) → ∀ c ∈ render items, c ≠ 0
  | [], _, c, hc => by simp [render] at hc
  | x :: rest, h, c, hc => by
    simp only [render, List.mem_append] at hc
    rcases hc with hc | hc | hc
    · exact lex_text_nz (h x (List.mem_cons_self _ _)).1 c hc
    · exact blank_ne_zero ((h x (List.mem_cons_self _ _)).2 c hc)
    · exact render_nz rest (fun y hy => h y (List.mem_cons_of_mem _ hy)) c hc

theorem cstr_render (pre tail : List Nat) (items : List (Lex × List Nat))
    (hpre : ∀ c ∈ pre, c ≠ 0) (hok : ∀ x ∈ items, x.1.ok ∧ isBlank x.2) :
    CStr (pre ++ (render items ++ 0 :: tail)) (pre.length + (render items).length) := by
  constructor
  · intro i hi
    by_cases h : i < pre.length
    · rw [rd_append_left h]
      exact hpre _ (rd_mem h)
    · rw [rd_append_right (by omega), rd_append_left (by omega)]
      exact render_nz items hok _ (rd_mem (by omega))
  · rw [rd_append_right (by omega), Nat.add_sub_cancel_left, rd_append_right (Nat.le_refl _),
      Nat.sub_self]
    rfl

theorem headD_append_zero (xs tail : List Nat) : (xs ++ 0 :: tail).headD 0 = xs.headD 0 := by
  cases xs <;> rfl

theorem render_head_not_blank (items : List (Lex × List Nat))
    (hok : ∀ x ∈ items, x.1.ok ∧ isBlank x.2) :
    strchr whitespace ((render items).headD 0) = false := by
  cases items with
  | nil => rfl
  | cons x rest =>
    have hx := (hok x (List.mem_cons_self _ _)).1
    have hpos := lex_text_pos hx
    have : (render (x :: rest)).headD 0 = rd x.1.text 0 := by
      rw [← rd_zero_eq_headD, render, rd_append_left hpos]
    rw [this]
    exact (lex_first hx).1

theorem lex_ret_ne_zero {l : Lex} (h : l.ok) : l.ret ≠ 0 := by
  cases l with
  | word w => simp [Lex.ret]
  | op k =>
    have hk : k ∈ [124, 40, 41, 59, 38, 60, 62, 43] := h
    simp only [List.mem_cons, List.mem_singleton, List.not_mem_nil, or_false] at hk
    simp only [Lex.ret]
    omega

/-- The tokens `gettoken` finds in rendered lexemes are the lexemes, at their offsets. -/
theorem toks_render (tail : List Nat) : ∀ (items : List (Lex × List Nat)) (pre : List Nat),
    (∀ c ∈ pre, c ≠ 0) → (∀ x ∈ items, x.1.ok ∧ isBlank x.2) → rendersApart items →
    toks (pre ++ (render items ++ 0 :: tail)) (pre.length + (render items).length) pre.length
      = lexToks pre.length items
  | [], pre, hpre, hok, _ => by
    have hb := cstr_render pre tail [] hpre hok
    simp only [render, List.length_nil, Nat.add_zero] at hb ⊢
    exact toks_at_end hb
  | x :: rest, pre, hpre, hok, hap => by
    have hb := cstr_render pre tail (x :: rest) hpre hok
    obtain ⟨hx1, hx2⟩ := hok x (List.mem_cons_self _ _)
    have hrest : ∀ y ∈ rest, y.1.ok ∧ isBlank y.2 := fun y hy => hok y (List.mem_cons_of_mem _ hy)
    have hlen : pre.length + (render (x :: rest)).length =
        pre.length + x.1.text.length + x.2.length + (render rest).length := by
      simp only [render, List.length_append]; omega
    have heq : pre ++ (render (x :: rest) ++ 0 :: tail) =
        pre ++ (x.1.text ++ (x.2 ++ (render rest ++ 0 :: tail))) := by
      simp [render]
    have hg := gettoken_lex hb pre x.2 (render rest ++ 0 :: tail) x.1 hx1 hx2 heq
      (by rw [hlen]; omega)
      (by rw [headD_append_zero]; exact render_head_not_blank rest hrest)
      (by rw [headD_append_zero]; exact hap.1)
    rw [toks_cons hb (by omega) (by rw [hg]; exact lex_ret_ne_zero hx1), hg]
    have ih := toks_render tail rest (pre ++ (x.1.text ++ x.2))
      (by
        intro c hc
        simp only [List.mem_append] at hc
        rcases hc with hc | hc | hc
        · exact hpre c hc
        · exact lex_text_nz hx1 c hc
        · exact blank_ne_zero (hx2 c hc))
      hrest hap.2
    have e1 : pre ++ (x.1.text ++ x.2) ++ (render rest ++ 0 :: tail) =
        pre ++ (render (x :: rest) ++ 0 :: tail) := by
      simp [render]
    have e2 : (pre ++ (x.1.text ++ x.2)).length = pre.length + x.1.text.length + x.2.length := by
      simp only [List.length_append]; omega
    rw [e1, e2, ← hlen] at ih
    simp only [lexToks]
    rw [ih]

/-- The token sequence of an input written as leading whitespace, lexemes with whitespace
after each, and the terminator. -/
theorem tokens_render (lead tail : List Nat) (items : List (Lex × List Nat))
    (hlead : isBlank lead) (hok : ∀ x ∈ items, x.1.ok ∧ isBlank x.2)
    (hap : rendersApart items) :
    tokens (lead ++ (render items ++ 0 :: tail)) = lexToks lead.length items := by
  have hpre : ∀ c ∈ lead, c ≠ 0 := fun c hc => blank_ne_zero (hlead c hc)
  have hb := cstr_render lead tail items hpre hok
  have hsk : skipws (lead ++ (render items ++ 0 :: tail))
      (lead.length + (render items).length) 0 = lead.length := by
    have := @skipws_run (lead ++ (render items ++ 0 :: tail))
      (lead.length + (render items).length) lead.length 0 (by omega)
      (fun i _ h2 => by
        rw [rd_append_left (by omega)]
        exact hlead _ (rd_mem (by omega)))
      (by
        rw [Nat.zero_add, rd_append_right (Nat.le_refl _), Nat.sub_self, rd_zero_eq_headD,
          headD_append_zero, render_head_not_blank items hok]
        simp)
    simpa using this
  unfold tokens
  rw [strlen_eq_of_cstr hb, ← toks_skipws hb (Nat.zero_le _), hsk]
  exact toks_render tail items lead hpre hok hap

theorem length_lexToks : ∀ (items : List (Lex × List Nat)) (off : Nat),
    (lexToks off items).length = items.length
  | [], _ => rfl
  | x :: rest, off => by
    simp only [lexToks, List.length_cons, length_lexToks rest]

theorem lexToks_words : ∀ (items : List (Lex × List Nat)) (off : Nat),
    (∀ x ∈ items, x.1.isWord) → ∀ t ∈ lexToks off items, t.ret = 97
  | [], _, _, t, ht => by simp [lexToks] at ht
  | x :: rest, off, h, t, ht => by
    simp only [lexToks, List.mem_cons] at ht
    rcases ht with rfl | ht
    · have hx := h x (List.mem_cons_self _ _)
      cases hl : x.1 with
      | word w => simp [Lex.ret]
      | op k => rw [hl] at hx; exact absurd hx (by simp [Lex.isWord])
    · exact lexToks_words rest _ (fun y hy => h y (List.mem_cons_of_mem _ hy)) t ht

/-- The slices of the tokens of rendered lexemes hold the bytes of the lexemes. -/
theorem slice_lexToks (r : List Nat) : ∀ (items : List (Lex × List Nat)) (pre : List Nat),
    (lexToks pre.length items).map (fun t => slice (pre ++ (render items ++ r)) t.slice) =
      items.map (fun x => x.1.text)
  | [], _ => rfl
  | x :: rest, pre => by
    have e1 : pre ++ (render (x :: rest) ++ r) =
        pre ++ (x.1.text ++ x.2) ++ (render rest ++ r) := by
      simp [render]
    have e2 : pre.length + x.1.text.length + x.2.length = (pre ++ (x.1.text ++ x.2)).length := by
      simp only [List.length_append]; omega
    simp only [lexToks, List.map_cons]
    rw [e2, e1, slice_lexToks r rest (pre ++ (x.1.text ++ x.2))]
    congr 1
    simp only [slice, Tok.slice]
    rw [show pre ++ (x.1.text ++ x.2) ++ (render rest ++ r) =
      pre ++ (x.1.text ++ (x.2 ++ (render rest ++ r))) by simp]
    rw [List.drop_left, Nat.add_sub_cancel_left, List.take_left]

/-! ## The claims about the parser -/

/-- The parse of `n` written-out words with whitespace between them and nothing else. -/
theorem args_of_text (lead tail : List Nat) (items : List (Lex × List Nat))
    (hlead : isBlank lead) (hok : ∀ x ∈ items, x.1.isWord ∧ x.1.ok ∧ isBlank x.2)
    (hap : rendersApart items) :
    (items.length ≤ 9 →
      parsecmd (lead ++ (render items ++ 0 :: tail)) =
        .ok (.exec ((lexToks lead.length items).map Tok.slice),
          nulterminate (.exec ((lexToks lead.length items).map Tok.slice))
            (lead ++ (render items ++ 0 :: tail))) ∧
      ((lexToks lead.length items).map Tok.slice).map
          (slice (lead ++ (render items ++ 0 :: tail))) = items.map (fun x => x.1.text)) ∧
    (items.length ≥ 10 →
      parsecmd (lead ++ (render items ++ 0 :: tail)) = .error .tooManyArgs) := by
  have ht := tokens_render lead tail items hlead (fun x hx => (hok x hx).2) hap
  have hw : ∀ t ∈ tokens (lead ++ (render items ++ 0 :: tail)), t.ret = 97 := by
    rw [ht]
    exact lexToks_words items _ (fun x hx => (hok x hx).1)
  have h := args_of_tokens (lead ++ (render items ++ 0 :: tail)) hw
  rw [ht, length_lexToks] at h
  refine ⟨fun hn => ⟨h.1 hn, ?_⟩, h.2⟩
  rw [List.map_map]
  exact slice_lexToks (0 :: tail) items lead


theorem word_space_ok {w : List Nat} (h : (Lex.word w).ok) (ws : List Nat) (hws : isBlank ws) :
    (Lex.word w, ws).1.ok ∧ isBlank (Lex.word w, ws).2 := ⟨h, hws⟩

theorem isBlank_space : isBlank [32] := by
  intro c hc
  rw [List.mem_singleton] at hc
  rw [hc]; rfl

theorem isBlank_nil : isBlank [] := by
  intro c hc
  simp at hc

theorem op_ok {k : Nat} (hk : k ∈ [124, 40, 41, 59, 38, 60, 62, 43]) (ws : List Nat)
    (hws : isBlank ws) : (Lex.op k, ws).1.ok ∧ isBlank (Lex.op k, ws).2 := ⟨hk, hws⟩

/-- The tokens of `A op B op C` written with single spaces, for words `A`, `B`, `C` and a
one-byte operator `op`. -/
theorem tokens_three (A B C tail : List Nat) (op : Nat) (hA : (Lex.word A).ok)
    (hB : (Lex.word B).ok) (hC : (Lex.word C).ok) (hop : op = 59 ∨ op = 124) :
    tokens (A ++ [32, op, 32] ++ B ++ [32, op, 32] ++ C ++ 0 :: tail) =
      [⟨97, 0, A.length, A.length + 1⟩, ⟨op, A.length + 1, A.length + 2, A.length + 3⟩,
       ⟨97, A.length + 3, A.length + 3 + B.length, A.length + 3 + B.length + 1⟩,
       ⟨op, A.length + 3 + B.length + 1, A.length + 3 + B.length + 2,
         A.length + 3 + B.length + 3⟩,
       ⟨97, A.length + 3 + B.length + 3, A.length + 3 + B.length + 3 + C.length,
         A.length + 3 + B.length + 3 + C.length⟩] := by
  have h43 : op ≠ 43 := by omega
  have hk : op ∈ [124, 40, 41, 59, 38, 60, 62, 43] := by
    rcases hop with h | h <;> rw [h] <;> simp
  have e : A ++ [32, op, 32] ++ B ++ [32, op, 32] ++ C ++ 0 :: tail =
      [] ++ (render [(.word A, [32]), (.op op, [32]), (.word B, [32]), (.op op, [32]),
        (.word C, [])] ++ 0 :: tail) := by
    simp [render, Lex.text, h43]
  rw [e, tokens_render [] tail _ isBlank_nil]
  · simp only [lexToks, Lex.text, Lex.ret, if_neg h43, List.length_nil, List.length_cons,
      List.cons.injEq, Tok.mk.injEq, and_true, true_and]
    omega
  · intro x hx
    simp only [List.mem_cons, List.mem_singleton, List.not_mem_nil, or_false] at hx
    rcases hx with rfl | rfl | rfl | rfl | rfl
    · exact word_space_ok hA _ isBlank_space
    · exact op_ok hk _ isBlank_space
    · exact word_space_ok hB _ isBlank_space
    · exact op_ok hk _ isBlank_space
    · exact word_space_ok hC _ isBlank_nil
  · simp [rendersApart, Lex.runsOn, render, wordByte]

/-- C3 (amended): for a simple command made of `n` whitespace-separated words and no
operators, `parsecmd` succeeds and yields an Exec node with exactly those `n` arguments in
order for every `n <= MAXARGS - 1 = 9`, and aborts with "too many args" exactly when
`n >= MAXARGS = 10`.  Stated for every buffer whose tokens are all `WORD`s, and again for
every buffer written as words with whitespace around them, where the argument slices are
shown to hold the words. -/
theorem simple_command_args (b : List Nat) :
    ((∀ t ∈ tokens b, t.ret = 97) →
      ((tokens b).length ≤ 9 →
        parsecmd b = .ok (.exec ((tokens b).map Tok.slice),
          nulterminate (.exec ((tokens b).map Tok.slice)) b)) ∧
      ((tokens b).length ≥ 10 → parsecmd b = .error .tooManyArgs)) ∧
    (∀ (lead tail : List Nat) (items : List (Lex × List Nat)),
      b = lead ++ (render items ++ 0 :: tail) → isBlank lead →
      (∀ x ∈ items, x.1.isWord ∧ x.1.ok ∧ isBlank x.2) → rendersApart items →
      (items.length ≤ 9 →
        parsecmd b = .ok (.exec ((lexToks lead.length items).map Tok.slice),
          nulterminate (.exec ((lexToks lead.length items).map Tok.slice)) b) ∧
        ((lexToks lead.length items).map Tok.slice).map (slice b) =
          items.map (fun x => x.1.text)) ∧
      (items.length ≥ 10 → parsecmd b = .error .tooManyArgs)) := by
  refine ⟨fun hw => args_of_tokens b hw, ?_⟩
  intro lead tail items hb hlead hok hap
  subst hb
  exact args_of_text lead tail items hlead hok hap

theorem simple_command_args_witness :
    parsecmd [108, 115, 32, 45, 108, 0] =
      .ok (.exec [(0, 2), (3, 5)], [108, 115, 0, 45, 108, 0]) ∧
    parsecmd [49, 32, 50, 32, 51, 32, 52, 32, 53, 32, 54, 32, 55, 32, 56, 32, 57, 32, 97, 32,
      98, 0] = .error .tooManyArgs ∧
    (parsecmd [32, 108, 115, 9, 45, 108, 0] =
      .ok (.exec ((lexToks 1 [(.word [108, 115], [9]), (.word [45, 108], [])]).map Tok.slice),
        nulterminate
          (.exec ((lexToks 1 [(.word [108, 115], [9]), (.word [45, 108], [])]).map Tok.slice))
          [32, 108, 115, 9, 45, 108, 0]) ∧
      ((lexToks 1 [(.word [108, 115], [9]), (.word [45, 108], [])]).map Tok.slice).map
          (slice [32, 108, 115, 9, 45, 108, 0]) =
        [(Lex.word [108, 115], [9]), (Lex.word [45, 108], [])].map (fun x => x.1.text)) :=
  ⟨((simple_command_args [108, 115, 32, 45, 108, 0]).1 (by decide)).1 (by decide),
   ((simple_command_args [49, 32, 50, 32, 51, 32, 52, 32, 53, 32, 54, 32, 55, 32, 56, 32,
      57, 32, 97, 32, 98, 0]).1 (by decide)).2 (by decide),
   ((simple_command_args [32, 108, 115, 9, 45, 108, 0]).2 [32] []
      [(.word [108, 115], [9]), (.word [45, 108], [])] (by rfl)
      (by intro c hc; rw [List.mem_singleton] at hc; rw [hc]; rfl)
      (by
        intro x hx
        simp only [List.mem_cons, List.mem_singleton, List.not_mem_nil, or_false] at hx
        rcases hx with rfl | rfl
        · refine ⟨trivial, ⟨by simp, by decide⟩, ?_⟩
          intro c hc; rw [List.mem_singleton] at hc; rw [hc]; rfl
        · exact ⟨trivial, ⟨by simp, by decide⟩, isBlank_nil⟩)
      (by simp [rendersApart, Lex.runsOn, render, wordByte])).1 (by decide)⟩

/-- C3 as stated fails: ten words and no operator, which the claim has parsed into an
Exec node with ten arguments, make `parsecmd` abort with "too many args". -/
theorem ten_words_abort :
    (∀ t ∈ tokens [49, 32, 50, 32, 51, 32, 52, 32, 53, 32, 54, 32, 55, 32, 56, 32, 57, 32,
      49, 48, 0], t.ret = 97) ∧
    (tokens [49, 32, 50, 32, 51, 32, 52, 32, 53, 32, 54, 32, 55, 32, 56, 32, 57, 32,
      49, 48, 0]).length = 10 ∧
    parsecmd [49, 32, 50, 32, 51, 32, 52, 32, 53, 32, 54, 32, 55, 32, 56, 32, 57, 32,
      49, 48, 0] = .error .tooManyArgs := by
  refine ⟨by decide, by decide, by rfl⟩

/-- The slices of the three words of `A op B op C` hold `A`, `B` and `C`. -/
theorem slices_three (A B C tail : List Nat) (op : Nat) (hop : op = 59 ∨ op = 124) :
    slice (A ++ [32, op, 32] ++ B ++ [32, op, 32] ++ C ++ 0 :: tail) (0, A.length) = A ∧
    slice (A ++ [32, op, 32] ++ B ++ [32, op, 32] ++ C ++ 0 :: tail)
      (A.length + 3, A.length + 3 + B.length) = B ∧
    slice (A ++ [32, op, 32] ++ B ++ [32, op, 32] ++ C ++ 0 :: tail)
      (A.length + 3 + B.length + 3, A.length + 3 + B.length + 3 + C.length) = C := by
  have h43 : op ≠ 43 := by omega
  have e : A ++ [32, op, 32] ++ B ++ [32, op, 32] ++ C ++ 0 :: tail =
      [] ++ (render [(.word A, [32]), (.op op, [32]), (.word B, [32]), (.op op, [32]),
        (.word C, [])] ++ 0 :: tail) := by
    simp [render, Lex.text, h43]
  have h := slice_lexToks (0 :: tail) [(.word A, [32]), (.op op, [32]), (.word B, [32]),
    (.op op, [32]), (Lex.word C, ([] : List Nat))] []
  rw [← e] at h
  simp only [lexToks, Lex.text, Lex.ret, if_neg h43, List.length_nil, List.length_cons,
    List.map_cons, List.map_nil, List.cons.injEq, Tok.slice, Nat.zero_add, and_true] at h
  obtain ⟨h1, _, h3, _, h5⟩ := h
  have e3 : A.length + 3 = A.length + 1 + 1 + 1 := by omega
  have e5 : A.length + 3 + B.length + 3 = A.length + 1 + 1 + 1 + B.length + 1 + 1 + 1 := by
    omega
  rw [e5, e3]
  exact ⟨h1, h3, h5⟩

/-- C4: `;` and `|` are right-associative.  An input whose tokens are `A ; B ; C` for words
`A`, `B`, `C` parses to `List(Exec[A], List(Exec[B], Exec[C]))`, one whose tokens are
`A | B | C` to `Pipe(Exec[A], Pipe(Exec[B], Exec[C]))`; any sequence of simple commands
(each of words and redirections, with fewer than `MAXARGS` words) joined by `;` tokens, or
joined by `|` tokens, parses to the fully right-nested List tree, or Pipe tree, of the
commands; and for all words `A`, `B`, `C` the inputs written `A ; B ; C` and `A | B | C`
parse to those trees, with the three argument slices holding `A`, `B` and `C`. -/
theorem semicolon_pipe_right_assoc (b : List Nat) :
    (∀ a s1 b1 s2 c : Tok, tokens b = [a, s1, b1, s2, c] →
      a.ret = 97 → b1.ret = 97 → c.ret = 97 →
      (s1.ret = 59 → s2.ret = 59 → parsecmd b =
        .ok (.list (.exec [a.slice]) (.list (.exec [b1.slice]) (.exec [c.slice])),
          nulterminate
            (.list (.exec [a.slice]) (.list (.exec [b1.slice]) (.exec [c.slice]))) b)) ∧
      (s1.ret = 124 → s2.ret = 124 → parsecmd b =
        .ok (.pipe (.exec [a.slice]) (.pipe (.exec [b1.slice]) (.exec [c.slice])),
          nulterminate
            (.pipe (.exec [a.slice]) (.pipe (.exec [b1.slice]) (.exec [c.slice]))) b))) ∧
    (∀ (first : List Piece) (tail : List (Tok × List Piece)),
      tokens b = piecesToks first ++ semiToks tail →
      ((∀ x ∈ first, x.ok) ∧ (wordsOf first).length < MAXARGS) →
      (∀ m ∈ tail, m.1.ret = 59 ∧ (∀ x ∈ m.2, x.ok) ∧ (wordsOf m.2).length < MAXARGS) →
      parsecmd b = .ok (semiTree first tail, nulterminate (semiTree first tail) b)) ∧
    (∀ (first : List Piece) (more : List (Tok × List Piece)),
      tokens b = piecesToks first ++ moreToks more →
      ((∀ x ∈ first, x.ok) ∧ (wordsOf first).length < MAXARGS) →
      (∀ m ∈ more, m.1.ret = 124 ∧ (∀ x ∈ m.2, x.ok) ∧ (wordsOf m.2).length < MAXARGS) →
      parsecmd b = .ok (pipeTree first more, nulterminate (pipeTree first more) b)) ∧
    (∀ A B C tail : List Nat, (Lex.word A).ok → (Lex.word B).ok → (Lex.word C).ok →
      (b = A ++ [32, 59, 32] ++ B ++ [32, 59, 32] ++ C ++ 0 :: tail →
        parsecmd b = .ok (.list (.exec [(0, A.length)])
            (.list (.exec [(A.length + 3, A.length + 3 + B.length)])
              (.exec [(A.length + 3 + B.length + 3, A.length + 3 + B.length + 3 + C.length)])),
          nulterminate (.list (.exec [(0, A.length)])
            (.list (.exec [(A.length + 3, A.length + 3 + B.length)])
              (.exec [(A.length + 3 + B.length + 3,
                A.length + 3 + B.length + 3 + C.length)]))) b) ∧
        slice b (0, A.length) = A ∧ slice b (A.length + 3, A.length + 3 + B.length) = B ∧
        slice b (A.length + 3 + B.length + 3, A.length + 3 + B.length + 3 + C.length) = C) ∧
      (b = A ++ [32, 124, 32] ++ B ++ [32, 124, 32] ++ C ++ 0 :: tail →
        parsecmd b = .ok (.pipe (.exec [(0, A.length)])
            (.pipe (.exec [(A.length + 3, A.length + 3 + B.length)])
              (.exec [(A.length + 3 + B.length + 3, A.length + 3 + B.length + 3 + C.length)])),
          nulterminate (.pipe (.exec [(0, A.length)])
            (.pipe (.exec [(A.length + 3, A.length + 3 + B.length)])
              (.exec [(A.length + 3 + B.length + 3,
                A.length + 3 + B.length + 3 + C.length)]))) b) ∧
        slice b (0, A.length) = A ∧ slice b (A.length + 3, A.length + 3 + B.length) = B ∧
        slice b (A.length + 3 + B.length + 3, A.length + 3 + B.length + 3 + C.length) = C)) := by
  obtain ⟨t1, t2, t3⟩ := right_assoc_of_tokens b
  refine ⟨t1, t2, t3, ?_⟩
  intro A B C tail hA hB hC
  constructor
  · intro hb
    have ht := tokens_three A B C tail 59 hA hB hC (Or.inl rfl)
    rw [← hb] at ht
    have hs := slices_three A B C tail 59 (Or.inl rfl)
    rw [← hb] at hs
    exact ⟨((t1 _ _ _ _ _ ht rfl rfl rfl).1 rfl rfl), hs⟩
  · intro hb
    have ht := tokens_three A B C tail 124 hA hB hC (Or.inr rfl)
    rw [← hb] at ht
    have hs := slices_three A B C tail 124 (Or.inr rfl)
    rw [← hb] at hs
    exact ⟨((t1 _ _ _ _ _ ht rfl rfl rfl).2 rfl rfl), hs⟩

theorem semicolon_pipe_right_assoc_witness :
    parsecmd [97, 32, 59, 32, 98, 32, 59, 32, 99, 0] =
      .ok (.list (.exec [(0, 1)]) (.list (.exec [(4, 5)]) (.exec [(8, 9)])),
        [97, 0, 59, 32, 98, 0, 59, 32, 99, 0]) ∧
    parsecmd [97, 124, 98, 124, 99, 0] =
      .ok (.pipe (.exec [(0, 1)]) (.pipe (.exec [(2, 3)]) (.exec [(4, 5)])),
        [97, 0, 98, 0, 99, 0]) ∧
    parsecmd [108, 115, 32, 124, 32, 119, 99, 32, 124, 32, 99, 0] =
      .ok (.pipe (.exec [(0, 2)]) (.pipe (.exec [(5, 7)]) (.exec [(10, 11)])),
        [108, 115, 0, 124, 32, 119, 99, 0, 124, 32, 99, 0]) :=
  ⟨((semicolon_pipe_right_assoc [97, 32, 59, 32, 98, 32, 59, 32, 99, 0]).1
      ⟨97, 0, 1, 2⟩ ⟨59, 2, 3, 4⟩ ⟨97, 4, 5, 6⟩ ⟨59, 6, 7, 8⟩ ⟨97, 8, 9, 9⟩
      (by decide) rfl rfl rfl).1 rfl rfl,
   ((semicolon_pipe_right_assoc [97, 124, 98, 124, 99, 0]).1
      ⟨97, 0, 1, 1⟩ ⟨124, 1, 2, 2⟩ ⟨97, 2, 3, 3⟩ ⟨124, 3, 4, 4⟩ ⟨97, 4, 5, 5⟩
      (by decide) rfl rfl rfl).2 rfl rfl,
   (((semicolon_pipe_right_assoc [108, 115, 32, 124, 32, 119, 99, 32, 124, 32, 99, 0]).2.2.2
      [108, 115] [119, 99] [99] [] ⟨by simp, by decide⟩ ⟨by simp, by decide⟩
      ⟨by simp, by decide⟩).2 (by rfl)).1⟩

theorem amps_ok (amps : List (List Nat)) (h : ∀ ws ∈ amps, isBlank ws) :
    ∀ x ∈ amps.map (fun ws => (Lex.op 38, ws)), x.1.ok ∧ isBlank x.2 := by
  intro x hx
  obtain ⟨ws, hws, rfl⟩ := List.mem_map.mp hx
  exact ⟨by simp [Lex.ok], h ws hws⟩

theorem amps_apart : ∀ (amps : List (List Nat)),
    rendersApart (amps.map (fun ws => (Lex.op 38, ws)))
  | [] => trivial
  | ws :: amps => ⟨fun _ h => by simp [Lex.runsOn] at h, amps_apart amps⟩

theorem amps_ret : ∀ (amps : List (List Nat)) (off : Nat),
    ∀ t ∈ lexToks off (amps.map (fun ws => (Lex.op 38, ws))), t.ret = 38
  | [], _, t, ht => by simp [lexToks] at ht
  | ws :: amps, off, t, ht => by
    simp only [List.map_cons, lexToks, List.mem_cons] at ht
    rcases ht with rfl | ht
    · rfl
    · exact amps_ret amps _ t ht

theorem amps_head_not_word (amps : List (List Nat)) :
    wordByte ((render (amps.map (fun ws => (Lex.op 38, ws)))).headD 0) = false := by
  cases amps with
  | nil => rfl
  | cons ws amps => rfl

/-- The tokens of a word followed by `&` signs, with any whitespace between them. -/
theorem tokens_amps (A ws0 tail : List Nat) (amps : List (List Nat)) (hA : (Lex.word A).ok)
    (h0 : isBlank ws0) (hamps : ∀ ws ∈ amps, isBlank ws) :
    tokens (A ++ (ws0 ++ (render (amps.map (fun ws => (Lex.op 38, ws))) ++ 0 :: tail))) =
      ⟨97, 0, A.length, A.length + ws0.length⟩ ::
        lexToks (A.length + ws0.length) (amps.map (fun ws => (Lex.op 38, ws))) := by
  have e : A ++ (ws0 ++ (render (amps.map (fun ws => (Lex.op 38, ws))) ++ 0 :: tail)) =
      [] ++ (render ((.word A, ws0) :: amps.map (fun ws => (Lex.op 38, ws))) ++ 0 :: tail) := by
    simp [render, Lex.text]
  rw [e, tokens_render [] tail _ isBlank_nil]
  · simp [lexToks, Lex.text, Lex.ret]
  · intro x hx
    rcases List.mem_cons.mp hx with rfl | hx
    · exact ⟨hA, h0⟩
    · exact amps_ok amps hamps x hx
  · refine ⟨fun _ => ?_, amps_apart amps⟩
    simp only [Lex.runsOn, Bool.not_eq_true]
    exact amps_head_not_word amps

theorem slice_front (A r : List Nat) : slice (A ++ r) (0, A.length) = A := by
  simp [slice]

/-- C6: an input whose tokens are a word `A` followed by `n >= 1` tokens `&` parses to
`Exec[A]` inside exactly `n` nested Back nodes, and one whose tokens are `A & ;` parses to
`List(Back(Exec[A]), E)` with `E` an Exec node of zero arguments.  In particular, for every
word `A`: written with `n >= 1` signs `&` behind it, any whitespace between them, the input
parses to `n` Back nodes around the Exec node whose one argument slice holds `A`; and the
input written `A & ;` parses to `List(Back(Exec[A]), Exec[])`. -/
theorem ampersand_backs (b : List Nat) :
    (∀ (a : Tok) (amps : List Tok), tokens b = a :: amps → a.ret = 97 →
      (∀ x ∈ amps, x.ret = 38) → 1 ≤ amps.length →
      parsecmd b = .ok (Cmd.back^[amps.length] (.exec [a.slice]),
        nulterminate (Cmd.back^[amps.length] (.exec [a.slice])) b)) ∧
    (∀ a amp semi : Tok, tokens b = [a, amp, semi] → a.ret = 97 → amp.ret = 38 →
      semi.ret = 59 →
      parsecmd b = .ok (.list (.back (.exec [a.slice])) (.exec []),
        nulterminate (.list (.back (.exec [a.slice])) (.exec [])) b)) ∧
    (∀ (A ws0 tail : List Nat) (amps : List (List Nat)), (Lex.word A).ok → isBlank ws0 →
      (∀ ws ∈ amps, isBlank ws) → 1 ≤ amps.length →
      b = A ++ (ws0 ++ (render (amps.map (fun ws => (Lex.op 38, ws))) ++ 0 :: tail)) →
      parsecmd b = .ok (Cmd.back^[amps.length] (.exec [(0, A.length)]),
        nulterminate (Cmd.back^[amps.length] (.exec [(0, A.length)])) b) ∧
      slice b (0, A.length) = A) ∧
    (∀ (A tail : List Nat), (Lex.word A).ok → b = A ++ [32, 38, 32, 59] ++ 0 :: tail →
      parsecmd b = .ok (.list (.back (.exec [(0, A.length)])) (.exec []),
        nulterminate (.list (.back (.exec [(0, A.length)])) (.exec [])) b) ∧
      slice b (0, A.length) = A) := by
  obtain ⟨t1, t2⟩ := backs_of_tokens b
  refine ⟨t1, t2, ?_, ?_⟩
  · intro A ws0 tail amps hA h0 hamps hn hb
    have ht := tokens_amps A ws0 tail amps hA h0 hamps
    rw [← hb] at ht
    have := t1 _ _ ht rfl (amps_ret amps _) (by rw [length_lexToks, List.length_map]; exact hn)
    rw [length_lexToks, List.length_map] at this
    exact ⟨this, by rw [hb]; exact slice_front A _⟩
  · intro A tail hA hb
    have e : A ++ [32, 38, 32, 59] ++ 0 :: tail =
        [] ++ (render [(.word A, [32]), (.op 38, [32]), (.op 59, [])] ++ 0 :: tail) := by
      simp [render, Lex.text]
    have ht : tokens b = [⟨97, 0, A.length, A.length + 1⟩,
        ⟨38, A.length + 1, A.length + 2, A.length + 3⟩,
        ⟨59, A.length + 3, A.length + 4, A.length + 4⟩] := by
      rw [hb, e, tokens_render [] tail _ isBlank_nil]
      · simp only [lexToks, Lex.text, Lex.ret, List.length_nil, List.length_cons,
          List.cons.injEq, Tok.mk.injEq, and_true, true_and]
        simp
      · intro x hx
        simp only [List.mem_cons, List.mem_singleton, List.not_mem_nil, or_false] at hx
        rcases hx with rfl | rfl | rfl
        · exact word_space_ok hA _ isBlank_space
        · exact op_ok (by simp) _ isBlank_space
        · exact op_ok (by simp) _ isBlank_nil
      · simp [rendersApart, Lex.runsOn, render, wordByte]
    refine ⟨t2 _ _ _ ht rfl rfl rfl, ?_⟩
    rw [hb, List.append_assoc]
    exact slice_front A _

theorem ampersand_backs_witness :
    parsecmd [97, 32, 38, 38, 32, 38, 0] =
      .ok (.back (.back (.back (.exec [(0, 1)]))), [97, 0, 38, 38, 32, 38, 0]) ∧
    parsecmd [97, 32, 38, 32, 59, 0] =
      .ok (.list (.back (.exec [(0, 1)])) (.exec []), [97, 0, 38, 32, 59, 0]) ∧
    parsecmd [108, 115, 32, 38, 0] = .ok (.back (.exec [(0, 2)]), [108, 115, 0, 38, 0]) :=
  ⟨(ampersand_backs [97, 32, 38, 38, 32, 38, 0]).1 ⟨97, 0, 1, 2⟩
      [⟨38, 2, 3, 3⟩, ⟨38, 3, 4, 5⟩, ⟨38, 5, 6, 6⟩] (by decide) rfl (by decide) (by decide),
   (ampersand_backs [97, 32, 38, 32, 59, 0]).2.1 ⟨97, 0, 1, 2⟩ ⟨38, 2, 3, 4⟩ ⟨59, 4, 5, 5⟩
      (by decide) rfl rfl rfl,
   ((ampersand_backs [108, 115, 32, 38, 0]).2.2.1 [108, 115] [32] [] [[]]
      ⟨by simp, by decide⟩ isBlank_space (by simp [isBlank]) (by decide) (by rfl)).1⟩

/-- C7 (amended): an input whose tokens are a word `A`, `&`, `&`, and then a command that
begins with a word `B` does not parse: `parseline` returns `Back(Back(Exec[A]))` with the
offset resting in front of `B`, and `parsecmd` then aborts with the "leftovers" syntax
error, so `B` is part of no tree.  In particular this is what happens to the input written
`A && B`, for all words `A` and `B`. -/
theorem and_and_leftovers (b : List Nat) :
    (∀ (a amp1 amp2 w : Tok) (more : List Tok), tokens b = a :: amp1 :: amp2 :: w :: more →
      a.ret = 97 → amp1.ret = 38 → amp2.ret = 38 → w.ret = 97 →
      parsecmd b = .error .leftovers ∧
      ∃ q, parseline b (strlen b) (4 * strlen b + 4) 0 =
          .ok (.back (.back (.exec [a.slice])), q) ∧
        toks b (strlen b) q = w :: more) ∧
    (∀ A B tail : List Nat, (Lex.word A).ok → (Lex.word B).ok →
      b = A ++ [32, 38, 38, 32] ++ B ++ 0 :: tail →
      parsecmd b = .error .leftovers ∧
      ∃ q, parseline b (strlen b) (4 * strlen b + 4) 0 =
          .ok (.back (.back (.exec [(0, A.length)])), q) ∧
        toks b (strlen b) q = [⟨97, A.length + 4, A.length + 4 + B.length,
          A.length + 4 + B.length⟩]) := by
  refine ⟨fun a amp1 amp2 w more ht ha h1 h2 hw =>
    leftovers_of_tokens b a amp1 amp2 w more ht ha h1 h2 hw, ?_⟩
  intro A B tail hA hB hb
  have e : A ++ [32, 38, 38, 32] ++ B ++ 0 :: tail =
      [] ++ (render [(.word A, [32]), (.op 38, []), (.op 38, [32]), (.word B, [])] ++
        0 :: tail) := by
    simp [render, Lex.text]
  have ht : tokens b = [⟨97, 0, A.length, A.length + 1⟩,
      ⟨38, A.length + 1, A.length + 2, A.length + 2⟩,
      ⟨38, A.length + 2, A.length + 3, A.length + 4⟩,
      ⟨97, A.length + 4, A.length + 4 + B.length, A.length + 4 + B.length⟩] := by
    rw [hb, e, tokens_render [] tail _ isBlank_nil]
    · simp only [lexToks, Lex.text, Lex.ret, List.length_nil, List.length_cons,
        List.cons.injEq, Tok.mk.injEq, and_true, true_and]
      simp
    · intro x hx
      simp only [List.mem_cons, List.mem_singleton, List.not_mem_nil, or_false] at hx
      rcases hx with rfl | rfl | rfl | rfl
      · exact word_space_ok hA _ isBlank_space
      · exact op_ok (by simp) _ isBlank_nil
      · exact op_ok (by simp) _ isBlank_space
      · exact word_space_ok hB _ isBlank_nil
    · simp [rendersApart, Lex.runsOn, render, wordByte]
  exact leftovers_of_tokens b _ _ _ _ [] ht rfl rfl rfl rfl

theorem and_and_leftovers_witness :
    (parsecmd [97, 32, 38, 38, 32, 98, 0] = .error .leftovers ∧
      ∃ q, parseline [97, 32, 38, 38, 32, 98, 0] (strlen [97, 32, 38, 38, 32, 98, 0])
          (4 * strlen [97, 32, 38, 38, 32, 98, 0] + 4) 0 =
          .ok (.back (.back (.exec [(0, 1)])), q) ∧
        toks [97, 32, 38, 38, 32, 98, 0] (strlen [97, 32, 38, 38, 32, 98, 0]) q =
          [⟨97, 5, 6, 6⟩]) ∧
    parsecmd [108, 115, 32, 38, 38, 32, 119, 99, 0] = .error .leftovers :=
  ⟨(and_and_leftovers [97, 32, 38, 38, 32, 98, 0]).1 ⟨97, 0, 1, 2⟩ ⟨38, 2, 3, 3⟩
      ⟨38, 3, 4, 5⟩ ⟨97, 5, 6, 6⟩ [] (by decide) rfl rfl rfl rfl,
   ((and_and_leftovers [108, 115, 32, 38, 38, 32, 119, 99, 0]).2 [108, 115] [119, 99] []
      ⟨by simp, by decide⟩ ⟨by simp, by decide⟩ (by rfl)).1⟩

/-- C7 as stated fails: parsing `a && b` does not succeed; no tree is returned, with or
without `b` in it. -/
theorem a_and_and_b_no_tree :
    ¬ ∃ r, parsecmd [97, 32, 38, 38, 32, 98, 0] = .ok r := by
  have h : parsecmd [97, 32, 38, 38, 32, 98, 0] = .error .leftovers := by rfl
  rintro ⟨r, hr⟩
  rw [h] at hr
  cases hr

theorem redirection_needs_file_witness :
    (∃ e, parsecmd [97, 32, 62, 32, 124, 32, 98, 0] = .error e ∧ e ≠ .outOfFuel) ∧
    (∃ e, parsecmd [97, 32, 60, 0] = .error e ∧ e ≠ .outOfFuel) ∧
    RedirsHaveFiles (tokens [97, 32, 62, 32, 102, 0]) :=
  ⟨(redirection_needs_file [97, 32, 62, 32, 124, 32, 98, 0]).1
      ⟨1, ⟨62, 2, 3, 4⟩, by decide, by simp [isRedirOp], by decide⟩,
   (redirection_needs_file [97, 32, 60, 0]).1
      ⟨1, ⟨60, 2, 3, 3⟩, by decide, by simp [isRedirOp], by decide⟩,
   (redirection_needs_file [97, 32, 62, 32, 102, 0]).2
      (.redir (.exec [(0, 1)]) 4 5 .O_WRONLY_or_O_CREATE 1, [97, 0, 62, 32, 102, 0])
      (by rfl)⟩

theorem written_cons_word (w ws : List Nat) (rest : List Written) :
    written (.word w ws :: rest) = (.word w, ws) :: written rest := rfl

theorem written_cons_redir (op : Nat) (ws1 path ws2 : List Nat) (rest : List Written) :
    written (.redir op ws1 path ws2 :: rest) =
      (.op op, ws1) :: (.word path, ws2) :: written rest := rfl

theorem lexToks_written : ∀ (ps : List Written) (off : Nat),
    lexToks off (written ps) = piecesToks (piecesAt off ps)
  | [], _ => rfl
  | .word w ws :: rest, off => by
    rw [written_cons_word, lexToks, piecesAt, piecesToks_cons,
      lexToks_written rest]
    rfl
  | .redir op ws1 path ws2 :: rest, off => by
    rw [written_cons_redir, lexToks, lexToks, piecesAt, piecesToks_cons,
      lexToks_written rest]
    rfl

theorem piecesAt_ok : ∀ (ps : List Written) (off : Nat), (∀ x ∈ ps, x.ok) →
    ∀ x ∈ piecesAt off ps, x.ok
  | [], _, _, x, hx => by simp [piecesAt] at hx
  | .word w ws :: rest, off, h, x, hx => by
    simp only [piecesAt, List.mem_cons] at hx
    rcases hx with rfl | hx
    · rfl
    · exact piecesAt_ok rest _ (fun y hy => h y (List.mem_cons_of_mem _ hy)) x hx
  | .redir op ws1 path ws2 :: rest, off, h, x, hx => by
    simp only [piecesAt, List.mem_cons] at hx
    rcases hx with rfl | hx
    · exact ⟨(h _ (List.mem_cons_self _ _)).1, rfl⟩
    · exact piecesAt_ok rest _ (fun y hy => h y (List.mem_cons_of_mem _ hy)) x hx

theorem written_ok : ∀ (ps : List Written), (∀ x ∈ ps, x.ok) →
    ∀ x ∈ written ps, x.1.ok ∧ isBlank x.2
  | [], _, x, hx => by simp [written] at hx
  | .word w ws :: rest, h, x, hx => by
    rw [written_cons_word, List.mem_cons] at hx
    rcases hx with rfl | hx
    · exact h (.word w ws) (List.mem_cons_self _ _)
    · exact written_ok rest (fun y hy => h y (List.mem_cons_of_mem _ hy)) x hx
  | .redir op ws1 path ws2 :: rest, h, x, hx => by
    obtain ⟨h1, h2, h3, h4⟩ : isRedirOp op ∧ isBlank ws1 ∧ (Lex.word path).ok ∧ isBlank ws2 :=
      h _ (List.mem_cons_self _ _)
    rw [written_cons_redir, List.mem_cons, List.mem_cons] at hx
    rcases hx with rfl | rfl | hx
    · refine ⟨?_, h2⟩
      show op ∈ [124, 40, 41, 59, 38, 60, 62, 43]
      rcases h1 with h | h | h <;> rw [h] <;> simp
    · exact ⟨h3, h4⟩
    · exact written_ok rest (fun y hy => h y (List.mem_cons_of_mem _ hy)) x hx

/-- C5 (amended): for a simple command whose tokens are words and redirections (each one of
`<`, `>`, `>>` followed by a path word) interleaved in any positions, with at most 9 words,
`parsecmd` yields `Redir_n(...Redir_1(Exec[w1..wk]))`: a single innermost Exec node with
all the words in textual order, wrapped by the redirections in textual order with the first
innermost, descriptor 0 and read-only for `<`, descriptor 1 and write-or-create for `>`
and for `>>`, so that `>>` gives exactly the node `>` gives.  Stated for every buffer with
such a token sequence, and again for every buffer written as such elements with whitespace
around them. -/
theorem redirections_wrap (b : List Nat) :
    (∀ (pieces : List Piece), tokens b = piecesToks pieces → (∀ x ∈ pieces, x.ok) →
      (wordsOf pieces).length ≤ 9 →
      parsecmd b = .ok (wrapRedirs (.exec (wordsOf pieces)) pieces,
        nulterminate (wrapRedirs (.exec (wordsOf pieces)) pieces) b)) ∧
    (∀ (c : Cmd) (op f : Tok), op.ret = 60 →
      wrapRedirs c [.redir op f] = .redir c f.q f.eq .O_RDONLY 0) ∧
    (∀ (c : Cmd) (op f : Tok), op.ret = 62 ∨ op.ret = 43 →
      wrapRedirs c [.redir op f] = .redir c f.q f.eq .O_WRONLY_or_O_CREATE 1) ∧
    (∀ (lead tail : List Nat) (ps : List Written),
      b = lead ++ (render (written ps) ++ 0 :: tail) → isBlank lead → (∀ x ∈ ps, x.ok) →
      rendersApart (written ps) → (wordsOf (piecesAt lead.length ps)).length ≤ 9 →
      parsecmd b = .ok (wrapRedirs (.exec (wordsOf (piecesAt lead.length ps)))
          (piecesAt lead.length ps),
        nulterminate (wrapRedirs (.exec (wordsOf (piecesAt lead.length ps)))
          (piecesAt lead.length ps)) b)) := by
  have t1 : ∀ (pieces : List Piece), tokens b = piecesToks pieces → (∀ x ∈ pieces, x.ok) →
      (wordsOf pieces).length ≤ 9 →
      parsecmd b = .ok (wrapRedirs (.exec (wordsOf pieces)) pieces,
        nulterminate (wrapRedirs (.exec (wordsOf pieces)) pieces) b) :=
    fun pieces ht hok hn => (wrap_of_tokens b pieces ht hok hn).1
  refine ⟨t1, ?_, ?_, ?_⟩
  · intro c op f h
    simp [wrapRedirs, h]
  · intro c op f h
    rcases h with h | h <;> simp [wrapRedirs, h]
  · intro lead tail ps hb hlead hok hap hn
    have ht := tokens_render lead tail (written ps) hlead (written_ok ps hok) hap
    rw [← hb, lexToks_written] at ht
    exact t1 _ ht (piecesAt_ok ps _ hok) hn

theorem redirections_wrap_witness :
    parsecmd [60, 105, 32, 99, 32, 62, 62, 111, 32, 120, 0] =
      .ok (.redir (.redir (.exec [(3, 4), (9, 10)]) 1 2 .O_RDONLY 0) 7 8
        .O_WRONLY_or_O_CREATE 1, [60, 105, 0, 99, 0, 62, 62, 111, 0, 120, 0]) ∧
    parsecmd [99, 62, 111, 0] =
      .ok (.redir (.exec [(0, 1)]) 2 3 .O_WRONLY_or_O_CREATE 1, [99, 0, 111, 0]) :=
  ⟨(redirections_wrap [60, 105, 32, 99, 32, 62, 62, 111, 32, 120, 0]).1
    [.redir ⟨60, 0, 1, 1⟩ ⟨97, 1, 2, 3⟩, .word ⟨97, 3, 4, 5⟩,
      .redir ⟨43, 5, 7, 7⟩ ⟨97, 7, 8, 9⟩, .word ⟨97, 9, 10, 10⟩]
    (by decide) (by
      intro x hx
      simp only [List.mem_cons, List.mem_singleton, List.not_mem_nil, or_false] at hx
      rcases hx with rfl | rfl | rfl | rfl <;> simp [Piece.ok, isRedirOp])
    (by decide),
   (redirections_wrap [99, 62, 111, 0]).2.2.2 [] [] [.word [99] [], .redir 62 [] [111] []]
    (by rfl) isBlank_nil (by
      intro x hx
      simp only [List.mem_cons, List.mem_singleton, List.not_mem_nil, or_false] at hx
      rcases hx with rfl | rfl
      · exact ⟨⟨by simp, by decide⟩, isBlank_nil⟩
      · exact ⟨by simp [isRedirOp], isBlank_nil, ⟨by simp, by decide⟩, isBlank_nil⟩)
    (by simp [rendersApart, written, Written.lexemes, Lex.runsOn, render, Lex.text, wordByte,
      strchr, whitespace, symbols])
    (by decide)⟩

/-- C5 as stated fails for a command of ten words: with the words `1` to `10` and the
redirection `> f` the claim has a Redir node around an Exec node of ten words, and
`parsecmd` aborts with "too many args". -/
theorem ten_words_redirected_abort :
    tokens [49, 32, 50, 32, 51, 32, 52, 32, 53, 32, 54, 32, 55, 32, 56, 32, 57, 32, 49, 48,
        32, 62, 32, 102, 0] =
      piecesToks [.word ⟨97, 0, 1, 2⟩, .word ⟨97, 2, 3, 4⟩, .word ⟨97, 4, 5, 6⟩,
        .word ⟨97, 6, 7, 8⟩, .word ⟨97, 8, 9, 10⟩, .word ⟨97, 10, 11, 12⟩,
        .word ⟨97, 12, 13, 14⟩, .word ⟨97, 14, 15, 16⟩, .word ⟨97, 16, 17, 18⟩,
        .word ⟨97, 18, 20, 21⟩, .redir ⟨62, 21, 22, 23⟩ ⟨97, 23, 24, 24⟩] ∧
    parsecmd [49, 32, 50, 32, 51, 32, 52, 32, 53, 32, 54, 32, 55, 32, 56, 32, 57, 32, 49, 48,
        32, 62, 32, 102, 0] = .error .tooManyArgs := by
  refine ⟨by decide, by rfl⟩

/-! ## Line editor -/

theorem rd_set (b : List Nat) (j v i : Nat) :
    rd (b.set j v) i = if i = j ∧ j < b.length then v else rd b i := by
  unfold rd
  by_cases h : i = j
  · subst h
    by_cases hl : i < b.length
    · simp [List.getD_eq_getElem?_getD, List.getElem?_set_self, hl]
    · simp [List.getD_eq_getElem?_getD, List.getElem?_eq_none, Nat.le_of_not_lt hl, hl]
  · simp [List.getD_eq_getElem?_getD, List.getElem?_set_ne (Ne.symm h), h]

theorem length_shiftRight (cursor : Int) : ∀ (n : Nat) (i : Int) (buf : List Nat),
    (shiftRight cursor n i buf).length = buf.length
  | 0, _, _ => rfl
  | n + 1, i, buf => by
    unfold shiftRight
    split
    · rw [length_shiftRight cursor n, List.length_set]
    · rfl

theorem length_shiftLeft (len : Int) : ∀ (n : Nat) (i : Int) (buf : List Nat),
    (shiftLeft len n i buf).length = buf.length
  | 0, _, _ => rfl
  | n + 1, i, buf => by
    unfold shiftLeft
    split
    · rw [length_shiftLeft len n, List.length_set]
    · rfl

theorem length_strcpy {dst src : List Nat} (h : src.length + 1 ≤ dst.length) :
    (strcpy dst src).length = dst.length := by
  simp only [strcpy, List.length_append, List.length_cons, List.length_drop]
  omega

theorem rd_strcpy_end (dst src : List Nat) : rd (strcpy dst src) src.length = 0 := by
  unfold rd strcpy
  rw [List.getD_eq_getElem?_getD, List.getElem?_append_right (Nat.le_refl _)]
  simp

theorem strlen_le_of_rd {b : List Nat} {k : Nat} (h : rd b k = 0) : strlen b ≤ k := by
  by_contra hc
  exact (cstr_strlen b).nz k (by omega) h

theorem strlen_strcpy_le (dst src : List Nat) : strlen (strcpy dst src) ≤ src.length :=
  strlen_le_of_rd (rd_strcpy_end dst src)

theorem getD_length_le {history : List (List Nat)} {m : Nat}
    (hh : ∀ x ∈ history, x.length ≤ m) (i : Nat) : (history.getD i []).length ≤ m := by
  by_cases hi : i < history.length
  · rw [List.getD_eq_getElem _ _ hi]
    exact hh _ (List.getElem_mem hi)
  · rw [List.getD_eq_default _ _ (Nat.le_of_not_lt hi)]
    simp

theorem keyEnter_inv {history : List (List Nat)} {nbuf : Int} {e : Ed}
    (h : EdInv history nbuf e) : EdInv history nbuf (keyEnter e) := by
  obtain ⟨h1, h2, h3, h4, h5, h6, h7⟩ := h
  refine ⟨?_, h2, h3, h4, ?_, h6, h7⟩
  · simpa [keyEnter] using h1
  · simp only [keyEnter, rd_set]
    split <;> simp [h5]

theorem keyLeft_inv {cwd : List Nat} {history : List (List Nat)} {nbuf : Int} {e : Ed}
    (h : EdInv history nbuf e) : EdInv history nbuf (keyLeft cwd e) := by
  obtain ⟨h1, h2, h3, h4, h5, h6, h7⟩ := h
  unfold keyLeft
  split
  · exact ⟨h1, by simp only; omega, by simp only; omega, h4, h5, h6, h7⟩
  · exact ⟨h1, h2, h3, h4, h5, h6, h7⟩

theorem keyRight_inv {cwd : List Nat} {history : List (List Nat)} {nbuf : Int} {e : Ed}
    (h : EdInv history nbuf e) : EdInv history nbuf (keyRight cwd e) := by
  obtain ⟨h1, h2, h3, h4, h5, h6, h7⟩ := h
  unfold keyRight
  split
  · exact ⟨h1, by simp only; omega, by simp only; omega, h4, h5, h6, h7⟩
  · exact ⟨h1, h2, h3, h4, h5, h6, h7⟩

theorem keyUp_inv {cwd : List Nat} {history : List (List Nat)} {nbuf : Int} {e : Ed}
    (hh : ∀ x ∈ history, (x.length : Int) ≤ nbuf - 1) (h : EdInv history nbuf e) :
    EdInv history nbuf (keyUp cwd history e) := by
  obtain ⟨h1, h2, h3, h4, h5, h6, h7⟩ := h
  have hm : ∀ x ∈ history, x.length ≤ (nbuf - 1).toNat := fun x hx => by
    have := hh x hx; omega
  unfold keyUp
  split
  · have hl := getD_length_le hm
      (if e.hist_idx > 0 then e.hist_idx - 1 else e.hist_idx).toNat
    have hs := strlen_strcpy_le e.buf (history.getD
      (if e.hist_idx > 0 then e.hist_idx - 1 else e.hist_idx).toNat [])
    refine ⟨?_, ?_, ?_, ?_, ?_, ?_, ?_⟩
    · simp only
      rw [length_strcpy (by omega)]
      exact h1
    · simp only; omega
    · simp only; omega
    · simp only; omega
    · simp only [Int.toNat_ofNat]
      exact (cstr_strlen _).z
    · simp only; split <;> omega
    · simp only; split <;> omega
  · exact ⟨h1, h2, h3, h4, h5, h6, h7⟩

theorem keyDown_inv {cwd : List Nat} {history : List (List Nat)} {nbuf : Int} {e : Ed}
    (hh : ∀ x ∈ history, (x.length : Int) ≤ nbuf - 1) (h : EdInv history nbuf e) :
    EdInv history nbuf (keyDown cwd history e) := by
  obtain ⟨h1, h2, h3, h4, h5, h6, h7⟩ := h
  have hm : ∀ x ∈ history, x.length ≤ (nbuf - 1).toNat := fun x hx => by
    have := hh x hx; omega
  unfold keyDown
  split
  · have hl := getD_length_le hm
      (if e.hist_idx < history.length then e.hist_idx + 1 else e.hist_idx).toNat
    have hs := strlen_strcpy_le e.buf (history.getD
      (if e.hist_idx < history.length then e.hist_idx + 1 else e.hist_idx).toNat [])
    by_cases hend : (if e.hist_idx < history.length then e.hist_idx + 1 else e.hist_idx)
        = history.length
    · simp only [hend, if_true]
      refine ⟨?_, ?_, ?_, ?_, ?_, ?_, ?_⟩
      · simpa using h1
      · exact Int.le_refl _
      · exact Int.le_refl _
      · dsimp only; omega
      · dsimp only
        rw [Int.toNat_zero, rd_set_zero, if_pos rfl]
      · dsimp only; omega
      · exact Int.le_refl _
    · simp only [hend, if_false]
      refine ⟨?_, ?_, ?_, ?_, ?_, ?_, ?_⟩
      · rw [length_strcpy (by omega)]
        exact h1
      · dsimp only; omega
      · dsimp only; omega
      · dsimp only; omega
      · simp only [Int.toNat_ofNat]
        exact (cstr_strlen _).z
      · dsimp only; split <;> omega
      · dsimp only; split <;> omega
  · exact ⟨h1, h2, h3, h4, h5, h6, h7⟩

theorem keyBackspace_inv {cwd : List Nat} {history : List (List Nat)} {nbuf : Int} {e : Ed}
    (h : EdInv history nbuf e) : EdInv history nbuf (keyBackspace cwd e) := by
  obtain ⟨h1, h2, h3, h4, h5, h6, h7⟩ := h
  unfold keyBackspace
  split
  · refine ⟨?_, ?_, ?_, ?_, ?_, h6, h7⟩
    · simp only [List.length_set, length_shiftLeft]
      exact h1
    · simp only; omega
    · simp only; omega
    · simp only; omega
    · simp only [rd_set_zero, if_true]
  · exact ⟨h1, h2, h3, h4, h5, h6, h7⟩

theorem keyInsert_inv {cwd : List Nat} {history : List (List Nat)} {nbuf : Int} {e : Ed}
    (h : EdInv history nbuf e) (c : Nat) : EdInv history nbuf (keyInsert cwd nbuf e c) := by
  obtain ⟨h1, h2, h3, h4, h5, h6, h7⟩ := h
  unfold keyInsert
  split
  · refine ⟨?_, ?_, ?_, ?_, ?_, h6, h7⟩
    · simp only [List.length_set, length_shiftRight]
      exact h1
    · simp only; omega
    · simp only; omega
    · simp only; omega
    · simp only [rd_set_zero, if_true]
  · exact ⟨h1, h2, h3, h4, h5, h6, h7⟩

theorem key_inv {cwd : List Nat} {history : List (List Nat)} {nbuf : Int} {e : Ed}
    (hh : ∀ x ∈ history, (x.length : Int) ≤ nbuf - 1) (h : EdInv history nbuf e) (c : Nat) :
    EdInv history nbuf (key cwd history nbuf e c) := by
  unfold key
  split_ifs
  · exact keyEnter_inv h
  · exact keyLeft_inv h
  · exact keyRight_inv h
  · exact keyUp_inv hh h
  · exact keyDown_inv hh h
  · exact keyBackspace_inv h
  · exact keyInsert_inv h c
  · exact h

theorem edInit_inv (history : List (List Nat)) (buf : List Nat) (nbuf : Int)
    (hb : (buf.length : Int) = nbuf) (hn : 1 ≤ nbuf) : EdInv history nbuf (edInit history buf) := by
  refine ⟨by simpa [edInit] using hb, Int.le_refl _, Int.le_refl _, by simp [edInit]; omega,
    ?_, by simp [edInit], by simp [edInit]⟩
  simp [edInit, rd_set_zero]

theorem foldl_key_inv (cwd : List Nat) {history : List (List Nat)} {nbuf : Int}
    (hh : ∀ x ∈ history, (x.length : Int) ≤ nbuf - 1) : ∀ (keys : List Nat) (e : Ed),
    EdInv history nbuf e → EdInv history nbuf (keys.foldl (key cwd history nbuf) e)
  | [], _, h => h
  | c :: cs, e, h => by
    rw [List.foldl_cons]
    exact foldl_key_inv cwd hh cs _ (key_inv hh h c)

theorem readlineLoop_ed (cwd : List Nat) (history : List (List Nat)) (nbuf : Int) :
    ∀ (input : List Nat) (e : Ed), ∃ n,
      (readlineLoop cwd history nbuf e input).ed = (input.take n).foldl (key cwd history nbuf) e
  | [], e => ⟨0, rfl⟩
  | c :: cs, e => by
    rw [readlineLoop]
    split_ifs with h
    · exact ⟨1, rfl⟩
    · obtain ⟨n, hn⟩ := readlineLoop_ed cwd history nbuf cs (key cwd history nbuf e c)
      exact ⟨n + 1, by rw [hn, List.take_succ_cons, List.foldl_cons]⟩

/-- C9: with `n = 100` and history entries of at most 99 bytes, after every keystroke the
loop of `readline_xv6` has processed, from the initial state and for every sequence of
input bytes, `0 <= cursor <= len <= n - 1`, `buf[len] == 0` (with `len` inside the
buffer) and `0 <= hist_idx <= history_len`; the state a call of `readline_xv6` ends in is
the state after the keystrokes it has read. -/
theorem editor_invariant (cwd : List Nat) (history : List (List Nat)) (buf : List Nat)
    (keys : List Nat) (hbuf : buf.length = 100) (hh : ∀ x ∈ history, x.length ≤ 99) :
    0 ≤ (runKeys cwd history 100 buf keys).cursor ∧
    (runKeys cwd history 100 buf keys).cursor ≤ (runKeys cwd history 100 buf keys).len ∧
    (runKeys cwd history 100 buf keys).len ≤ 100 - 1 ∧
    (runKeys cwd history 100 buf keys).len.toNat < (runKeys cwd history 100 buf keys).buf.length ∧
    rd (runKeys cwd history 100 buf keys).buf (runKeys cwd history 100 buf keys).len.toNat = 0 ∧
    0 ≤ (runKeys cwd history 100 buf keys).hist_idx ∧
    (runKeys cwd history 100 buf keys).hist_idx ≤ history.length ∧
    ∃ n, (readline_xv6 cwd history buf 100 keys).ed =
      runKeys cwd history 100 buf (keys.take n) := by
  have hh1 : ∀ x ∈ history, (x.length : Int) ≤ 100 - 1 := fun x hx => by
    have := hh x hx; omega
  have hi := edInit_inv history buf 100 (by omega) (by omega)
  obtain ⟨h1, h2, h3, h4, h5, h6, h7⟩ := foldl_key_inv cwd hh1 keys _ hi
  exact ⟨h2, h3, h4, by unfold runKeys; omega, h5, h6, h7,
    readlineLoop_ed cwd history 100 keys (edInit history buf)⟩

theorem editor_invariant_witness :
    0 ≤ (runKeys [126, 47] [[102, 111, 111]] 100 (List.replicate 100 0) [97, 226, 8, 228]).cursor ∧
    (runKeys [126, 47] [[102, 111, 111]] 100 (List.replicate 100 0) [97, 226, 8, 228]).cursor ≤
      (runKeys [126, 47] [[102, 111, 111]] 100 (List.replicate 100 0) [97, 226, 8, 228]).len ∧
    (runKeys [126, 47] [[102, 111, 111]] 100 (List.replicate 100 0) [97, 226, 8, 228]).len ≤
      100 - 1 ∧
    (runKeys [126, 47] [[102, 111, 111]] 100 (List.replicate 100 0) [97, 226, 8, 228]).len.toNat <
      (runKeys [126, 47] [[102, 111, 111]] 100 (List.replicate 100 0)
        [97, 226, 8, 228]).buf.length ∧
    rd (runKeys [126, 47] [[102, 111, 111]] 100 (List.replicate 100 0) [97, 226, 8, 228]).buf
      (runKeys [126, 47] [[102, 111, 111]] 100 (List.replicate 100 0)
        [97, 226, 8, 228]).len.toNat = 0 ∧
    0 ≤ (runKeys [126, 47] [[102, 111, 111]] 100 (List.replicate 100 0)
      [97, 226, 8, 228]).hist_idx ∧
    (runKeys [126, 47] [[102, 111, 111]] 100 (List.replicate 100 0) [97, 226, 8, 228]).hist_idx ≤
      ([[102, 111, 111]] : List (List Nat)).length ∧
    ∃ n, (readline_xv6 [126, 47] [[102, 111, 111]] (List.replicate 100 0) 100
        [97, 226, 8, 228]).ed =
      runKeys [126, 47] [[102, 111, 111]] 100 (List.replicate 100 0)
        ([97, 226, 8, 228].take n) :=
  editor_invariant [126, 47] [[102, 111, 111]] (List.replicate 100 0) [97, 226, 8, 228]
    (by simp) (by decide)

theorem shiftRight_rd (k : Nat) : ∀ (n m : Nat) (buf : List Nat), m < buf.length → k ≤ m →
    n = m - k → ∀ j, rd (shiftRight (k : Int) n (m : Int) buf) j =
      if k < j ∧ j ≤ m then rd buf (j - 1) else rd buf j
  | 0, m, buf, _, hkm, hn, j => by
    have : ¬ (k < j ∧ j ≤ m) := by omega
    rw [shiftRight, if_neg this]
  | n + 1, m, buf, hm, hkm, hn, j => by
    have hgt : (m : Int) > (k : Int) := by omega
    have hm1 : ((m : Int) - 1) = ((m - 1 : Nat) : Int) := by omega
    rw [shiftRight, if_pos hgt, hm1]
    rw [shiftRight_rd k n (m - 1) _ (by rw [List.length_set]; omega) (by omega) (by omega)]
    simp only [Int.toNat_ofNat, rd_set]
    by_cases h1 : k < j ∧ j ≤ m - 1
    · rw [if_pos h1, if_pos (by omega : k < j ∧ j ≤ m), if_neg (by omega)]
    · rw [if_neg h1]
      by_cases h2 : j = m
      · rw [if_pos ⟨h2, hm⟩, if_pos (by omega : k < j ∧ j ≤ m), h2]
      · rw [if_neg (by tauto), if_neg (by omega : ¬ (k < j ∧ j ≤ m))]

theorem key_printable (cwd : List Nat) (history : List (List Nat)) (nbuf : Int) (e : Ed)
    {c : Nat} (h1 : 32 ≤ c) (h2 : c < 127) :
    key cwd history nbuf e c = keyInsert cwd nbuf e c := by
  unfold key KEY_LF KEY_RT KEY_UP KEY_DN
  rw [if_neg (by omega), if_neg (by omega), if_neg (by omega), if_neg (by omega),
    if_neg (by omega), if_neg (by omega), if_pos ⟨h1, h2⟩]

theorem take_eq_of_rd {a b : List Nat} {n : Nat} (ha : n ≤ a.length) (hb : n ≤ b.length)
    (h : ∀ i, i < n → rd a i = rd b i) : a.take n = b.take n := by
  apply List.ext_getElem
  · simp [List.length_take, Nat.min_eq_left ha, Nat.min_eq_left hb]
  · intro i h1 h2
    have hi : i < n := by
      rw [List.length_take] at h1; omega
    have := h i hi
    rw [rd_eq_getElem (by omega : i < a.length), rd_eq_getElem (by omega : i < b.length)] at this
    simpa [List.getElem_take] using this

/-- The buffer, cursor and length after a printable byte is inserted with room left. -/
theorem keyInsert_spec (cwd : List Nat) (nbuf : Int) (e : Ed) (c : Nat)
    (h0 : 0 ≤ e.cursor) (h1 : e.cursor ≤ e.len) (hn : nbuf ≤ e.buf.length)
    (hl : e.len < nbuf - 1) :
    (keyInsert cwd nbuf e c).cursor = e.cursor + 1 ∧
    (keyInsert cwd nbuf e c).len = e.len + 1 ∧
    (keyInsert cwd nbuf e c).buf.take (e.len + 1).toNat =
      e.buf.take e.cursor.toNat ++ [c] ++
        (e.buf.drop e.cursor.toNat).take (e.len - e.cursor).toNat ∧
    rd (keyInsert cwd nbuf e c).buf (e.len + 1).toNat = 0 := by
  obtain ⟨k, hk⟩ := Int.eq_ofNat_of_zero_le h0
  obtain ⟨m, hm⟩ := Int.eq_ofNat_of_zero_le (Int.le_trans h0 h1)
  have hkm : k ≤ m := by omega
  have hlen : m + 1 < e.buf.length := by omega
  unfold keyInsert
  rw [if_pos hl]
  refine ⟨rfl, rfl, ?_, ?_⟩
  · dsimp only
    rw [hk, hm]
    have e1 : ((m : Int) + 1).toNat = m + 1 := by omega
    have e2 : ((m : Int) - (k : Int)).toNat = m - k := by omega
    simp only [e1, e2, Int.toNat_ofNat]
    have hlk : (e.buf.take k).length = k := by
      rw [List.length_take]; omega
    have hld : ((e.buf.drop k).take (m - k)).length = m - k := by
      rw [List.length_take, List.length_drop]; omega
    have hrhs : e.buf.take k ++ [c] ++ (e.buf.drop k).take (m - k) =
        (e.buf.take k ++ [c] ++ (e.buf.drop k).take (m - k)).take (m + 1) := by
      refine (List.take_of_length_le ?_).symm
      rw [List.length_append, List.length_append, hlk, hld, List.length_singleton]
      omega
    rw [hrhs]
    apply take_eq_of_rd
    · simp only [List.length_set, length_shiftRight]; omega
    · rw [List.length_append, List.length_append, hlk, hld, List.length_singleton]
      omega
    · intro i hi
      simp only [rd_set, List.length_set, length_shiftRight]
      rw [if_neg (by omega)]
      by_cases hik : i = k
      · rw [if_pos ⟨hik, by omega⟩, hik]
        rw [List.append_assoc, rd_append_right (by omega), hlk, Nat.sub_self]
        rfl
      · rw [if_neg (by tauto), shiftRight_rd k (m - k) m e.buf (by omega) hkm rfl]
        by_cases hlt : i < k
        · rw [if_neg (by omega), List.append_assoc, rd_append_left (by omega),
            rd_take hlt]
        · have hl2 : (e.buf.take k ++ [c]).length = k + 1 := by
            rw [List.length_append, hlk, List.length_singleton]
          rw [if_pos (by omega), rd_append_right (by omega), hl2, rd_take (by omega), rd_drop]
          congr 1; omega
  · dsimp only
    rw [rd_set_zero, if_pos rfl]

theorem keyInsert_full (cwd : List Nat) (nbuf : Int) (e : Ed) (c : Nat)
    (hl : ¬ e.len < nbuf - 1) : keyInsert cwd nbuf e c = e := by
  unfold keyInsert
  rw [if_neg hl]

set_option maxRecDepth 4000 in
theorem readline_axbc (cwd : List Nat) (history : List (List Nat)) :
    (readline_xv6 cwd history (List.replicate 100 0) 100
      [97, 98, 99, KEY_LF, KEY_LF, 120, 10]).ret = 0 ∧
    cstr (readline_xv6 cwd history (List.replicate 100 0) 100
      [97, 98, 99, KEY_LF, KEY_LF, 120, 10]).ed.buf 0 = [97, 120, 98, 99] := by
  constructor <;> rfl

/-- C10: for a printable byte `c` (0x20 <= c < 0x7F) and an editor state with
`0 <= cursor <= len` whose buffer has `n` bytes: if `len < n - 1` the new buffer is
`buf[0..cursor) ++ [c] ++ buf[cursor..len)` followed by a terminator, with `cursor` and
`len` each increased by one; if `len == n - 1` the state is unchanged.  And the keystrokes
a, b, c, LEFT, LEFT, x, ENTER on an empty buffer return the line `axbc`. -/
theorem insert_printable (cwd : List Nat) (history : List (List Nat)) (nbuf : Int) (e : Ed)
    (c : Nat) (hc1 : 32 ≤ c) (hc2 : c < 127) (h0 : 0 ≤ e.cursor) (h1 : e.cursor ≤ e.len)
    (hn : nbuf ≤ e.buf.length) :
    (e.len < nbuf - 1 →
      (key cwd history nbuf e c).cursor = e.cursor + 1 ∧
      (key cwd history nbuf e c).len = e.len + 1 ∧
      (key cwd history nbuf e c).buf.take (e.len + 1).toNat =
        e.buf.take e.cursor.toNat ++ [c] ++
          (e.buf.drop e.cursor.toNat).take (e.len - e.cursor).toNat ∧
      rd (key cwd history nbuf e c).buf (e.len + 1).toNat = 0) ∧
    (e.len = nbuf - 1 → key cwd history nbuf e c = e) ∧
    ((readline_xv6 cwd history (List.replicate 100 0) 100
        [97, 98, 99, KEY_LF, KEY_LF, 120, 10]).ret = 0 ∧
      cstr (readline_xv6 cwd history (List.replicate 100 0) 100
        [97, 98, 99, KEY_LF, KEY_LF, 120, 10]).ed.buf 0 = [97, 120, 98, 99]) := by
  rw [key_printable cwd history nbuf e hc1 hc2]
  exact ⟨fun hl => keyInsert_spec cwd nbuf e c h0 h1 hn hl,
    fun hl => keyInsert_full cwd nbuf e c (by omega), readline_axbc cwd history⟩

theorem insert_printable_witness :
    (key [] [] 4 ⟨[97, 98, 0, 0], 2, 1, 2, 0, []⟩ 120).buf.take 3 = [97, 120, 98] ∧
    (key [] [] 3 ⟨[97, 98, 0], 2, 1, 2, 0, []⟩ 120) = ⟨[97, 98, 0], 2, 1, 2, 0, []⟩ :=
  ⟨((insert_printable [] [] 4 ⟨[97, 98, 0, 0], 2, 1, 2, 0, []⟩ 120 (by decide) (by decide)
      (by decide) (by decide) (by decide)).1 (by decide)).2.2.1,
   (insert_printable [] [] 3 ⟨[97, 98, 0], 2, 1, 2, 0, []⟩ 120 (by decide) (by decide)
      (by decide) (by decide) (by decide)).2.1 (by decide)⟩

/-! ## The `cd` builtin -/

theorem cstr_zero_split (buf : List Nat) :
    ∃ d, buf = cstr buf 0 ++ d ∧ (∀ c ∈ cstr buf 0, c ≠ 0) ∧ rd d 0 = 0 := by
  refine ⟨buf.dropWhile (fun c => c != 0), ?_, ?_, ?_⟩
  · simp [cstr, List.takeWhile_append_dropWhile]
  · intro c hc
    have := List.mem_takeWhile_imp (by simpa [cstr] using hc)
    simpa using this
  · cases hd : buf.dropWhile (fun c => c != 0) with
    | nil => rfl
    | cons x xs =>
      have := List.head_dropWhile_not (fun c => c != 0) buf (by rw [hd]; simp)
      simp only [hd, List.head_cons] at this
      simpa [rd] using this

/-- The path of a `cd` line is the rest of the line less its last byte. -/
theorem cdPath_chops (buf rest : List Nat) (h : cstr buf 0 = [99, 100, 32] ++ rest) :
    cdPath buf = some rest.dropLast := by
  obtain ⟨d, hb, hnz, hd⟩ := cstr_zero_split buf
  rw [h] at hb hnz
  have hrest : ∀ c ∈ rest, c ≠ 0 := fun c hc => hnz c (by simp [hc])
  have hrd : ∀ i, i < rest.length → rd buf (3 + i) = rd rest i ∧ rd rest i ≠ 0 := by
    intro i hi
    have e1 : rd buf (3 + i) = rd rest i := by
      have e3 : 3 + i - ([99, 100, 32] : List Nat).length = i := by
        simp
      rw [hb, List.append_assoc, rd_append_right (by simp), e3, rd_append_left hi]
    refine ⟨e1, ?_⟩
    rw [rd_eq_getElem hi]
    exact hrest _ (List.getElem_mem _)
  have hz : rd buf (3 + rest.length) = 0 := by
    have e4 : ([99, 100, 32] ++ rest).length = 3 + rest.length := by
      rw [List.length_append]; rfl
    rw [hb, rd_append_right (by omega), e4, Nat.sub_self]
    exact hd
  have h0 : rd buf 0 = 99 := by rw [hb]; rfl
  have h1 : rd buf 1 = 100 := by rw [hb]; rfl
  have h2 : rd buf 2 = 32 := by rw [hb]; rfl
  have hcs : CStr buf (3 + rest.length) := by
    refine ⟨fun i hi => ?_, hz⟩
    by_cases hi3 : i < 3
    · interval_cases i
      · rw [h0]; decide
      · rw [h1]; decide
      · rw [h2]; decide
    · have := hrd (i - 3) (by omega)
      rw [show 3 + (i - 3) = i by omega] at this
      rw [this.1]
      exact this.2
  have hlen : strlen buf = 3 + rest.length := strlen_eq_of_cstr hcs
  unfold cdPath
  rw [if_pos ⟨h0, h1, h2⟩, hlen]
  congr 1
  rw [cstr_of_rd buf _ (rest.length - 1) 3]
  · rw [hb, List.append_assoc, List.drop_left' (by rfl), List.take_append_of_le_length (by omega),
      List.dropLast_eq_take]
  · intro i hi1 hi2
    rw [rd_set_zero, if_neg (by omega)]
    have := hrd (i - 3) (by omega)
    rw [show 3 + (i - 3) = i by omega] at this
    exact ⟨rfl, by rw [this.1]; exact this.2⟩
  · rw [rd_set_zero]
    by_cases hr : rest.length = 0
    · rw [if_neg (by omega)]
      rw [hr] at hz ⊢
      exact hz
    · rw [if_pos (by omega)]

/-- C2 (the code departs from it): for every line that begins with `cd `, the path `main`
hands to `chdir` is the remainder of the line less its last byte, since `main` overwrites
the last byte of the line although the line editor stores no newline; so the line
`cd foo`, which the editor returns as typed, calls `chdir` with `fo`, not with `foo`. -/
theorem cd_chops_last_byte (buf rest : List Nat) (h : cstr buf 0 = [99, 100, 32] ++ rest) :
    cdPath buf = some rest.dropLast ∧
    cstr (readline_xv6 [126, 47] [] (List.replicate 100 0) 100
      [99, 100, 32, 102, 111, 111, 10]).ed.buf 0 = [99, 100, 32, 102, 111, 111] ∧
    cdPath (readline_xv6 [126, 47] [] (List.replicate 100 0) 100
      [99, 100, 32, 102, 111, 111, 10]).ed.buf = some [102, 111] :=
  ⟨cdPath_chops buf rest h, by decide, by decide⟩

theorem cd_chops_last_byte_witness :
    cstr (readline_xv6 [126, 47] [] (List.replicate 100 0) 100
      [99, 100, 32, 102, 111, 111, 10]).ed.buf 0 = [99, 100, 32] ++ [102, 111, 111] ∧
    cdPath (readline_xv6 [126, 47] [] (List.replicate 100 0) 100
      [99, 100, 32, 102, 111, 111, 10]).ed.buf = some [102, 111] :=
  ⟨by decide, (cd_chops_last_byte (readline_xv6 [126, 47] [] (List.replicate 100 0) 100
      [99, 100, 32, 102, 111, 111, 10]).ed.buf [102, 111, 111] (by decide)).1⟩

/-! ## Deleting a byte -/

theorem shiftLeft_rd (len : Nat) : ∀ (n i : Nat) (buf : List Nat), len ≤ buf.length →
    i + n + 1 = len → ∀ j, rd (shiftLeft (len : Int) n (i : Int) buf) j =
      if i ≤ j ∧ j + 1 < len then rd buf (j + 1) else rd buf j
  | 0, i, buf, _, hn, j => by
    have : ¬ (i ≤ j ∧ j + 1 < len) := by omega
    rw [shiftLeft, if_neg this]
  | n + 1, i, buf, hl, hn, j => by
    have hlt : (i : Int) < (len : Int) - 1 := by omega
    have hi1 : ((i : Int) + 1) = ((i + 1 : Nat) : Int) := by omega
    rw [shiftLeft, if_pos hlt, hi1]
    rw [shiftLeft_rd len n (i + 1) _ (by rw [List.length_set]; exact hl) (by omega)]
    simp only [Int.toNat_ofNat, rd_set]
    by_cases h1 : i + 1 ≤ j ∧ j + 1 < len
    · rw [if_pos h1, if_pos (by omega : i ≤ j ∧ j + 1 < len), if_neg (by omega)]
    · rw [if_neg h1]
      by_cases h2 : j = i
      · rw [if_pos ⟨h2, by omega⟩, if_pos (by omega : i ≤ j ∧ j + 1 < len), h2]
      · rw [if_neg (by tauto), if_neg (by omega : ¬ (i ≤ j ∧ j + 1 < len))]

theorem key_backspace (cwd : List Nat) (history : List (List Nat)) (nbuf : Int) (e : Ed)
    {c : Nat} (hc : c = 8 ∨ c = 127) :
    key cwd history nbuf e c = keyBackspace cwd e := by
  unfold key KEY_LF KEY_RT KEY_UP KEY_DN
  rw [if_neg (by omega), if_neg (by omega), if_neg (by omega), if_neg (by omega),
    if_neg (by omega), if_pos (by omega)]

/-- The buffer, cursor and length after a byte is deleted in front of the cursor. -/
theorem keyBackspace_spec (cwd : List Nat) (e : Ed) (h0 : 0 < e.cursor)
    (h1 : e.cursor ≤ e.len) (hn : e.len ≤ e.buf.length) :
    (keyBackspace cwd e).cursor = e.cursor - 1 ∧
    (keyBackspace cwd e).len = e.len - 1 ∧
    (keyBackspace cwd e).buf.take (e.len - 1).toNat =
      e.buf.take (e.cursor - 1).toNat ++
        (e.buf.drop e.cursor.toNat).take (e.len - e.cursor).toNat ∧
    rd (keyBackspace cwd e).buf (e.len - 1).toNat = 0 := by
  obtain ⟨k, hk⟩ := Int.eq_ofNat_of_zero_le (by omega : 0 ≤ e.cursor - 1)
  obtain ⟨m, hm⟩ := Int.eq_ofNat_of_zero_le (by omega : 0 ≤ e.len - 1)
  have hc : e.cursor = ((k + 1 : Nat) : Int) := by omega
  have hl : e.len = ((m + 1 : Nat) : Int) := by omega
  have hkm : k ≤ m := by omega
  have hlen : m + 1 ≤ e.buf.length := by omega
  unfold keyBackspace
  rw [if_pos h0]
  refine ⟨rfl, rfl, ?_, ?_⟩
  · dsimp only
    rw [hk, hm, hc, hl]
    have e2 : (((m + 1 : Nat) : Int) - ((k + 1 : Nat) : Int)).toNat = m - k := by omega
    have e3 : (((k + 1 : Nat) : Int) - 1) = ((k : Nat) : Int) := by omega
    simp only [e2, e3, Int.toNat_ofNat]
    have hlk : (e.buf.take k).length = k := by
      rw [List.length_take]; omega
    have hld : ((e.buf.drop (k + 1)).take (m - k)).length = m - k := by
      rw [List.length_take, List.length_drop]; omega
    have hrhs : e.buf.take k ++ (e.buf.drop (k + 1)).take (m - k) =
        (e.buf.take k ++ (e.buf.drop (k + 1)).take (m - k)).take m := by
      refine (List.take_of_length_le ?_).symm
      rw [List.length_append, hlk, hld]
      omega
    rw [hrhs]
    apply take_eq_of_rd
    · simp only [List.length_set, length_shiftLeft]; omega
    · rw [List.length_append, hlk, hld]
      omega
    · intro i hi
      rw [rd_set_zero, if_neg (by omega),
        shiftLeft_rd (m + 1) (m - k) k e.buf hlen (by omega)]
      by_cases hlt : i < k
      · rw [if_neg (by omega), rd_append_left (by omega), rd_take hlt]
      · rw [if_pos (by omega), rd_append_right (by omega), hlk, rd_take (by omega), rd_drop]
        congr 1; omega
  · dsimp only
    rw [rd_set_zero, if_pos rfl]

theorem keyBackspace_home (cwd : List Nat) (e : Ed) (h : ¬ 0 < e.cursor) :
    keyBackspace cwd e = e := by
  unfold keyBackspace
  rw [if_neg (by omega)]

/-- C12: for a backspace byte (0x08 or 0x7F) and an editor state with `cursor <= len` and
`len` inside the buffer: if `cursor > 0` the new buffer is
`buf[0..cursor-1) ++ buf[cursor..len)` followed by a terminator at the new `len`, with
`cursor` and `len` each decreased by one; if `cursor == 0` the state is unchanged. -/
theorem backspace_deletes (cwd : List Nat) (history : List (List Nat)) (nbuf : Int) (e : Ed)
    (c : Nat) (hc : c = 8 ∨ c = 127) (h1 : e.cursor ≤ e.len) (hn : e.len ≤ e.buf.length) :
    (0 < e.cursor →
      (key cwd history nbuf e c).cursor = e.cursor - 1 ∧
      (key cwd history nbuf e c).len = e.len - 1 ∧
      (key cwd history nbuf e c).buf.take (e.len - 1).toNat =
        e.buf.take (e.cursor - 1).toNat ++
          (e.buf.drop e.cursor.toNat).take (e.len - e.cursor).toNat ∧
      rd (key cwd history nbuf e c).buf (key cwd history nbuf e c).len.toNat = 0) ∧
    (e.cursor = 0 → key cwd history nbuf e c = e) := by
  rw [key_backspace cwd history nbuf e hc]
  refine ⟨fun h0 => ?_, fun h0 => keyBackspace_home cwd e (by omega)⟩
  obtain ⟨a1, a2, a3, a4⟩ := keyBackspace_spec cwd e h0 h1 hn
  exact ⟨a1, a2, a3, by rw [a2]; exact a4⟩

theorem backspace_deletes_witness :
    (key [] [] 4 ⟨[97, 98, 99, 0], 3, 2, 3, 0, []⟩ 8).buf.take 2 = [97, 99] ∧
    (key [] [] 4 ⟨[97, 98, 99, 0], 3, 2, 3, 0, []⟩ 8).len = 2 ∧
    (key [] [] 4 ⟨[97, 98, 99, 0], 3, 0, 3, 0, []⟩ 127) = ⟨[97, 98, 99, 0], 3, 0, 3, 0, []⟩ :=
  ⟨((backspace_deletes [] [] 4 ⟨[97, 98, 99, 0], 3, 2, 3, 0, []⟩ 8 (by decide) (by decide)
      (by decide)).1 (by decide)).2.2.1,
   ((backspace_deletes [] [] 4 ⟨[97, 98, 99, 0], 3, 2, 3, 0, []⟩ 8 (by decide) (by decide)
      (by decide)).1 (by decide)).2.1,
   (backspace_deletes [] [] 4 ⟨[97, 98, 99, 0], 3, 0, 3, 0, []⟩ 127 (by decide) (by decide)
      (by decide)).2 (by decide)⟩

/-! ## Repainting the line -/

theorem putUp_eq (c : Nat) (stop : Int) : ∀ (n : Nat) (i : Int), n = (stop - i).toNat →
    putUp c stop n i = List.replicate n c
  | 0, _, _ => rfl
  | n + 1, i, h => by
    rw [putUp, if_pos (by omega), putUp_eq c stop n (i + 1) (by omega), List.replicate_succ]

theorem putDown_eq (c : Nat) (stop : Int) : ∀ (n : Nat) (i : Int), n = (i - stop).toNat →
    putDown c stop n i = List.replicate n c
  | 0, _, _ => rfl
  | n + 1, i, h => by
    rw [putDown, if_pos (by omega), putDown_eq c stop n (i - 1) (by omega), List.replicate_succ]

theorem column_cons (col : Int) (c : Nat) (out : List Nat) :
    column col (c :: out) =
      column (if c = 13 then 0 else if c = 8 then col - 1 else col + 1) out := rfl

theorem column_append (a b : List Nat) : ∀ col, column col (a ++ b) = column (column col a) b := by
  induction a with
  | nil => intro col; rfl
  | cons c a ih => intro col; simp only [List.cons_append, column]; exact ih _

theorem column_backspaces : ∀ (n : Nat) (col : Int),
    column col (List.replicate n 8) = col - n
  | 0, col => by simp [column]
  | n + 1, col => by
    rw [List.replicate_succ, column, if_neg (by decide), if_pos rfl, column_backspaces n]
    push_cast; omega

theorem column_printed : ∀ (l : List Nat) (col : Int), (∀ c ∈ l, c ≠ 13 ∧ c ≠ 8) →
    column col l = col + l.length
  | [], col, _ => by simp [column]
  | c :: l, col, h => by
    have hc := h c (List.mem_cons_self _ _)
    rw [column, if_neg hc.1, if_neg hc.2,
      column_printed l _ (fun x hx => h x (List.mem_cons_of_mem _ hx)), List.length_cons]
    push_cast; omega

theorem redraw_eq (cwd buf : List Nat) (len cursor prev_len : Int) :
    redraw cwd buf len cursor prev_len =
      [13] ++ cwd ++ [36, 32] ++ buf.take len.toNat ++
        List.replicate (max 0 (prev_len - len)).toNat 32 ++
        List.replicate (max 0 (prev_len - len)).toNat 8 ++
        List.replicate (len - cursor).toNat 8 := by
  have e1 : (max 0 (prev_len - len)).toNat = (prev_len - len).toNat := by omega
  have e2 : (if len > 0 then buf.take len.toNat else []) = buf.take len.toNat := by
    split_ifs with h
    · rfl
    · have : len.toNat = 0 := by omega
      rw [this, List.take_zero]
  unfold redraw
  rw [e1, e2, putUp_eq 32 prev_len _ len rfl, putUp_eq 8 prev_len _ len rfl,
    putDown_eq 8 cursor _ len rfl]

/-- C19: the bytes `redraw` writes are a carriage return, the string `cwd`, `$ `, the bytes
`buf[0..len)`, then `max(0, prev_len - len)` spaces, the same number of backspaces, and
`len - cursor` backspaces.  For `0 <= cursor <= len`, any `prev_len` and a buffer that
holds `len` bytes, the terminal ends `len - cursor` columns in front of where the prompt
and the line end; when the prompt and the line are made of printed bytes (no carriage
return, no backspace), that is column `length(cwd) + 2 + cursor`. -/
theorem redraw_bytes (cwd buf : List Nat) (len cursor prev_len : Int) (col : Int)
    (h0 : 0 ≤ cursor) (h1 : cursor ≤ len) (hl : len ≤ buf.length) :
    redraw cwd buf len cursor prev_len =
      [13] ++ cwd ++ [36, 32] ++ buf.take len.toNat ++
        List.replicate (max 0 (prev_len - len)).toNat 32 ++
        List.replicate (max 0 (prev_len - len)).toNat 8 ++
        List.replicate (len - cursor).toNat 8 ∧
    ((buf.take len.toNat).length : Int) = len ∧
    column col (redraw cwd buf len cursor prev_len) =
      column 0 (cwd ++ [36, 32] ++ buf.take len.toNat) - (len - cursor) ∧
    ((∀ c ∈ cwd ++ buf.take len.toNat, c ≠ 13 ∧ c ≠ 8) →
      column col (redraw cwd buf len cursor prev_len) = cwd.length + 2 + cursor) := by
  have hlen : ((buf.take len.toNat).length : Int) = len := by
    rw [List.length_take]; omega
  have hcol : column col (redraw cwd buf len cursor prev_len) =
      column 0 (cwd ++ [36, 32] ++ buf.take len.toNat) - (len - cursor) := by
    have hP : [13] ++ cwd ++ [36, 32] ++ buf.take len.toNat =
        13 :: (cwd ++ [36, 32] ++ buf.take len.toNat) := by
      simp
    rw [redraw_eq, column_append, column_append, column_append, hP, column_cons, if_pos rfl,
      column_backspaces, column_backspaces,
      column_printed (List.replicate _ 32) _ (by
        intro c hc
        rw [List.eq_of_mem_replicate hc]
        decide),
      List.length_replicate]
    omega
  refine ⟨redraw_eq cwd buf len cursor prev_len, hlen, hcol, fun hpr => ?_⟩
  rw [hcol, column_printed _ _ (by
    intro c hc
    simp only [List.append_assoc, List.mem_append, List.mem_cons, List.mem_singleton,
      List.not_mem_nil, or_false] at hc
    rcases hc with hc | (rfl | rfl) | hc
    · exact hpr c (List.mem_append_left _ hc)
    · decide
    · decide
    · exact hpr c (List.mem_append_right _ hc))]
  simp only [List.length_append, List.length_cons, List.length_nil, Nat.cast_add]
  rw [hlen]
  push_cast
  omega

theorem redraw_bytes_witness :
    redraw [126, 47] [97, 98, 99, 0] 3 1 5 =
      [13, 126, 47, 36, 32, 97, 98, 99, 32, 32, 8, 8, 8, 8] ∧
    column 7 (redraw [126, 47] [97, 98, 99, 0] 3 1 5) = 5 :=
  ⟨(redraw_bytes [126, 47] [97, 98, 99, 0] 3 1 5 7 (by decide) (by decide) (by decide)).1,
   (redraw_bytes [126, 47] [97, 98, 99, 0] 3 1 5 7 (by decide) (by decide)
      (by decide)).2.2.2 (by decide)⟩

/-! ## History -/

theorem shiftHistory_full (H : List (List Nat)) (h : H.length = 20) (L : List Nat) :
    (shiftHistory H).set (HISTORY_SIZE - 1) L = H.drop 1 ++ [L] := by
  iterate 20 (obtain _ | ⟨_, H⟩ := H; · simp at h)
  have hn : H = [] := List.length_eq_zero.mp (by simpa using h)
  subst hn
  simp [shiftHistory, HISTORY_SIZE, List.range']

theorem length_shiftHistory (H : List (List Nat)) : (shiftHistory H).length = H.length := by
  unfold shiftHistory
  generalize List.range' 1 (HISTORY_SIZE - 1) = l
  induction l generalizing H with
  | nil => rfl
  | cons i l ih => rw [List.foldl_cons, ih, List.length_set]

theorem getLast?_eq_getD (H : List (List Nat)) (h : 0 < H.length) :
    H.getLast? = some (H.getD (H.length - 1) []) := by
  rw [List.getLast?_eq_getElem?, List.getD_eq_getElem?_getD, ]
  have : H.length - 1 < H.length := by omega
  rw [List.getElem?_eq_getElem this]
  rfl


theorem history_add_eq_ref (H : List (List Nat)) (L : List Nat) (h : H.length ≤ 20) :
    history_add H L = history_add_ref H L := by
  unfold history_add history_add_ref
  by_cases hL : L = []
  · subst hL
    simp
  · have hpos : ¬ ((L.length : Int) ≤ 0) := by
      have := List.length_pos.mpr hL
      omega
    rw [if_neg hpos]
    by_cases hH : 0 < H.length
    · rw [getLast?_eq_getD H hH]
      by_cases heq : H.getD (H.length - 1) [] = L
      · rw [if_pos ⟨hH, heq⟩, if_pos (Or.inr (by rw [heq]))]
      · rw [if_neg (show ¬ (H.length > 0 ∧ H.getD (H.length - 1) [] = L) from
            fun hx => heq hx.2),
          if_neg (show ¬ (L = [] ∨ some (H.getD (H.length - 1) []) = some L) from
            fun hx => hx.elim hL (fun hy => heq (Option.some.inj hy)))]
        by_cases hlt : H.length < 20
        · rw [if_pos (show H.length < HISTORY_SIZE from hlt), if_pos hlt]
        · rw [if_neg (show ¬ H.length < HISTORY_SIZE from hlt), if_neg hlt,
            shiftHistory_full H (by omega) L]
    · have hn : H = [] := List.length_eq_zero.mp (by omega)
      subst hn
      simp [hL, HISTORY_SIZE]

theorem length_history_add_le (H : List (List Nat)) (L : List Nat) (h : H.length ≤ 20) :
    (history_add H L).length ≤ 20 := by
  rw [history_add_eq_ref H L h]
  unfold history_add_ref
  split_ifs with h1 h2
  · exact h
  · rw [List.length_append, List.length_singleton]; omega
  · rw [List.length_append, List.length_drop, List.length_singleton]; omega

theorem length_foldl_history_add : ∀ (lines : List (List Nat)) (H : List (List Nat)),
    H.length ≤ 20 → (lines.foldl history_add H).length ≤ 20
  | [], _, h => h
  | L :: lines, H, h => by
    rw [List.foldl_cons]
    exact length_foldl_history_add lines _ (length_history_add_le H L h)

theorem chain_history_add (H : List (List Nat)) (L : List Nat) (h : H.length ≤ 20)
    (hc : H.Chain' (fun a b => a ≠ b)) : (history_add H L).Chain' (fun a b => a ≠ b) := by
  rw [history_add_eq_ref H L h]
  unfold history_add_ref
  split_ifs with h1 h2
  · exact hc
  · refine List.Chain'.append hc (List.chain'_singleton _) ?_
    intro x hx y hy
    simp only [List.head?_cons, Option.mem_def, Option.some.injEq] at hy
    subst hy
    intro hxy
    subst hxy
    exact h1 (Or.inr hx)
  · refine List.Chain'.append (hc.drop 1) (List.chain'_singleton _) ?_
    intro x hx y hy
    simp only [List.head?_cons, Option.mem_def, Option.some.injEq] at hy
    subst hy
    intro hxy
    subst hxy
    rw [Option.mem_def, List.getLast?_drop, if_neg (by omega)] at hx
    exact h1 (Or.inr hx)

theorem chain_foldl_history_add : ∀ (lines : List (List Nat)) (H : List (List Nat)),
    H.length ≤ 20 → H.Chain' (fun a b => a ≠ b) →
    (lines.foldl history_add H).Chain' (fun a b => a ≠ b)
  | [], _, _, hc => hc
  | L :: lines, H, h, hc => by
    rw [List.foldl_cons]
    exact chain_foldl_history_add lines _ (length_history_add_le H L h)
      (chain_history_add H L h hc)

/-- C13: for a history `H` of at most 20 entries and a line `L`, entries and line being
strings that fit a row (at most 99 bytes), `history_add` is the reference operation: `H`
is left as it is when `L` is empty or equal to the last entry of `H`; else `L` is appended
when `H` has fewer than 20 entries; else the oldest entry is dropped and `L` comes last,
which leaves 20 entries, the surviving ones in their order.  The entries of the result fit
their rows again. -/
theorem history_add_refines (H : List (List Nat)) (L : List Nat) (h : H.length ≤ 20)
    (hH : ∀ x ∈ H, x.length ≤ 99) (hL : L.length ≤ 99) :
    history_add H L = history_add_ref H L ∧
    (∀ x ∈ history_add H L, x.length ≤ 99) ∧
    (H.length = 20 → L ≠ [] → H.getLast? ≠ some L →
      history_add H L = H.drop 1 ++ [L] ∧
      (history_add H L).length = 20 ∧
      (∀ i, i < 19 → (history_add H L).getD i [] = H.getD (i + 1) []) ∧
      (history_add H L).getD 19 [] = L) := by
  refine ⟨history_add_eq_ref H L h, fun x hx => ?_, fun h20 hL hlast => ?_⟩
  · rw [history_add_eq_ref H L h] at hx
    unfold history_add_ref at hx
    split_ifs at hx
    · exact hH x hx
    · rcases List.mem_append.mp hx with hx | hx
      · exact hH x hx
      · rw [List.mem_singleton.mp hx]; exact hL
    · rcases List.mem_append.mp hx with hx | hx
      · exact hH x (List.mem_of_mem_drop hx)
      · rw [List.mem_singleton.mp hx]; exact hL
  have e : history_add H L = H.drop 1 ++ [L] := by
    rw [history_add_eq_ref H L h]
    unfold history_add_ref
    rw [if_neg (by tauto), if_neg (by omega)]
  have hd : (H.drop 1).length = 19 := by
    rw [List.length_drop]; omega
  refine ⟨e, ?_, ?_, ?_⟩
  · rw [e, List.length_append, hd, List.length_singleton]
  · intro i hi
    rw [e, List.getD_eq_getElem?_getD, List.getD_eq_getElem?_getD,
      List.getElem?_append_left (by omega), List.getElem?_drop, Nat.add_comm]
  · rw [e, List.getD_eq_getElem?_getD, List.getElem?_append_right (by omega), hd]
    rfl

theorem history_add_refines_witness :
    history_add [[102, 111, 111]] [98, 97, 114] =
      history_add_ref [[102, 111, 111]] [98, 97, 114] ∧
    history_add ((List.range 20).map (fun i => [97 + i])) [120] =
      (List.range 19).map (fun i => [98 + i]) ++ [[120]] :=
  ⟨(history_add_refines [[102, 111, 111]] [98, 97, 114] (by decide) (by decide)
      (by decide)).1,
   ((history_add_refines ((List.range 20).map (fun i => [97 + i])) [120] (by decide)
      (by decide) (by decide)).2.2 (by decide) (by decide) (by decide)).1⟩

/-- C14: in every history reached from the empty one by calls of `history_add`, whatever
the lines handed over and however many entries have been evicted, no entry equals the
entry that follows it. -/
theorem history_no_adjacent_equal (lines : List (List Nat)) (i : Nat) :
    i + 1 < (historyAfter lines).length →
    (historyAfter lines).getD i [] ≠ (historyAfter lines).getD (i + 1) [] := by
  intro hi
  have hc := chain_foldl_history_add lines [] (by simp) List.chain'_nil
  rw [List.chain'_iff_get] at hc
  have := hc i (by unfold historyAfter at hi; omega)
  unfold historyAfter at hi ⊢
  rw [List.getD_eq_getElem?_getD, List.getD_eq_getElem?_getD,
    List.getElem?_eq_getElem (by omega), List.getElem?_eq_getElem hi]
  simpa using this

theorem history_no_adjacent_equal_witness :
    (historyAfter [[97], [97], [98], [97]]).getD 0 [] ≠
      (historyAfter [[97], [97], [98], [97]]).getD 1 [] :=
  history_no_adjacent_equal [[97], [97], [98], [97]] 0 (by decide)

/-- C15: in every history reached from the empty one by calls of `history_add`,
`history_len <= 20`, and every row a further call stores into, `history[history_len]` and
`history[HISTORY_SIZE-1]` among them, is one of the 20 rows of the array. -/
theorem history_len_le (lines : List (List Nat)) :
    (historyAfter lines).length ≤ HISTORY_SIZE ∧
    ∀ line, ∀ r ∈ history_add_rows (historyAfter lines) line,
      0 ≤ r ∧ r < (HISTORY_SIZE : Int) := by
  refine ⟨length_foldl_history_add lines [] (by simp), fun line r hr => ?_⟩
  unfold history_add_rows at hr
  split_ifs at hr with h1 h2 h3
  · simp at hr
  · simp at hr
  · simp only [List.mem_singleton] at hr
    subst hr
    exact ⟨by omega, by exact_mod_cast h3⟩
  · have hs : HISTORY_SIZE = 20 := rfl
    rw [List.mem_append] at hr
    rcases hr with hr | hr
    · obtain ⟨a, ha, rfl⟩ := List.mem_map.mp hr
      rw [List.mem_range'_1, hs] at ha
      rw [hs]
      constructor <;> push_cast <;> omega
    · rw [List.mem_singleton] at hr
      subst hr
      rw [hs]
      constructor <;> norm_num

/-! ## Walking the history -/

theorem readlineLoop_append (cwd : List Nat) (history : List (List Nat)) (nbuf : Int) :
    ∀ (keys : List Nat) (e : Ed) (rest : List Nat), (∀ c ∈ keys, c ≠ 10 ∧ c ≠ 13) →
    readlineLoop cwd history nbuf e (keys ++ rest) =
      readlineLoop cwd history nbuf (keys.foldl (key cwd history nbuf) e) rest
  | [], _, _, _ => rfl
  | c :: cs, e, rest, h => by
    have hc := h c (List.mem_cons_self _ _)
    rw [List.cons_append, readlineLoop, if_neg (by tauto), List.foldl_cons]
    exact readlineLoop_append cwd history nbuf cs _ rest
      (fun x hx => h x (List.mem_cons_of_mem _ hx))

theorem key_enter (cwd : List Nat) (history : List (List Nat)) (nbuf : Int) (e : Ed)
    {c : Nat} (hc : c = 10 ∨ c = 13) : key cwd history nbuf e c = keyEnter e := by
  unfold key
  rw [if_pos hc]

theorem readlineLoop_enter (cwd : List Nat) (history : List (List Nat)) (nbuf : Int) (e : Ed)
    {c : Nat} (hc : c = 10 ∨ c = 13) (rest : List Nat) :
    readlineLoop cwd history nbuf e (c :: rest) =
      { ret := 0, ed := keyEnter e,
        history := history_add history (cstr (keyEnter e).buf 0), rest := rest } := by
  rw [readlineLoop, if_pos hc, key_enter cwd history nbuf e hc]

theorem key_up (cwd : List Nat) (history : List (List Nat)) (nbuf : Int) (e : Ed) :
    key cwd history nbuf e KEY_UP = keyUp cwd history e := by
  unfold key KEY_LF KEY_RT KEY_UP
  rw [if_neg (by omega), if_neg (by omega), if_neg (by omega), if_pos rfl]

theorem takeWhile_append_zero (src t : List Nat) (h : ∀ c ∈ src, c ≠ 0) :
    (src ++ 0 :: t).takeWhile (fun c => c != 0) = src := by
  induction src with
  | nil => simp
  | cons a src ih =>
    have ha := h a (List.mem_cons_self _ _)
    rw [List.cons_append, List.takeWhile_cons_of_pos (by simpa using ha),
      ih (fun c hc => h c (List.mem_cons_of_mem _ hc))]

theorem cstr_strcpy (dst src : List Nat) (h : ∀ c ∈ src, c ≠ 0) :
    cstr (strcpy dst src) 0 = src := by
  unfold cstr strcpy
  rw [List.drop_zero, takeWhile_append_zero src _ h]

theorem strlen_strcpy (dst src : List Nat) (h : ∀ c ∈ src, c ≠ 0) :
    strlen (strcpy dst src) = src.length := by
  refine strlen_eq_of_cstr ⟨fun i hi => ?_, rd_strcpy_end dst src⟩
  unfold strcpy
  rw [rd_append_left hi, rd_eq_getElem hi]
  exact h _ (List.getElem_mem _)

theorem set_append_zero (src t : List Nat) :
    (src ++ 0 :: t).set src.length 0 = src ++ 0 :: t := by
  induction src with
  | nil => rfl
  | cons a src ih => simp only [List.cons_append, List.length_cons, List.set_cons_succ, ih]

theorem strcpy_set_end (dst src : List Nat) :
    (strcpy dst src).set src.length 0 = strcpy dst src :=
  set_append_zero src _

theorem take_strcpy (dst src : List Nat) : (strcpy dst src).take src.length = src := by
  unfold strcpy
  rw [List.take_left']
  rfl

theorem keyUp_buf (cwd : List Nat) (history : List (List Nat)) (e : Ed)
    (hpos : 0 < history.length) :
    (keyUp cwd history e).hist_idx = (if e.hist_idx > 0 then e.hist_idx - 1 else e.hist_idx) ∧
    (keyUp cwd history e).buf =
      strcpy e.buf (history.getD (keyUp cwd history e).hist_idx.toNat []) ∧
    (keyUp cwd history e).len = strlen (keyUp cwd history e).buf := by
  unfold keyUp
  rw [if_pos (by omega)]
  exact ⟨rfl, rfl, rfl⟩

theorem ups_hist_idx (cwd : List Nat) (history : List (List Nat)) (nbuf : Int)
    (hpos : 0 < history.length) : ∀ (k : Nat) (e : Ed), 0 ≤ e.hist_idx →
    ((List.replicate k KEY_UP).foldl (key cwd history nbuf) e).hist_idx =
      max 0 (e.hist_idx - k)
  | 0, e, h => by
    simp only [List.replicate_zero, List.foldl_nil]
    omega
  | k + 1, e, h => by
    rw [List.replicate_succ, List.foldl_cons, key_up]
    have hu := (keyUp_buf cwd history e hpos).1
    rw [ups_hist_idx cwd history nbuf hpos k _ (by rw [hu]; split_ifs <;> omega), hu]
    split_ifs <;> push_cast <;> omega

theorem ups_last (cwd : List Nat) (history : List (List Nat)) (nbuf : Int) (k : Nat) (e : Ed) :
    (List.replicate (k + 1) KEY_UP).foldl (key cwd history nbuf) e =
      keyUp cwd history ((List.replicate k KEY_UP).foldl (key cwd history nbuf) e) := by
  rw [List.replicate_succ', List.foldl_append, List.foldl_cons, List.foldl_nil, key_up]

theorem ups_then_enter (cwd : List Nat) (history : List (List Nat)) (buf rest : List Nat)
    (k enter : Nat) (hbuf : buf.length = 100) (hne : history ≠ [])
    (hh : ∀ x ∈ history, x.length ≤ 99 ∧ ∀ c ∈ x, c ≠ 0) (hk : 1 ≤ k)
    (he : enter = 10 ∨ enter = 13) :
    (readline_xv6 cwd history buf 100 (List.replicate k KEY_UP ++ enter :: rest)).ret = 0 ∧
    cstr (readline_xv6 cwd history buf 100
        (List.replicate k KEY_UP ++ enter :: rest)).ed.buf 0 =
      history.getD (max 0 ((history.length : Int) - k)).toNat [] ∧
    (readline_xv6 cwd history buf 100
        (List.replicate k KEY_UP ++ enter :: rest)).ed.buf.length = 100 ∧
    (readline_xv6 cwd history buf 100 (List.replicate k KEY_UP ++ enter :: rest)).rest =
      rest := by
  have hpos : 0 < history.length := List.length_pos.mpr hne
  obtain ⟨j, rfl⟩ : ∃ j, k = j + 1 := ⟨k - 1, by omega⟩
  have hups : ∀ c ∈ List.replicate (j + 1) KEY_UP, c ≠ 10 ∧ c ≠ 13 := by
    intro c hc
    rw [List.eq_of_mem_replicate hc]
    decide
  unfold readline_xv6
  rw [readlineLoop_append cwd history 100 _ _ _ hups, readlineLoop_enter cwd history 100 _ he]
  have hidx := ups_hist_idx cwd history 100 hpos (j + 1) (edInit history buf)
    (by simp [edInit])
  have hinv : EdInv history 100 ((List.replicate (j + 1) KEY_UP).foldl (key cwd history 100)
      (edInit history buf)) :=
    foldl_key_inv cwd (fun x hx => by have := (hh x hx).1; omega) _ _
      (edInit_inv history buf 100 (by omega) (by omega))
  rw [ups_last] at hidx hinv ⊢
  obtain ⟨-, hb, hl⟩ := keyUp_buf cwd history
    ((List.replicate j KEY_UP).foldl (key cwd history 100) (edInit history buf)) hpos
  have hidx0 : (edInit history buf).hist_idx = history.length := rfl
  rw [hidx0] at hidx
  rw [hidx] at hb
  have hnz : ∀ c ∈ history.getD (max 0 ((history.length : Int) - ((j + 1 : Nat) : Int))).toNat [],
      c ≠ 0 := by
    intro c hc
    rw [List.getD_eq_getElem?_getD] at hc
    cases hg : history[(max 0 ((history.length : Int) - ((j + 1 : Nat) : Int))).toNat]? with
    | none => rw [hg] at hc; simp at hc
    | some x =>
      rw [hg] at hc
      obtain ⟨hlt, hx⟩ := List.getElem?_eq_some.mp hg
      exact (hh x (by rw [← hx]; exact List.getElem_mem _)).2 c hc
  refine ⟨rfl, ?_, ?_, rfl⟩
  · dsimp only [keyEnter]
    rw [hl, hb, strlen_strcpy _ _ hnz, Int.toNat_ofNat, strcpy_set_end, cstr_strcpy _ _ hnz]
  · have := (keyEnter_inv hinv).1
    exact_mod_cast this

set_option maxRecDepth 8000 in
theorem foo_bar_up_up :
    (getcmds [126, 47] 3 [] (List.replicate 100 0)
      [102, 111, 111, 10, 98, 97, 114, 10, KEY_UP, KEY_UP, 10]).map
        (fun r => (r.ret, cstr r.ed.buf 0, r.history)) =
      [(0, [102, 111, 111], [[102, 111, 111]]),
       (0, [98, 97, 114], [[102, 111, 111], [98, 97, 114]]),
       (0, [102, 111, 111], [[102, 111, 111], [98, 97, 114], [102, 111, 111]])] := by
  decide

/-- C11: for a non-empty history of `h` entries (strings of at most 99 bytes) and
`k >= 1`, a call of `readline_xv6` that reads `k` times the Up key and then Enter returns
0 with the history entry at index `max(0, h - k)` as the line in `buf`.  And from the
empty history the keystrokes foo ENTER bar ENTER UP UP ENTER make the third call of
`getcmd` return the line `foo`. -/
theorem up_presses_return_entry (cwd : List Nat) (history : List (List Nat))
    (buf rest : List Nat) (k enter : Nat) (hbuf : buf.length = 100) (hne : history ≠ [])
    (hh : ∀ x ∈ history, x.length ≤ 99 ∧ ∀ c ∈ x, c ≠ 0) (hk : 1 ≤ k)
    (he : enter = 10 ∨ enter = 13) :
    ((readline_xv6 cwd history buf 100 (List.replicate k KEY_UP ++ enter :: rest)).ret = 0 ∧
      cstr (readline_xv6 cwd history buf 100
          (List.replicate k KEY_UP ++ enter :: rest)).ed.buf 0 =
        history.getD (max 0 ((history.length : Int) - k)).toNat [] ∧
      (readline_xv6 cwd history buf 100
          (List.replicate k KEY_UP ++ enter :: rest)).ed.buf.length = 100 ∧
      (readline_xv6 cwd history buf 100 (List.replicate k KEY_UP ++ enter :: rest)).rest =
        rest) ∧
    (getcmds [126, 47] 3 [] (List.replicate 100 0)
      [102, 111, 111, 10, 98, 97, 114, 10, KEY_UP, KEY_UP, 10]).map
        (fun r => (r.ret, cstr r.ed.buf 0, r.history)) =
      [(0, [102, 111, 111], [[102, 111, 111]]),
       (0, [98, 97, 114], [[102, 111, 111], [98, 97, 114]]),
       (0, [102, 111, 111], [[102, 111, 111], [98, 97, 114], [102, 111, 111]])] :=
  ⟨ups_then_enter cwd history buf rest k enter hbuf hne hh hk he, foo_bar_up_up⟩

theorem up_presses_return_entry_witness :
    cstr (readline_xv6 [126, 47] [[97], [98], [99]] (List.replicate 100 0) 100
        (List.replicate 2 KEY_UP ++ 10 :: [120])).ed.buf 0 = [98] ∧
    cstr (readline_xv6 [126, 47] [[97], [98], [99]] (List.replicate 100 0) 100
        (List.replicate 5 KEY_UP ++ 13 :: [])).ed.buf 0 = [97] :=
  ⟨(up_presses_return_entry [126, 47] [[97], [98], [99]] (List.replicate 100 0) [120] 2 10
      (by simp) (by decide) (by decide) (by decide) (by decide)).1.2.1,
   (up_presses_return_entry [126, 47] [[97], [98], [99]] (List.replicate 100 0) [] 5 13
      (by simp) (by decide) (by decide) (by decide) (by decide)).1.2.1⟩

/-! ## The lines handed out are printable -/

theorem mem_take_of_le {l : List Nat} {a b : Nat} {x : Nat} (hab : a ≤ b)
    (h : x ∈ l.take a) : x ∈ l.take b := by
  have e : l.take a = (l.take b).take a := by
    rw [List.take_take, Nat.min_eq_left hab]
  rw [e] at h
  exact List.mem_of_mem_take h

theorem mem_take_of_drop {l : List Nat} {a b : Nat} {x : Nat} (hab : a ≤ b)
    (h : x ∈ (l.drop a).take (b - a)) : x ∈ l.take b := by
  have e : l.take b = l.take a ++ (l.drop a).take (b - a) := by
    rw [← List.take_add]
    congr 1
    omega
  rw [e]
  exact List.mem_append_right _ h

theorem goodLine_getD {history : List (List Nat)} (hh : ∀ x ∈ history, GoodLine x) (i : Nat) :
    GoodLine (history.getD i []) := by
  rw [List.getD_eq_getElem?_getD]
  cases hg : history[i]? with
  | none => exact ⟨by simp, by simp⟩
  | some x =>
    obtain ⟨hlt, hx⟩ := List.getElem?_eq_some.mp hg
    exact hh x (by rw [← hx]; exact List.getElem_mem _)

theorem goodLine_nz {l : List Nat} (h : GoodLine l) : ∀ c ∈ l, c ≠ 0 := fun c hc => by
  have := (h.2 c hc).1
  omega

theorem printable_strcpy (dst : List Nat) {src : List Nat} (h : GoodLine src) :
    ∀ c ∈ (strcpy dst src).take (strlen (strcpy dst src) : Int).toNat, 32 ≤ c ∧ c < 127 := by
  rw [Int.toNat_ofNat, strlen_strcpy dst src (goodLine_nz h), take_strcpy]
  exact h.2

theorem take_set_self (l : List Nat) (n a : Nat) : (l.set n a).take n = l.take n := by
  rw [List.set_take, List.set_eq_of_length_le (List.length_take_le n l)]

theorem keyUp_keeps_printable {cwd : List Nat} {history : List (List Nat)} {e : Ed}
    (hh : ∀ x ∈ history, GoodLine x)
    (hq : ∀ b ∈ e.buf.take e.len.toNat, 32 ≤ b ∧ b < 127) :
    ∀ b ∈ (keyUp cwd history e).buf.take (keyUp cwd history e).len.toNat,
      32 ≤ b ∧ b < 127 := by
  by_cases hpos : 0 < history.length
  · obtain ⟨-, hb, hl⟩ := keyUp_buf cwd history e hpos
    rw [hl, hb]
    exact printable_strcpy _ (goodLine_getD hh _)
  · unfold keyUp
    rw [if_neg (by omega)]
    exact hq

theorem keyDown_keeps_printable {cwd : List Nat} {history : List (List Nat)} {e : Ed}
    (hh : ∀ x ∈ history, GoodLine x)
    (hq : ∀ b ∈ e.buf.take e.len.toNat, 32 ≤ b ∧ b < 127) :
    ∀ b ∈ (keyDown cwd history e).buf.take (keyDown cwd history e).len.toNat,
      32 ≤ b ∧ b < 127 := by
  unfold keyDown
  split
  · by_cases hend : (if e.hist_idx < history.length then e.hist_idx + 1 else e.hist_idx)
        = history.length
    · simp only [hend, if_true]
      simp
    · simp only [hend, if_false]
      exact printable_strcpy _ (goodLine_getD hh _)
  · exact hq

theorem key_keeps_printable {cwd : List Nat} {history : List (List Nat)} {e : Ed}
    (hh : ∀ x ∈ history, GoodLine x) (h : EdInv history 100 e)
    (hq : ∀ b ∈ e.buf.take e.len.toNat, 32 ≤ b ∧ b < 127) (c : Nat) :
    ∀ b ∈ (key cwd history 100 e c).buf.take (key cwd history 100 e c).len.toNat,
      32 ≤ b ∧ b < 127 := by
  obtain ⟨h1, h2, h3, h4, h5, h6, h7⟩ := h
  unfold key
  split_ifs with c1 c2 c3 c4 c5 c6 c7
  · unfold keyEnter
    dsimp only
    rw [take_set_self]
    exact hq
  · unfold keyLeft
    split_ifs <;> exact hq
  · unfold keyRight
    split_ifs <;> exact hq
  · exact keyUp_keeps_printable hh hq
  · exact keyDown_keeps_printable hh hq
  · by_cases hc : 0 < e.cursor
    · obtain ⟨a1, a2, a3, a4⟩ := keyBackspace_spec cwd e hc h3 (by omega)
      rw [a2, a3]
      intro b hb
      rcases List.mem_append.mp hb with hb | hb
      · exact hq b (mem_take_of_le (by omega) hb)
      · have e1 : (e.len - e.cursor).toNat = e.len.toNat - e.cursor.toNat := by omega
        rw [e1] at hb
        exact hq b (mem_take_of_drop (by omega) hb)
    · rw [keyBackspace_home cwd e hc]
      exact hq
  · by_cases hl : e.len < 100 - 1
    · obtain ⟨a1, a2, a3, a4⟩ := keyInsert_spec cwd 100 e c h2 h3 (by omega) hl
      rw [a2, a3]
      intro b hb
      rcases List.mem_append.mp hb with hb | hb
      · rcases List.mem_append.mp hb with hb | hb
        · exact hq b (mem_take_of_le (by omega) hb)
        · rw [List.mem_singleton] at hb
          rw [hb]
          exact c7
      · have e1 : (e.len - e.cursor).toNat = e.len.toNat - e.cursor.toNat := by omega
        rw [e1] at hb
        exact hq b (mem_take_of_drop (by omega) hb)
    · rw [keyInsert_full cwd 100 e c hl]
      exact hq
  · exact hq

theorem cstr_keyEnter {history : List (List Nat)} {e : Ed} (h : EdInv history 100 e)
    (hq : ∀ b ∈ e.buf.take e.len.toNat, 32 ≤ b ∧ b < 127) :
    cstr (keyEnter e).buf 0 = e.buf.take e.len.toNat := by
  obtain ⟨h1, h2, h3, h4, h5, h6, h7⟩ := h
  unfold keyEnter
  dsimp only
  rw [cstr_of_rd e.buf _ e.len.toNat 0, List.drop_zero]
  · intro i _ hi
    rw [rd_set_zero, if_neg (by omega)]
    refine ⟨rfl, ?_⟩
    have hlt : i < e.buf.length := by omega
    have hm : rd e.buf i ∈ e.buf.take e.len.toNat := by
      rw [rd_eq_getElem hlt, List.mem_take_iff_getElem]
      exact ⟨i, by omega, rfl⟩
    have := (hq _ hm).1
    omega
  · rw [Nat.zero_add, rd_set_zero, if_pos rfl]

theorem goodLine_take {history : List (List Nat)} {e : Ed} (h : EdInv history 100 e)
    (hq : ∀ b ∈ e.buf.take e.len.toNat, 32 ≤ b ∧ b < 127) :
    GoodLine (e.buf.take e.len.toNat) := by
  refine ⟨?_, hq⟩
  rw [List.length_take]
  have := h.2.2.2.1
  omega

theorem goodLine_history_add {H : List (List Nat)} {L : List Nat} (hlen : H.length ≤ 20)
    (hH : ∀ x ∈ H, GoodLine x) (hL : GoodLine L) : ∀ x ∈ history_add H L, GoodLine x := by
  rw [history_add_eq_ref H L hlen]
  unfold history_add_ref
  intro x hx
  split_ifs at hx
  · exact hH x hx
  · rcases List.mem_append.mp hx with hx | hx
    · exact hH x hx
    · rw [List.mem_singleton.mp hx]; exact hL
  · rcases List.mem_append.mp hx with hx | hx
    · exact hH x (List.mem_of_mem_drop hx)
    · rw [List.mem_singleton.mp hx]; exact hL

theorem readlineLoop_good (cwd : List Nat) {history : List (List Nat)}
    (hlen : history.length ≤ 20) (hh : ∀ x ∈ history, GoodLine x) :
    ∀ (input : List Nat) (e : Ed), EdInv history 100 e →
    (∀ b ∈ e.buf.take e.len.toNat, 32 ≤ b ∧ b < 127) →
    ((readlineLoop cwd history 100 e input).history.length ≤ 20 ∧
      ∀ x ∈ (readlineLoop cwd history 100 e input).history, GoodLine x) ∧
    ((readlineLoop cwd history 100 e input).ret = 0 →
      GoodLine (cstr (readlineLoop cwd history 100 e input).ed.buf 0))
  | [], e, _, _ => ⟨⟨hlen, hh⟩, fun h => by simp [readlineLoop] at h⟩
  | c :: cs, e, h, hq => by
    have hhl : ∀ x ∈ history, (x.length : Int) ≤ 100 - 1 := fun x hx => by
      have := (hh x hx).1; omega
    by_cases hc : c = 10 ∨ c = 13
    · rw [readlineLoop_enter cwd history 100 e hc]
      dsimp only
      have hg : GoodLine (cstr (keyEnter e).buf 0) := by
        rw [cstr_keyEnter h hq]
        exact goodLine_take h hq
      exact ⟨⟨length_history_add_le _ _ hlen, goodLine_history_add hlen hh hg⟩, fun _ => hg⟩
    · rw [readlineLoop, if_neg hc]
      exact readlineLoop_good cwd hlen hh cs _ (key_inv hhl h c)
        (key_keeps_printable hh h hq c)

theorem readline_good (cwd : List Nat) {history : List (List Nat)} (buf input : List Nat)
    (hlen : history.length ≤ 20) (hh : ∀ x ∈ history, GoodLine x) (hbuf : buf.length = 100) :
    ((readline_xv6 cwd history buf 100 input).history.length ≤ 20 ∧
      ∀ x ∈ (readline_xv6 cwd history buf 100 input).history, GoodLine x) ∧
    ((readline_xv6 cwd history buf 100 input).ret = 0 →
      GoodLine (cstr (readline_xv6 cwd history buf 100 input).ed.buf 0)) := by
  unfold readline_xv6
  refine readlineLoop_good cwd hlen hh input _
    (edInit_inv history buf 100 (by omega) (by omega)) ?_
  simp [edInit]

theorem historyAfterCalls_good :
    ∀ (calls : List (List Nat × List Nat × List Nat)) (H : List (List Nat)),
    (∀ c ∈ calls, c.2.1.length = 100) → H.length ≤ 20 → (∀ x ∈ H, GoodLine x) →
    (calls.foldl (fun h c => (readline_xv6 c.1 h c.2.1 100 c.2.2).history) H).length ≤ 20 ∧
    ∀ x ∈ calls.foldl (fun h c => (readline_xv6 c.1 h c.2.1 100 c.2.2).history) H,
      GoodLine x
  | [], _, _, hlen, hh => ⟨hlen, hh⟩
  | c :: calls, H, hc, hlen, hh => by
    rw [List.foldl_cons]
    obtain ⟨⟨g1, g2⟩, -⟩ := readline_good c.1 c.2.1 c.2.2 hlen hh
      (hc c (List.mem_cons_self _ _))
    exact historyAfterCalls_good calls _ (fun x hx => hc x (List.mem_cons_of_mem _ hx)) g1 g2

/-- C20: start from the empty history and make any number of calls `readline_xv6(buf, 100)`
on a buffer of 100 bytes, each over any stream of input bytes.  Then every entry of the
history, and the line of every further call that returns 0, has at most 99 bytes, all of
them printable (0x20..0x7E); so neither holds a newline or a carriage return. -/
theorem lines_are_printable (calls : List (List Nat × List Nat × List Nat))
    (hcalls : ∀ c ∈ calls, c.2.1.length = 100) :
    (∀ x ∈ historyAfterCalls calls, x.length ≤ 99 ∧ (∀ b ∈ x, 32 ≤ b ∧ b < 127) ∧
      10 ∉ x ∧ 13 ∉ x) ∧
    ∀ cwd buf input : List Nat, buf.length = 100 →
      (readline_xv6 cwd (historyAfterCalls calls) buf 100 input).ret = 0 →
      (cstr (readline_xv6 cwd (historyAfterCalls calls) buf 100 input).ed.buf 0).length ≤ 99 ∧
      (∀ b ∈ cstr (readline_xv6 cwd (historyAfterCalls calls) buf 100 input).ed.buf 0,
        32 ≤ b ∧ b < 127) ∧
      10 ∉ cstr (readline_xv6 cwd (historyAfterCalls calls) buf 100 input).ed.buf 0 ∧
      13 ∉ cstr (readline_xv6 cwd (historyAfterCalls calls) buf 100 input).ed.buf 0 := by
  have key : ∀ l : List Nat, GoodLine l →
      l.length ≤ 99 ∧ (∀ b ∈ l, 32 ≤ b ∧ b < 127) ∧ 10 ∉ l ∧ 13 ∉ l := fun l hl =>
    ⟨hl.1, hl.2, fun h => by have := (hl.2 10 h).1; omega,
      fun h => by have := (hl.2 13 h).1; omega⟩
  obtain ⟨g1, g2⟩ := historyAfterCalls_good calls [] hcalls (by simp) (by simp)
  refine ⟨fun x hx => key x (g2 x hx), fun cwd buf input hbuf hret => ?_⟩
  exact key _ ((readline_good cwd buf input g1 g2 hbuf).2 hret)

theorem lines_are_printable_witness :
    (cstr (readline_xv6 [126, 47]
        (historyAfterCalls [([126, 47], List.replicate 100 0, [97, 98, 10])])
        (List.replicate 100 0) 100 [KEY_UP, 7, 120, 13]).ed.buf 0).length ≤ 99 ∧
    10 ∉ cstr (readline_xv6 [126, 47]
        (historyAfterCalls [([126, 47], List.replicate 100 0, [97, 98, 10])])
        (List.replicate 100 0) 100 [KEY_UP, 7, 120, 13]).ed.buf 0 :=
  ⟨((lines_are_printable [([126, 47], List.replicate 100 0, [97, 98, 10])] (by simp)).2
      [126, 47] (List.replicate 100 0) [KEY_UP, 7, 120, 13] (by simp) (by decide)).1,
   ((lines_are_printable [([126, 47], List.replicate 100 0, [97, 98, 10])] (by simp)).2
      [126, 47] (List.replicate 100 0) [KEY_UP, 7, 120, 13] (by simp) (by decide)).2.2.1⟩

/-! ## The prompt string after `cd` -/

theorem cstr_eq_take (b : List Nat) : cstr b 0 = b.take (strlen b) := by
  have h := cstr_strlen b
  rw [cstr_of_rd b b (strlen b) 0 (fun i _ hi => ⟨rfl, h.nz i (by omega)⟩)
    (by rw [Nat.zero_add]; exact h.z), List.drop_zero]

theorem strlen_le_length (b : List Nat) : strlen b ≤ b.length :=
  strlen_le_of_rd (rd_of_length_le (Nat.le_refl _))

theorem cdCopy_spec (path : List Nat) : ∀ (n : Nat) (cwd : List Nat) (len i : Nat),
    i ≤ strlen path → strlen path - i ≤ n → len + (strlen path - i) ≤ cwd.length →
    (cdCopy path n cwd len i).2 = len + (strlen path - i) ∧
    ∀ j, rd (cdCopy path n cwd len i).1 j =
      if len ≤ j ∧ j < len + (strlen path - i) then rd path (i + (j - len)) else rd cwd j
  | 0, cwd, len, i, hi, hn, _ => by
    rw [cdCopy]
    refine ⟨by omega, fun j => ?_⟩
    rw [if_neg (by omega)]
  | n + 1, cwd, len, i, hi, hn, hfit => by
    rw [cdCopy]
    by_cases hz : rd path i ≠ 0
    · have hlt : i < strlen path := by
        rcases Nat.lt_or_ge i (strlen path) with h | h
        · exact h
        · exact absurd (by rw [Nat.le_antisymm hi h]; exact (cstr_strlen path).z) hz
      rw [if_pos hz]
      obtain ⟨a1, a2⟩ := cdCopy_spec path n (cwd.set len (rd path i)) (len + 1) (i + 1)
        (by omega) (by omega) (by rw [List.length_set]; omega)
      refine ⟨by omega, fun j => ?_⟩
      rw [a2, rd_set]
      by_cases h1 : len + 1 ≤ j ∧ j < len + 1 + (strlen path - (i + 1))
      · rw [if_pos h1, if_pos (by omega)]
        congr 1
        omega
      · rw [if_neg h1]
        by_cases h2 : j = len
        · rw [if_pos ⟨h2, by omega⟩, if_pos (by omega), h2, Nat.sub_self, Nat.add_zero]
        · rw [if_neg (by tauto), if_neg (by omega)]
    · rw [if_neg hz]
      have hi2 : i = strlen path := by
        rcases Nat.lt_or_ge i (strlen path) with h | h
        · exact absurd ((cstr_strlen path).nz i h) hz
        · omega
      refine ⟨by omega, fun j => ?_⟩
      rw [if_neg (by omega)]

/-- The string in `cwd` after the bytes of `path` have been copied behind a prefix `pre`
and the terminator has been stored. -/
theorem cstr_cdCopy (path cwd pre : List Nat) (hpre : ∀ i, i < pre.length →
    rd cwd i = rd pre i ∧ rd pre i ≠ 0) (hfit : pre.length + strlen path + 1 ≤ cwd.length) :
    cstr ((cdCopy path path.length cwd pre.length 0).1.set
      (cdCopy path path.length cwd pre.length 0).2 0) 0 = pre ++ cstr path 0 := by
  obtain ⟨a1, a2⟩ := cdCopy_spec path path.length cwd pre.length 0 (Nat.zero_le _)
    (by have := strlen_le_length path; omega) (by omega)
  have hlen : (pre ++ path.take (strlen path)).length = pre.length + strlen path := by
    rw [List.length_append, List.length_take, Nat.min_eq_left (strlen_le_length path)]
  rw [a1, cstr_eq_take path, Nat.sub_zero,
    cstr_of_rd (pre ++ path.take (strlen path)) _ (pre.length + strlen path) 0,
    List.drop_zero, ← hlen, List.take_length]
  · intro i _ hi
    rw [rd_set_zero, if_neg (by omega), a2]
    by_cases h1 : i < pre.length
    · rw [if_neg (by omega), rd_append_left h1]
      exact hpre i h1
    · rw [if_pos (by omega), rd_append_right (by omega), rd_take (by omega), Nat.zero_add]
      exact ⟨rfl, (cstr_strlen path).nz _ (by omega)⟩
  · rw [rd_set_zero, if_pos (by omega)]

theorem cstr_nz (b : List Nat) (q : Nat) : ∀ c ∈ cstr b q, c ≠ 0 := by
  intro c hc
  have := List.mem_takeWhile_imp hc
  simpa using this

theorem length_cstr (b : List Nat) : (cstr b 0).length = strlen b := by
  rw [cstr_eq_take, List.length_take, Nat.min_eq_left (strlen_le_length b)]

theorem rd_cstr (b : List Nat) {i : Nat} (hi : i < strlen b) :
    rd (cstr b 0) i = rd b i ∧ rd b i ≠ 0 := by
  rw [cstr_eq_take, rd_take hi]
  exact ⟨rfl, (cstr_strlen b).nz i hi⟩

theorem slash_first (path : List Nat) :
    rd path 0 = 47 ↔ (cstr path 0).head? = some 47 := by
  cases path with
  | nil => simp [rd, cstr]
  | cons c t =>
    by_cases hc : c = 0
    · subst hc
      simp [rd, cstr]
    · have : cstr (c :: t) 0 = c :: t.takeWhile (fun c => c != 0) := by
        unfold cstr
        rw [List.drop_zero, List.takeWhile_cons_of_pos (by simpa using hc)]
      rw [this]
      simp [rd]

theorem cdCwd_slash (cwd path : List Nat) (r : Int) (hr : 0 ≤ r) (hs : rd path 0 = 47) :
    cstr (cdCwd cwd path r) 0 = cstr path 0 := by
  unfold cdCwd
  rw [if_neg (by omega), if_pos hs, cstr_strcpy _ _ (cstr_nz path 0)]

theorem cdCwd_root (cwd path : List Nat) (r : Int) (hr : 0 ≤ r) (hs : rd path 0 ≠ 47)
    (hroot : cstr cwd 0 = [47]) (hfit : (cstr cwd 0).length + (cstr path 0).length + 1 ≤
      cwd.length) :
    cstr (cdCwd cwd path r) 0 = [47] ++ cstr path 0 := by
  unfold cdCwd
  rw [if_neg (by omega), if_neg hs]
  dsimp only
  rw [if_neg (by rw [hroot]; simp)]
  dsimp only
  have h := cstr_cdCopy path cwd (cstr cwd 0)
    (fun i hi => by
      rw [length_cstr] at hi
      exact ⟨(rd_cstr cwd hi).1.symm, by rw [(rd_cstr cwd hi).1]; exact (rd_cstr cwd hi).2⟩)
    (by rw [length_cstr] at hfit ⊢; rw [length_cstr] at hfit; exact hfit)
  rw [length_cstr] at h
  rw [h, hroot]

theorem cdCwd_append (cwd path : List Nat) (r : Int) (hr : 0 ≤ r) (hs : rd path 0 ≠ 47)
    (hroot : cstr cwd 0 ≠ [47]) (hfit : (cstr cwd 0).length + 1 + (cstr path 0).length + 1 ≤
      cwd.length) :
    cstr (cdCwd cwd path r) 0 = cstr cwd 0 ++ [47] ++ cstr path 0 := by
  unfold cdCwd
  rw [if_neg (by omega), if_neg hs]
  dsimp only
  rw [if_pos hroot]
  dsimp only
  rw [length_cstr, length_cstr] at hfit
  have hpl : (cstr cwd 0 ++ [47]).length = strlen cwd + 1 := by
    rw [List.length_append, length_cstr, List.length_singleton]
  have h := cstr_cdCopy path ((cwd.set (strlen cwd) 47).set (strlen cwd + 1) 0)
    (cstr cwd 0 ++ [47])
    (fun i hi => by
      rw [hpl] at hi
      rw [rd_set_zero, if_neg (by omega), rd_set]
      by_cases h1 : i = strlen cwd
      · rw [if_pos ⟨h1, by omega⟩, rd_append_right (by rw [length_cstr]; omega), length_cstr,
          h1, Nat.sub_self]
        exact ⟨rfl, by decide⟩
      · have h2 : i < strlen cwd := by omega
        rw [if_neg (by tauto), rd_append_left (by rw [length_cstr]; exact h2)]
        exact ⟨(rd_cstr cwd h2).1.symm, by rw [(rd_cstr cwd h2).1]; exact (rd_cstr cwd h2).2⟩)
    (by rw [hpl, List.length_set, List.length_set]; omega)
  rw [hpl] at h
  exact h

/-- C16: what `main` does to the prompt string after `chdir(path)`, the resulting string
fitting the array `cwd`.  When `chdir` fails, `cwd` stays as it is.  When it succeeds: if
`path` begins with `/`, the new string is `path`; else if the old string is `/`, it is `/`
followed by `path`; else it is the old string, `/` and `path`.  So from the initial `~/`
a relative `path` gives `~//` followed by `path`. -/
theorem cd_updates_cwd (cwd path : List Nat) (r : Int) :
    (r < 0 → cdCwd cwd path r = cwd) ∧
    (rd path 0 = 47 ↔ (cstr path 0).head? = some 47) ∧
    (0 ≤ r → rd path 0 = 47 → (cstr path 0).length + 1 ≤ cwd.length →
      cstr (cdCwd cwd path r) 0 = cstr path 0) ∧
    (0 ≤ r → rd path 0 ≠ 47 → cstr cwd 0 = [47] →
      1 + (cstr path 0).length + 1 ≤ cwd.length →
      cstr (cdCwd cwd path r) 0 = [47] ++ cstr path 0) ∧
    (0 ≤ r → rd path 0 ≠ 47 → cstr cwd 0 ≠ [47] →
      (cstr cwd 0).length + 1 + (cstr path 0).length + 1 ≤ cwd.length →
      cstr (cdCwd cwd path r) 0 = cstr cwd 0 ++ [47] ++ cstr path 0) ∧
    (0 ≤ r → rd path 0 ≠ 47 → cstr cwd 0 = [126, 47] →
      3 + (cstr path 0).length + 1 ≤ cwd.length →
      cstr (cdCwd cwd path r) 0 = [126, 47, 47] ++ cstr path 0) := by
  refine ⟨fun hr => ?_, slash_first path, fun hr hs _ => cdCwd_slash cwd path r hr hs,
    fun hr hs hroot hfit => cdCwd_root cwd path r hr hs hroot (by rw [hroot]; exact hfit),
    fun hr hs hroot hfit => cdCwd_append cwd path r hr hs hroot hfit, fun hr hs h0 hfit => ?_⟩
  · unfold cdCwd
    rw [if_pos hr]
  · rw [cdCwd_append cwd path r hr hs (by rw [h0]; decide)
      (by rw [h0]; simpa [Nat.add_assoc] using hfit), h0]
    rfl

set_option maxRecDepth 8000 in
theorem cd_updates_cwd_witness :
    cstr (cdCwd ([126, 47] ++ List.replicate 126 0) [98, 105, 110, 0] 0) 0 =
      [126, 47, 47] ++ cstr [98, 105, 110, 0] 0 ∧
    cstr (cdCwd ([47] ++ List.replicate 127 0) [98, 105, 110, 0] 0) 0 =
      [47] ++ cstr [98, 105, 110, 0] 0 ∧
    cstr (cdCwd ([126, 47] ++ List.replicate 126 0) [47, 98, 105, 110, 0] 0) 0 =
      cstr [47, 98, 105, 110, 0] 0 ∧
    cdCwd ([126, 47] ++ List.replicate 126 0) [98, 105, 110, 0] (-1) =
      [126, 47] ++ List.replicate 126 0 :=
  ⟨(cd_updates_cwd ([126, 47] ++ List.replicate 126 0) [98, 105, 110, 0] 0).2.2.2.2.2
      (by decide) (by decide) (by decide) (by decide),
   (cd_updates_cwd ([47] ++ List.replicate 127 0) [98, 105, 110, 0] 0).2.2.2.1
      (by decide) (by decide) (by decide) (by decide),
   (cd_updates_cwd ([126, 47] ++ List.replicate 126 0) [47, 98, 105, 110, 0] 0).2.2.1
      (by decide) (by decide) (by decide),
   (cd_updates_cwd ([126, 47] ++ List.replicate 126 0) [98, 105, 110, 0] (-1)).1
      (by decide)⟩

/-! ## Executor -/

/-- C17: the calls of the processes that run a Pipe node.  The process running it calls
`pipe`, and when `pipe` fails it prints and exits without a `fork`.  Else it forks.  The
child of the first `fork` makes the calls `close(1)`, `dup(p[1])`, `close(p[0])`,
`close(p[1])` and goes on with the left command.  The parent forks again; the child of the
second `fork` makes the calls `close(0)`, `dup(p[0])`, `close(p[0])`, `close(p[1])` and
goes on with the right command; the parent, only now, closes `p[0]` and `p[1]`, waits
twice and exits. -/
theorem pipe_calls (left right : Cmd) :
    (∀ (a : Ans) (ks : List Ans), a.ret < 0 →
      runcmd (.pipe left right) (a :: ks) = [.pipe, .printf 2 .pipe, .exit] ∧
      Call.fork ∉ runcmd (.pipe left right) (a :: ks)) ∧
    (∀ (a b : Ans) (ks : List Ans), 0 ≤ a.ret → b.ret = 0 →
      runcmd (.pipe left right) (a :: b :: ks) =
        [.pipe, .fork, .close 1, .dup a.p1, .close a.p0, .close a.p1] ++ runcmd left ks) ∧
    (∀ (a b c : Ans) (ks : List Ans), 0 ≤ a.ret → 0 < b.ret → c.ret = 0 →
      runcmd (.pipe left right) (a :: b :: c :: ks) =
        [.pipe, .fork, .fork, .close 0, .dup a.p0, .close a.p0, .close a.p1] ++
          runcmd right ks) ∧
    (∀ (a b c : Ans) (ks : List Ans), 0 ≤ a.ret → 0 < b.ret → 0 < c.ret →
      runcmd (.pipe left right) (a :: b :: c :: ks) =
        [.pipe, .fork, .fork, .close a.p0, .close a.p1, .wait, .wait, .exit]) := by
  refine ⟨fun a ks ha => ?_, fun a b ks ha hb => ?_, fun a b c ks ha hb hc => ?_,
    fun a b c ks ha hb hc => ?_⟩
  · have e : runcmd (.pipe left right) (a :: ks) = [.pipe, .printf 2 .pipe, .exit] := by
      rw [runcmd]
      simp only [Ans.next, List.headD_cons]
      rw [if_pos ha]
      rfl
    rw [e]
    exact ⟨rfl, by decide⟩
  · rw [runcmd]
    simp only [Ans.next, List.headD_cons, List.tail_cons]
    rw [if_neg (by omega), if_neg (by omega), if_pos hb]
    rfl
  · rw [runcmd]
    simp only [Ans.next, List.headD_cons, List.tail_cons]
    rw [if_neg (by omega), if_neg (by omega), if_neg (by omega), if_neg (by omega), if_pos hc]
    rfl
  · rw [runcmd]
    simp only [Ans.next, List.headD_cons, List.tail_cons]
    rw [if_neg (by omega), if_neg (by omega), if_neg (by omega), if_neg (by omega),
      if_neg (by omega)]

theorem pipe_calls_witness :
    runcmd (.pipe (.exec [(0, 2)]) (.exec [(5, 7)])) [⟨0, 3, 4⟩, ⟨7, 0, 0⟩, ⟨8, 0, 0⟩] =
      [.pipe, .fork, .fork, .close 3, .close 4, .wait, .wait, .exit] ∧
    runcmd (.pipe (.exec [(0, 2)]) (.exec [(5, 7)])) [⟨0, 3, 4⟩, ⟨0, 0, 0⟩, ⟨0, 0, 0⟩] =
      [.pipe, .fork, .close 1, .dup 4, .close 3, .close 4] ++
        runcmd (.exec [(0, 2)]) [⟨0, 0, 0⟩] ∧
    runcmd (.pipe (.exec [(0, 2)]) (.exec [(5, 7)])) [⟨-1, 0, 0⟩] =
      [.pipe, .printf 2 .pipe, .exit] :=
  ⟨(pipe_calls (.exec [(0, 2)]) (.exec [(5, 7)])).2.2.2 ⟨0, 3, 4⟩ ⟨7, 0, 0⟩ ⟨8, 0, 0⟩ []
      (by decide) (by decide) (by decide),
   (pipe_calls (.exec [(0, 2)]) (.exec [(5, 7)])).2.1 ⟨0, 3, 4⟩ ⟨0, 0, 0⟩ [⟨0, 0, 0⟩]
      (by decide) (by decide),
   ((pipe_calls (.exec [(0, 2)]) (.exec [(5, 7)])).1 ⟨-1, 0, 0⟩ [] (by decide)).1⟩

/-! ## The tokenizer against the specification -/

theorem strchr_whitespace (c : Nat) : strchr whitespace c = specSpace c := by
  simp only [strchr, whitespace, specSpace, List.contains_cons, List.contains_nil,
    Bool.or_false, Bool.or_assoc]

theorem strchr_symbols (c : Nat) : strchr symbols c = specSymbol c := by
  simp only [strchr, symbols, specSymbol, List.contains_cons, List.contains_nil,
    Bool.or_false, Bool.or_assoc]

theorem le_length_of_cstr {b : List Nat} {es : Nat} (hb : CStr b es) : es ≤ b.length := by
  by_contra hc
  exact hb.nz b.length (by omega) (rd_of_length_le (Nat.le_refl _))

theorem drop_take_cons {b : List Nat} {es s : Nat} (hes : es ≤ b.length) (hs : s < es) :
    (b.take es).drop s = rd b s :: (b.take es).drop (s + 1) := by
  rw [drop_eq_rd_cons (by rw [List.length_take]; omega), rd_take hs]

theorem drop_take_end (b : List Nat) {es s : Nat} (hs : es ≤ s) : (b.take es).drop s = [] :=
  List.drop_eq_nil_of_le (by rw [List.length_take]; omega)

theorem skipwsLoop_run (b : List Nat) (es : Nat) (hes : es ≤ b.length) :
    ∀ n s, n = es - s → s ≤ es →
    skipwsLoop b es n s = s + (((b.take es).drop s).takeWhile specSpace).length
  | 0, s, hn, hs => by
    rw [skipwsLoop, drop_take_end b (by omega)]
    rfl
  | n + 1, s, hn, hs => by
    have hlt : s < es := by omega
    rw [skipwsLoop, drop_take_cons hes hlt]
    by_cases hw : strchr whitespace (rd b s) = true
    · have hw2 : specSpace (rd b s) = true := by rw [← strchr_whitespace]; exact hw
      rw [if_pos (by simp [hlt, hw]), skipwsLoop_run b es hes n (s + 1) (by omega) (by omega),
        List.takeWhile_cons_of_pos hw2, List.length_cons]
      omega
    · have hw2 : ¬ specSpace (rd b s) = true := by rw [← strchr_whitespace]; exact hw
      rw [if_neg (by simp [hw]), List.takeWhile_cons_of_neg hw2]
      rfl

theorem skipws_eq_run {b : List Nat} {es s : Nat} (hes : es ≤ b.length) (hs : s ≤ es) :
    skipws b es s = s + (((b.take es).drop s).takeWhile specSpace).length :=
  skipwsLoop_run b es hes _ s rfl hs

theorem wordLoop_run (b : List Nat) (es : Nat) (hes : es ≤ b.length) :
    ∀ n s, n = es - s → s ≤ es →
    wordLoop b es n s = s +
      (((b.take es).drop s).takeWhile (fun x => !specSpace x && !specSymbol x)).length
  | 0, s, hn, hs => by
    rw [wordLoop, drop_take_end b (by omega)]
    rfl
  | n + 1, s, hn, hs => by
    have hlt : s < es := by omega
    rw [wordLoop, drop_take_cons hes hlt]
    by_cases hw : (!strchr whitespace (rd b s) && !strchr symbols (rd b s)) = true
    · have hw2 : (!specSpace (rd b s) && !specSymbol (rd b s)) = true := by
        rw [← strchr_whitespace, ← strchr_symbols]; exact hw
      have hw3 := hw
      rw [Bool.and_eq_true] at hw3
      rw [if_pos (by simp only [Bool.and_eq_true, decide_eq_true_eq]; exact ⟨⟨hlt, hw3.1⟩, hw3.2⟩),
        wordLoop_run b es hes n (s + 1) (by omega) (by omega),
        List.takeWhile_cons_of_pos (p := fun x => !specSpace x && !specSymbol x) hw2,
        List.length_cons]
      omega
    · have hw2 : ¬ (!specSpace (rd b s) && !specSymbol (rd b s)) = true := by
        rw [← strchr_whitespace, ← strchr_symbols]; exact hw
      rw [if_neg (by
        simp only [Bool.and_eq_true, decide_eq_true_eq, not_and] at hw ⊢
        intro h1
        exact hw h1.2),
        List.takeWhile_cons_of_neg (p := fun x => !specSpace x && !specSymbol x) hw2]
      rfl

theorem wordEnd_eq_run {b : List Nat} {es s : Nat} (hes : es ≤ b.length) (hs : s ≤ es) :
    wordEnd b es s = s +
      (((b.take es).drop s).takeWhile (fun x => !specSpace x && !specSymbol x)).length :=
  wordLoop_run b es hes _ s rfl hs

theorem head_drop_take {b : List Nat} {es s : Nat} (hb : CStr b es) (hs : s ≤ es) :
    ((b.take es).drop s).head? = some 62 ↔ rd b s = 62 := by
  have hes := le_length_of_cstr hb
  rcases Nat.lt_or_ge s es with h | h
  · rw [drop_take_cons hes h]
    simp
  · have : s = es := by omega
    rw [drop_take_end b h, this, hb.z]
    simp

theorem specSkip_eq {b : List Nat} {es s : Nat} (hes : es ≤ b.length) (hs : s ≤ es) :
    specSkip (b.take es) s = skipws b es s :=
  (skipws_eq_run hes hs).symm

theorem gettoken_eq_next_token {b : List Nat} {es ps : Nat} (hb : CStr b es) (hp : ps ≤ es) :
    gettoken b es ps = next_token (b.take es) ps := by
  have hes := le_length_of_cstr hb
  have hle := skipws_le (b := b) hp
  unfold next_token
  dsimp only
  rw [specSkip_eq hes hp]
  cases gettoken_cases hb hp with
  | eoi h1 h2 =>
    have hk : specKind (b.take es) (skipws b es ps) = (0, es) := by
      unfold specKind
      rw [h1, drop_take_end b (Nat.le_refl _)]
    rw [h2, hk, h1]
    dsimp only
    rw [specSkip_eq hes (Nat.le_refl _), skipws_fix (by omega)]
  | sym h1 h2 h3 =>
    simp only [List.mem_cons, List.mem_singleton, List.not_mem_nil, or_false] at h2
    have hk : specKind (b.take es) (skipws b es ps) =
        (rd b (skipws b es ps), skipws b es ps + 1) := by
      unfold specKind
      rw [drop_take_cons hes h1]
      dsimp only
      rw [if_pos h2]
    rw [h3, hk]
    dsimp only
    rw [specSkip_eq hes (by omega)]
  | gt h1 h2 h3 h4 =>
    have hk : specKind (b.take es) (skipws b es ps) = (62, skipws b es ps + 1) := by
      unfold specKind
      rw [drop_take_cons hes h1]
      dsimp only
      rw [h2, if_neg (by decide), if_pos rfl,
        if_neg (by rw [head_drop_take hb (by omega)]; exact h3)]
    rw [h4, hk]
    dsimp only
    rw [specSkip_eq hes (by omega)]
  | app h1 h2 h3 h4 =>
    have hk : specKind (b.take es) (skipws b es ps) = (43, skipws b es ps + 2) := by
      unfold specKind
      rw [drop_take_cons hes (by omega)]
      dsimp only
      rw [h2, if_neg (by decide), if_pos rfl,
        if_pos (by rw [head_drop_take hb (by omega)]; exact h3)]
    rw [h4, hk]
    dsimp only
    rw [specSkip_eq hes (by omega)]
  | word h1 h2 h3 h4 =>
    obtain ⟨w1, w2, w3⟩ := wordByte_parts h2
    have hsym : ∀ c ∈ symbols, rd b (skipws b es ps) ≠ c := by
      intro c hc heq
      rw [heq] at w3
      have : strchr symbols c = true := by simpa [strchr] using hc
      rw [this] at w3
      cases w3
    have hk : specKind (b.take es) (skipws b es ps) =
        (97, wordEnd b es (skipws b es ps)) := by
      unfold specKind
      rw [← wordEnd_eq_run hes hle, drop_take_cons hes h1]
      dsimp only
      rw [if_neg (by
          have a1 := hsym 124 (by decide)
          have a2 := hsym 40 (by decide)
          have a3 := hsym 41 (by decide)
          have a4 := hsym 59 (by decide)
          have a5 := hsym 38 (by decide)
          have a6 := hsym 60 (by decide)
          tauto),
        if_neg (hsym 62 (by decide))]
    have hwe := (wordEnd_spec hb hle).2.1
    rw [h3, hk]
    dsimp only
    rw [specSkip_eq hes hwe]


/-- C18: on a buffer that holds a string with `es` at its terminator, `gettoken` is the
tokenizer of the specification run on the bytes in front of `es`: same kind, same start
and stop of the token, same cursor afterwards.  A WORD is a non-empty run of bytes that
are neither whitespace nor one of `<|>&;()`, and a longest one: the byte at its stop is
the terminator, whitespace or one of those symbols.  And the cursor left behind rests at
the end of the input or at a byte that is not whitespace. -/
theorem gettoken_refines (b : List Nat) (es ps : Nat) (hb : CStr b es) (hp : ps ≤ es) :
    gettoken b es ps = next_token (b.take es) ps ∧
    ((gettoken b es ps).ret = 97 →
      (gettoken b es ps).q < (gettoken b es ps).eq ∧ (gettoken b es ps).eq ≤ es ∧
      (∀ i, (gettoken b es ps).q ≤ i → i < (gettoken b es ps).eq →
        specSpace (rd b i) = false ∧ specSymbol (rd b i) = false) ∧
      ((gettoken b es ps).eq = es ∨ specSpace (rd b (gettoken b es ps).eq) = true ∨
        specSymbol (rd b (gettoken b es ps).eq) = true)) ∧
    ((gettoken b es ps).ps = es ∨
      ((gettoken b es ps).ps < es ∧ specSpace (rd b (gettoken b es ps).ps) = false)) := by
  refine ⟨gettoken_eq_next_token hb hp, fun hw => ?_, ?_⟩
  · obtain ⟨g1, g2, g3, g4⟩ := gettoken_word_good hb hp hw
    dsimp only at g1 g2 g3 g4
    refine ⟨g1, g2, fun i h1 h2 => ?_, ?_⟩
    · obtain ⟨-, w2, w3⟩ := wordByte_parts (g3 i h1 h2)
      rw [← strchr_whitespace, ← strchr_symbols]
      exact ⟨w2, w3⟩
    · by_cases he : (gettoken b es ps).eq = es
      · exact Or.inl he
      · right
        have hnz := hb.nz (gettoken b es ps).eq (by omega)
        rw [← strchr_whitespace, ← strchr_symbols]
        rcases hx : strchr whitespace (rd b (gettoken b es ps).eq) with _ | _
        · right
          rcases hy : strchr symbols (rd b (gettoken b es ps).eq) with _ | _
          · have : wordByte (rd b (gettoken b es ps).eq) = true := by
              simp [wordByte, hnz, hx, hy]
            rw [this] at g4
            cases g4
          · rfl
        · exact Or.inl rfl
  · have hle := (gettoken_bounds hb hp).2.2.2.1
    have hstop := skipws_stop b es (gettoken b es ps).ps
    rw [gettoken_ps_fix] at hstop
    by_cases he : (gettoken b es ps).ps = es
    · exact Or.inl he
    · right
      refine ⟨by omega, ?_⟩
      rw [← strchr_whitespace]
      rcases hx : strchr whitespace (rd b (gettoken b es ps).ps) with _ | _
      · rfl
      · exact absurd ⟨by omega, hx⟩ hstop

theorem gettoken_refines_witness :
    gettoken [32, 108, 115, 62, 62, 102, 0] 6 0 = next_token [32, 108, 115, 62, 62, 102] 0 ∧
    gettoken [32, 108, 115, 62, 62, 102, 0] 6 3 = ⟨43, 3, 5, 5⟩ ∧
    next_token [32, 108, 115, 62, 62, 102] 0 = ⟨97, 1, 3, 3⟩ :=
  ⟨(gettoken_refines [32, 108, 115, 62, 62, 102, 0] 6 0
      ⟨by decide, by decide⟩ (by decide)).1,
   by decide, by decide⟩

end Sh
